import Mathlib


/-!
Isetta engine: the bounding-volume tree (`Collisions/BVTree.cpp`).

A shallow embedding of `BVTree` over an explicit node heap.  Nodes are
addressed by natural numbers, a null pointer is `none`, and every operation
returns an `Outcome`: either the state it finished in, or the error it
stopped with together with the state at that moment.  Loops and recursive
descents over the heap carry a fuel argument.

The box type `AABB`, the scalar type `F` (the `float` of the source), `Ray`
and `RaycastHit` are not part of the embedded translation unit; they are type
parameters, and the functions on them are fields of `Externals` and
`ColliderEnv`.
-/

set_option autoImplicit false

namespace Isetta

/-! ## Data model -/

/-- Identity of a collider object (a non-null `Collider*`). -/
abbrev Collider := Nat

/-- Address of a `BVTree::Node`; a nullable `Node*` is an `Option NodePtr`. -/
abbrev NodePtr := Nat

/-- Reasons for which a call stops without completing. -/
inductive Err where
  | assertion
  | nullDeref
  | badAccess
  | badFree
  | outOfFuel
  deriving DecidableEq, Repr

/-- Result of a state-changing call: the final state, or the error and the
state in which the call stopped. -/
inductive Outcome (σ : Type) where
  | ok (s : σ)
  | abort (e : Err) (s : σ)

/-- Sequencing of state-changing calls: an abort stops the sequence. -/
def Outcome.andThen {σ : Type} (o : Outcome σ) (f : σ → Outcome σ) : Outcome σ :=
  match o with
  | .ok s => f s
  | .abort e s => .abort e s

/-- The state an outcome carries. -/
def Outcome.state {σ : Type} : Outcome σ → σ
  | .ok s => s
  | .abort _ s => s

/-- Whether the call completed. -/
def Outcome.isOk {σ : Type} : Outcome σ → Bool
  | .ok _ => true
  | .abort _ _ => false

/-- The fields of `BVTree::Node`. -/
structure Node (AABB : Type) where
  parent : Option NodePtr
  left : Option NodePtr
  right : Option NodePtr
  collider : Option Collider
  aabb : AABB

/-- Functions of the engine on boxes, scalars and raycast hits that the tree
calls (`AABB::Encapsulate`, `AABB::SurfaceArea`, `AABB::Intersect`,
`AABB::Contains`, `AABB::Raycast`, `float` subtraction and `<`,
`RaycastHit::GetDistance`). -/
structure Externals (AABB F Ray Hit : Type) where
  Encapsulate : AABB → AABB → AABB
  SurfaceArea : AABB → F
  Intersect : AABB → AABB → Bool
  Contains : AABB → AABB → Bool
  RaycastAABB : AABB → Ray → F → Bool
  fsub : F → F → F
  flt : F → F → Bool
  GetDistance : Hit → F

/-- What the colliders answer at the time of a call (`Collider::GetFatAABB`,
`Collider::GetAABB`, the `IS_STATIC` property, `Collider::Raycast`; the latter
is `some hit` when it returns true with `hit` written to its output). -/
structure ColliderEnv (AABB F Ray Hit : Type) where
  GetFatAABB : Collider → AABB
  GetAABB : Collider → AABB
  IsStatic : Collider → Bool
  Raycast : Collider → Ray → F → Option Hit

/-- The tree object together with the node heap it allocates from. -/
structure BVTree (AABB : Type) where
  root : Option NodePtr
  colNodeMap : List (Collider × NodePtr)
  colliderPairSet : List (Collider × Option Collider)
  mem : NodePtr → Option (Node AABB)
  brk : Nat

/-- A freshly constructed tree on an empty heap. -/
def BVTree.empty (AABB : Type) : BVTree AABB :=
  { root := none, colNodeMap := [], colliderPairSet := [], mem := fun _ => none, brk := 0 }

section Model

variable {AABB F Ray Hit : Type}

/-! ## Node heap -/

/-- Dereference of a nullable node pointer. -/
def deref (mem : NodePtr → Option (Node AABB)) (p : Option NodePtr) : Except Err (Node AABB) :=
  match p with
  | none => .error .nullDeref
  | some q =>
    match mem q with
    | none => .error .badAccess
    | some n => .ok n

/-- Assignment to fields of the node at `p`. -/
def BVTree.modify (s : BVTree AABB) (p : NodePtr) (f : Node AABB → Node AABB) :
    Outcome (BVTree AABB) :=
  match s.mem p with
  | none => .abort .badAccess s
  | some n => .ok { s with mem := Function.update s.mem p (some (f n)) }

/-- Lowest address that holds no node: the first-fit search of the
address-ordered free list described in `FreeListAllocator.h`. -/
def firstFree (mem : NodePtr → Option (Node AABB)) (brk : Nat) : NodePtr :=
  ((List.range brk).find? (fun p => (mem p).isNone)).getD brk

/-- Modelled from the spec: `MemoryManager::NewOnFreeList<Node>` (the Node
Pool's `Allocate(constructor-args) → Node*`), which is not in the embedded
sources.  It places the constructed node at the first free address. -/
def NewOnFreeList (s : BVTree AABB) (n : Node AABB) : NodePtr × BVTree AABB :=
  let p := firstFree s.mem s.brk
  (p, { s with mem := Function.update s.mem p (some n), brk := max s.brk (p + 1) })

/-- Modelled from the spec: `MemoryManager::DeleteOnFreeList<Node>` (the Node
Pool's `Release(Node*) → void`), which is not in the embedded sources.
Releasing an address that holds no node is reported. -/
def DeleteOnFreeList (s : BVTree AABB) (p : Option NodePtr) : Outcome (BVTree AABB) :=
  match p with
  | none => .abort .nullDeref s
  | some q =>
    match s.mem q with
    | none => .abort .badFree s
    | some _ => .ok { s with mem := Function.update s.mem q none }

/-- Modelled from the spec: the constructor `Node(Collider*)` of `BVTree.h`
("a leaf node ... with the collider's current fat AABB"). -/
def Node.ofCollider (env : ColliderEnv AABB F Ray Hit) (c : Collider) : Node AABB :=
  { parent := none, left := none, right := none, collider := some c, aabb := env.GetFatAABB c }

/-- Modelled from the spec: the constructor `Node(AABB)` of `BVTree.h` (a
branch holds no collider). -/
def Node.ofAABB (box : AABB) : Node AABB :=
  { parent := none, left := none, right := none, collider := none, aabb := box }

/-- Modelled from the spec: `Node::IsLeaf` of `BVTree.h` ("`left`, `right`:
both null for a leaf"). -/
def Node.IsLeaf (n : Node AABB) : Bool :=
  n.left.isNone && n.right.isNone

/-- Modelled from the spec: `Node::IsInFatAABB` of `BVTree.h` (the stored fat
AABB contains the collider's tight AABB). -/
def Node.IsInFatAABB (ext : Externals AABB F Ray Hit) (env : ColliderEnv AABB F Ray Hit)
    (n : Node AABB) : Except Err Bool :=
  match n.collider with
  | none => .error .nullDeref
  | some c => .ok (ext.Contains n.aabb (env.GetAABB c))

/-! ## Node methods -/

/-- Function `BVTree::Node::UpdateBranchAABB` on the node at `this`. -/
def UpdateBranchAABB (ext : Externals AABB F Ray Hit) (s : BVTree AABB) (this : NodePtr) :
    Outcome (BVTree AABB) :=
  match s.mem this with
  | none => .abort .badAccess s
  | some n =>
    if n.collider.isNone && !n.IsLeaf then
      match deref s.mem n.left with
      | .error e => .abort e s
      | .ok ln =>
        match deref s.mem n.right with
        | .error e => .abort e s
        | .ok rn => s.modify this (fun m => { m with aabb := ext.Encapsulate ln.aabb rn.aabb })
    else .abort .assertion s

/-- Function `BVTree::Node::UpdateLeafAABB` on the node at `this`. -/
def UpdateLeafAABB (env : ColliderEnv AABB F Ray Hit) (s : BVTree AABB) (this : NodePtr) :
    Outcome (BVTree AABB) :=
  match s.mem this with
  | none => .abort .badAccess s
  | some n =>
    match n.collider with
    | some c =>
      if n.IsLeaf then s.modify this (fun m => { m with aabb := env.GetFatAABB c })
      else .abort .assertion s
    | none => .abort .assertion s

/-- Function `BVTree::Node::SwapOutChild` on the node at `this`. -/
def SwapOutChild (s : BVTree AABB) (this : NodePtr) (oldChild : NodePtr)
    (newChild : Option NodePtr) : Outcome (BVTree AABB) :=
  match s.mem this with
  | none => .abort .badAccess s
  | some n =>
    if n.left = some oldChild ∨ n.right = some oldChild then
      if n.left = some oldChild then
        (s.modify this (fun m => { m with left := newChild })).andThen fun s1 =>
        match newChild with
        | none => .abort .nullDeref s1
        | some c => s1.modify c (fun m => { m with parent := some this })
      else
        (s.modify this (fun m => { m with right := newChild })).andThen fun s1 =>
        match newChild with
        | none => .abort .nullDeref s1
        | some c => s1.modify c (fun m => { m with parent := some this })
    else .abort .assertion s

/-! ## Insertion and removal -/

/-- The descent loop of `BVTree::AddNode`: from `cur` down to a leaf, to the
right child when `leftIncrease > rightIncrease` and to the left one
otherwise. -/
def AddNode.descend (ext : Externals AABB F Ray Hit) (mem : NodePtr → Option (Node AABB))
    (newAABB : AABB) : Nat → NodePtr → Except Err NodePtr
  | 0, _ => .error .outOfFuel
  | fuel + 1, cur =>
    match mem cur with
    | none => .error .badAccess
    | some n =>
      if n.IsLeaf then .ok cur
      else
        match deref mem n.left with
        | .error e => .error e
        | .ok ln =>
          match deref mem n.right with
          | .error e => .error e
          | .ok rn =>
            let leftIncrease :=
              ext.fsub (ext.SurfaceArea (ext.Encapsulate ln.aabb newAABB)) (ext.SurfaceArea ln.aabb)
            let rightIncrease :=
              ext.fsub (ext.SurfaceArea (ext.Encapsulate rn.aabb newAABB)) (ext.SurfaceArea rn.aabb)
            if ext.flt rightIncrease leftIncrease then
              match n.right with
              | none => .error .nullDeref
              | some r => AddNode.descend ext mem newAABB fuel r
            else
              match n.left with
              | none => .error .nullDeref
              | some l => AddNode.descend ext mem newAABB fuel l

/-- The loops `while (parent != nullptr) { parent->UpdateBranchAABB(); parent =
parent->parent; }` that close `AddNode` and `RemoveNode`. -/
def refit (ext : Externals AABB F Ray Hit) : Nat → BVTree AABB → Option NodePtr →
    Outcome (BVTree AABB)
  | _, s, none => .ok s
  | 0, s, some _ => .abort .outOfFuel s
  | fuel + 1, s, some p =>
    (UpdateBranchAABB ext s p).andThen fun s1 =>
    match s1.mem p with
    | none => .abort .badAccess s1
    | some n => refit ext fuel s1 n.parent

/-- Function `BVTree::AddNode`. -/
def AddNode (ext : Externals AABB F Ray Hit) (fuel : Nat) (s : BVTree AABB) (newNode : NodePtr) :
    Outcome (BVTree AABB) :=
  match s.mem newNode with
  | none => .abort .badAccess s
  | some nn =>
    let newAABB := nn.aabb
    match s.root with
    | none =>
      ({ s with root := some newNode } : BVTree AABB).modify newNode
        (fun m => { m with parent := none })
    | some r =>
      match AddNode.descend ext s.mem newAABB fuel r with
      | .error e => .abort e s
      | .ok cur =>
        match s.mem cur with
        | none => .abort .badAccess s
        | some cn =>
          if cur = r then
            let a := NewOnFreeList s (Node.ofAABB (ext.Encapsulate cn.aabb newAABB))
            let s1 : BVTree AABB := { a.2 with root := some a.1 }
            (s1.modify cur (fun m => { m with parent := some a.1 })).andThen fun s2 =>
            (s2.modify newNode (fun m => { m with parent := some a.1 })).andThen fun s3 =>
            (s3.modify a.1 (fun m => { m with left := some cur })).andThen fun s4 =>
            s4.modify a.1 (fun m => { m with right := some newNode })
          else
            let a := NewOnFreeList s (Node.ofAABB (ext.Encapsulate cn.aabb nn.aabb))
            (a.2.modify a.1 (fun m => { m with parent := cn.parent })).andThen fun s1 =>
            match cn.parent with
            | none => .abort .nullDeref s1
            | some cp =>
              (SwapOutChild s1 cp cur (some a.1)).andThen fun s2 =>
              (s2.modify cur (fun m => { m with parent := some a.1 })).andThen fun s3 =>
              (s3.modify newNode (fun m => { m with parent := some a.1 })).andThen fun s4 =>
              (s4.modify a.1 (fun m => { m with left := some cur })).andThen fun s5 =>
              (s5.modify a.1 (fun m => { m with right := some newNode })).andThen fun s6 =>
              match s6.mem a.1 with
              | none => .abort .badAccess s6
              | some bn => refit ext fuel s6 bn.parent

/-- Function `BVTree::RemoveNode`. -/
def RemoveNode (ext : Externals AABB F Ray Hit) (fuel : Nat) (s : BVTree AABB) (node : NodePtr)
    (deleteNode : Bool) : Outcome (BVTree AABB) :=
  match s.mem node with
  | none => .abort .badAccess s
  | some n =>
    if n.IsLeaf then
      Outcome.andThen (if s.root = some node then
        .ok { s with root := none }
      else if n.parent = s.root then
        match deref s.mem s.root with
        | .error e => .abort e s
        | .ok rn =>
          let newRoot := if some node = rn.left then rn.right else rn.left
          (DeleteOnFreeList s s.root).andThen fun s1 =>
          let s2 : BVTree AABB := { s1 with root := newRoot }
          match newRoot with
          | none => .abort .nullDeref s2
          | some q => s2.modify q (fun m => { m with parent := none })
      else
        match n.parent with
        | none => .abort .nullDeref s
        | some parent =>
          match s.mem parent with
          | none => .abort .badAccess s
          | some pn =>
            match pn.parent with
            | none => .abort .assertion s
            | some grandParent =>
              if some node = pn.left ∨ some node = pn.right then
                (if some node = pn.left then SwapOutChild s grandParent parent pn.right
                 else SwapOutChild s grandParent parent pn.left).andThen fun s1 =>
                (DeleteOnFreeList s1 (some parent)).andThen fun s2 =>
                refit ext fuel s2 (some grandParent)
              else .abort .assertion s) fun s3 =>
      if deleteNode then DeleteOnFreeList s3 (some node) else .ok s3
    else .abort .assertion s

/-! ## Public operations -/

/-- Model of `std::unordered_map::insert`: no effect when the key is present. -/
def mapInsert (m : List (Collider × NodePtr)) (c : Collider) (p : NodePtr) :
    List (Collider × NodePtr) :=
  if (m.find? (fun e => e.1 == c)).isSome then m else m ++ [(c, p)]

/-- Model of `std::unordered_map::find`: the node stored under the key. -/
def mapFind (m : List (Collider × NodePtr)) (c : Collider) : Option NodePtr :=
  (m.find? (fun e => e.1 == c)).map (fun e => e.2)

/-- Model of `std::unordered_map::erase` of the entry found under the key. -/
def mapErase (m : List (Collider × NodePtr)) (c : Collider) : List (Collider × NodePtr) :=
  m.filter (fun e => !(e.1 == c))

/-- Function `BVTree::AddCollider`. -/
def AddCollider (ext : Externals AABB F Ray Hit) (env : ColliderEnv AABB F Ray Hit) (fuel : Nat)
    (s : BVTree AABB) (collider : Collider) : Outcome (BVTree AABB) :=
  let a := NewOnFreeList s (Node.ofCollider env collider)
  let s1 : BVTree AABB := { a.2 with colNodeMap := mapInsert a.2.colNodeMap collider a.1 }
  AddNode ext fuel s1 a.1

/-- Function `BVTree::RemoveCollider`. -/
def RemoveCollider (ext : Externals AABB F Ray Hit) (fuel : Nat) (s : BVTree AABB)
    (collider : Collider) : Outcome (BVTree AABB) :=
  match mapFind s.colNodeMap collider with
  | none => .abort .assertion s
  | some node =>
    (RemoveNode ext fuel s node true).andThen fun s1 =>
    .ok { s1 with colNodeMap := mapErase s1.colNodeMap collider }

/-- The breadth-first walk of `BVTree::Update` that fills `toReInsert`. -/
def Update.collect (ext : Externals AABB F Ray Hit) (env : ColliderEnv AABB F Ray Hit)
    (mem : NodePtr → Option (Node AABB)) :
    Nat → List NodePtr → List NodePtr → Except Err (List NodePtr)
  | _, [], toReInsert => .ok toReInsert
  | 0, _ :: _, _ => .error .outOfFuel
  | fuel + 1, cur :: q, toReInsert =>
    match mem cur with
    | none => .error .badAccess
    | some n =>
      let q1 := match n.left with
        | some l => q ++ [l]
        | none => q
      let q2 := match n.right with
        | some r => q1 ++ [r]
        | none => q1
      if n.IsLeaf then
        match n.IsInFatAABB ext env with
        | .error e => .error e
        | .ok b =>
          if !b then Update.collect ext env mem fuel q2 (toReInsert ++ [cur])
          else Update.collect ext env mem fuel q2 toReInsert
      else Update.collect ext env mem fuel q2 toReInsert

/-- The loop `for (auto node : toReInsert) RemoveNode(node, false);`. -/
def Update.removeAll (ext : Externals AABB F Ray Hit) (fuel : Nat) :
    BVTree AABB → List NodePtr → Outcome (BVTree AABB)
  | s, [] => .ok s
  | s, node :: rest =>
    (RemoveNode ext fuel s node false).andThen fun s1 => Update.removeAll ext fuel s1 rest

/-- The loop `for (auto node : toReInsert) { node->UpdateLeafAABB();
AddNode(node); }`. -/
def Update.reinsertAll (ext : Externals AABB F Ray Hit) (env : ColliderEnv AABB F Ray Hit)
    (fuel : Nat) : BVTree AABB → List NodePtr → Outcome (BVTree AABB)
  | s, [] => .ok s
  | s, node :: rest =>
    (UpdateLeafAABB env s node).andThen fun s1 =>
    (AddNode ext fuel s1 node).andThen fun s2 => Update.reinsertAll ext env fuel s2 rest

/-- Function `BVTree::Update`. -/
def Update (ext : Externals AABB F Ray Hit) (env : ColliderEnv AABB F Ray Hit) (fuel : Nat)
    (s : BVTree AABB) : Outcome (BVTree AABB) :=
  let q := match s.root with
    | some r => [r]
    | none => []
  match Update.collect ext env s.mem fuel q [] with
  | .error e => .abort e s
  | .ok toReInsert =>
    (Update.removeAll ext fuel s toReInsert).andThen fun s1 =>
    Update.reinsertAll ext env fuel s1 toReInsert

/-! ## Queries -/

/-- Function `BVTree::Raycast(Node*, ...)`: the result and the content of `*hitInfo`
afterwards.  The `||` of the source evaluates its right operand only when the
left one is false. -/
def RaycastNode (ext : Externals AABB F Ray Hit) (env : ColliderEnv AABB F Ray Hit)
    (mem : NodePtr → Option (Node AABB)) (ray : Ray) (maxDistance : F) :
    Nat → Option NodePtr → Hit → Except Err (Bool × Hit)
  | 0, _, _ => .error .outOfFuel
  | _ + 1, none, hitInfo => .ok (false, hitInfo)
  | fuel + 1, some p, hitInfo =>
    match mem p with
    | none => .error .badAccess
    | some n =>
      if !ext.RaycastAABB n.aabb ray maxDistance then .ok (false, hitInfo)
      else if n.IsLeaf then
        match n.collider with
        | none => .error .nullDeref
        | some c =>
          match env.Raycast c ray maxDistance with
          | some hitTmp =>
            if ext.flt (ext.GetDistance hitTmp) (ext.GetDistance hitInfo) then .ok (true, hitTmp)
            else .ok (false, hitInfo)
          | none => .ok (false, hitInfo)
      else
        match RaycastNode ext env mem ray maxDistance fuel n.left hitInfo with
        | .error e => .error e
        | .ok r =>
          if r.1 then .ok (true, r.2)
          else RaycastNode ext env mem ray maxDistance fuel n.right r.2

/-- Function `BVTree::Raycast`. -/
def Raycast (ext : Externals AABB F Ray Hit) (env : ColliderEnv AABB F Ray Hit) (fuel : Nat)
    (s : BVTree AABB) (ray : Ray) (hitInfo : Hit) (maxDistance : F) : Except Err (Bool × Hit) :=
  RaycastNode ext env s.mem ray maxDistance fuel s.root hitInfo

/-- Modelled from the spec: equality of the elements of
`CollisionUtil::ColliderPairSet` ("set of unordered collider-identity pairs");
the type is not in the embedded sources.  The first component is a key of
`colNodeMap`, the second the `collider` field of a node. -/
def pairEq (x y : Collider × Option Collider) : Bool :=
  (x.1 == y.1 && x.2 == y.2) || (some x.1 == y.2 && x.2 == some y.1)

/-- Modelled from the spec: `ColliderPairSet::insert`, which keeps the set
unchanged when an equal unordered pair is present. -/
def pairInsert (set : List (Collider × Option Collider)) (x : Collider × Option Collider) :
    List (Collider × Option Collider) :=
  if set.any (fun y => pairEq y x) then set else set ++ [x]

/-- The inner `while (!q.empty())` loop of `BVTree::GetCollisionPairs` for
the collider `curCollider` with fat box `aabb`. -/
def GetCollisionPairs.walk (ext : Externals AABB F Ray Hit)
    (mem : NodePtr → Option (Node AABB)) (curCollider : Collider) (aabb : AABB) :
    Nat → List NodePtr → List (Collider × Option Collider) → Except Err (List (Collider × Option Collider))
  | _, [], set => .ok set
  | 0, _ :: _, _ => .error .outOfFuel
  | fuel + 1, curNode :: q, set =>
    match mem curNode with
    | none => .error .badAccess
    | some n =>
      if n.IsLeaf then
        let col := n.collider
        if some curCollider ≠ col then
          GetCollisionPairs.walk ext mem curCollider aabb fuel q (pairInsert set (curCollider, col))
        else GetCollisionPairs.walk ext mem curCollider aabb fuel q set
      else
        match deref mem n.left with
        | .error e => .error e
        | .ok ln =>
          let q1 := if ext.Intersect ln.aabb aabb then q ++ n.left.toList else q
          match deref mem n.right with
          | .error e => .error e
          | .ok rn =>
            let q2 := if ext.Intersect rn.aabb aabb then q1 ++ n.right.toList else q1
            GetCollisionPairs.walk ext mem curCollider aabb fuel q2 set

/-- The loop `for (const auto& pair : colNodeMap)` of
`BVTree::GetCollisionPairs`. -/
def GetCollisionPairs.each (ext : Externals AABB F Ray Hit) (env : ColliderEnv AABB F Ray Hit)
    (fuel : Nat) (mem : NodePtr → Option (Node AABB)) (root : Option NodePtr) :
    List (Collider × NodePtr) → List (Collider × Option Collider) →
    Except Err (List (Collider × Option Collider))
  | [], set => .ok set
  | pair :: rest, set =>
    if env.IsStatic pair.1 then GetCollisionPairs.each ext env fuel mem root rest set
    else
      match GetCollisionPairs.walk ext mem pair.1 (env.GetFatAABB pair.1) fuel root.toList set with
      | .error e => .error e
      | .ok set1 => GetCollisionPairs.each ext env fuel mem root rest set1

/-- Function `BVTree::GetCollisionPairs`: the state afterwards; the returned reference
is its `colliderPairSet`. -/
def GetCollisionPairs (ext : Externals AABB F Ray Hit) (env : ColliderEnv AABB F Ray Hit)
    (fuel : Nat) (s : BVTree AABB) : Outcome (BVTree AABB) :=
  let s0 : BVTree AABB := { s with colliderPairSet := [] }
  match GetCollisionPairs.each ext env fuel s0.mem s0.root s0.colNodeMap [] with
  | .error e => .abort e s0
  | .ok set => .ok { s0 with colliderPairSet := set }

end Model

end Isetta


namespace Isetta

/-! ## Specification vocabulary -/

/-- Shape of the tree below a node: the addresses of its nodes and the
colliders held at its leaves. -/
inductive Shape where
  | leaf (p : NodePtr) (c : Collider)
  | branch (p : NodePtr) (l r : Shape)

/-- Address of the top node of a shape. -/
def Shape.ptr : Shape → NodePtr
  | .leaf p _ => p
  | .branch p _ _ => p

/-- Addresses of all nodes of a shape. -/
def Shape.ptrs : Shape → List NodePtr
  | .leaf p _ => [p]
  | .branch p l r => p :: (l.ptrs ++ r.ptrs)

/-- Index entries (collider, leaf address) of the leaves of a shape. -/
def Shape.leaves : Shape → List (Collider × NodePtr)
  | .leaf p c => [(c, p)]
  | .branch _ l r => l.leaves ++ r.leaves

/-- Number of branch nodes of a shape. -/
def Shape.branches : Shape → Nat
  | .leaf _ _ => 0
  | .branch _ l r => l.branches + r.branches + 1

/-- Node addresses of a possibly empty tree. -/
def ptrsOf (t : Option Shape) : List NodePtr :=
  match t with
  | none => []
  | some t0 => t0.ptrs

/-- Index entries of a possibly empty tree. -/
def leavesOf (t : Option Shape) : List (Collider × NodePtr) :=
  match t with
  | none => []
  | some t0 => t0.leaves

/-- Index entries of the leaves of a list of shapes. -/
def forestLeaves : List Shape → List (Collider × NodePtr)
  | [] => []
  | t :: ts => t.leaves ++ forestLeaves ts

/-- Number of nodes of a list of shapes. -/
def forestSize : List Shape → Nat
  | [] => 0
  | t :: ts => t.ptrs.length + forestSize ts

/-- One step of a path from a node up to the root: the branch at `p` with the
path's node as its left (`onLeft`) or right child and `sib` as the other. -/
structure Frame where
  p : NodePtr
  onLeft : Bool
  sib : Shape

/-- The branch of a frame with `t` put in the open child slot. -/
def Frame.fill (f : Frame) (t : Shape) : Shape :=
  if f.onLeft then .branch f.p t f.sib else .branch f.p f.sib t

/-- The tree obtained by putting `t` below a path given innermost frame
first. -/
def plug (t : Shape) : List Frame → Shape
  | [] => t
  | f :: fs => plug (f.fill t) fs

/-- Node addresses of the frames of a path and of their sibling subtrees. -/
def ctxPtrs : List Frame → List NodePtr
  | [] => []
  | f :: fs => f.p :: (f.sib.ptrs ++ ctxPtrs fs)

/-- Index entries of the sibling subtrees along a path. -/
def ctxLeaves : List Frame → List (Collider × NodePtr)
  | [] => []
  | f :: fs => f.sib.leaves ++ ctxLeaves fs

/-- The tree left when the subtree in the open slot of a path is taken out:
the innermost sibling moves up into the slot of the innermost frame. -/
def unplug : List Frame → Option Shape
  | [] => none
  | f :: fs => some (plug f.sib fs)

/-- Address of the topmost node of a path whose open slot holds `child`. -/
def ctxRoot (child : NodePtr) : List Frame → NodePtr
  | [] => child
  | f :: fs => ctxRoot f.p fs

/-- Address of the branch right above the open slot of a path, `par` for the
empty path. -/
def ctxParent (par : Option NodePtr) : List Frame → Option NodePtr
  | [] => par
  | f :: _ => some f.p

section Spec

variable {AABB F Ray Hit : Type}

/-- The link and collider fields of a node, without its box. -/
def Node.links (n : Node AABB) : Option NodePtr × Option NodePtr × Option NodePtr × Option Collider :=
  (n.parent, n.left, n.right, n.collider)

/-- The heap holds the shape `t` below a node whose `parent` field is `par`:
links, back links and `collider` fields are as the shape says. -/
def Rep (mem : NodePtr → Option (Node AABB)) : Option NodePtr → Shape → Prop
  | par, .leaf p c =>
    ∃ n, mem p = some n ∧ n.parent = par ∧ n.left = none ∧ n.right = none ∧ n.collider = some c
  | par, .branch p l r =>
    (∃ n, mem p = some n ∧ n.parent = par ∧ n.left = some l.ptr ∧ n.right = some r.ptr ∧
      n.collider = none) ∧ Rep mem (some p) l ∧ Rep mem (some p) r

/-- The heap holds the frames of a path whose open slot is taken by the node
at `child`, the topmost frame having `parent` field `par`. -/
def RepCtx (mem : NodePtr → Option (Node AABB)) (par : Option NodePtr) :
    List Frame → NodePtr → Prop
  | [], _ => True
  | f :: fs, child =>
    (∃ n, mem f.p = some n ∧ n.parent = ctxParent par fs ∧
      n.left = some (if f.onLeft then child else f.sib.ptr) ∧
      n.right = some (if f.onLeft then f.sib.ptr else child) ∧ n.collider = none) ∧
    Rep mem (some f.p) f.sib ∧ RepCtx mem par fs f.p

/-- The box stored at `p` is the union of the boxes stored at `l` and `r`. -/
def BoxAt (ext : Externals AABB F Ray Hit) (mem : NodePtr → Option (Node AABB))
    (p l r : NodePtr) : Prop :=
  ∃ n ln rn, mem p = some n ∧ mem l = some ln ∧ mem r = some rn ∧
    n.aabb = ext.Encapsulate ln.aabb rn.aabb

/-- Every branch of the shape stores the union of its children's boxes. -/
def Boxed (ext : Externals AABB F Ray Hit) (mem : NodePtr → Option (Node AABB)) : Shape → Prop
  | .leaf _ _ => True
  | .branch p l r => BoxAt ext mem p l.ptr r.ptr ∧ Boxed ext mem l ∧ Boxed ext mem r

/-- Every sibling subtree along the path is boxed. -/
def BoxedSibs (ext : Externals AABB F Ray Hit) (mem : NodePtr → Option (Node AABB)) :
    List Frame → Prop
  | [] => True
  | f :: fs => Boxed ext mem f.sib ∧ BoxedSibs ext mem fs

/-- Every frame of the path stores the union of its children's boxes, the
open slot being taken by the node at `child`. -/
def BoxedCtx (ext : Externals AABB F Ray Hit) (mem : NodePtr → Option (Node AABB)) :
    List Frame → NodePtr → Prop
  | [], _ => True
  | f :: fs, child =>
    BoxAt ext mem f.p (if f.onLeft then child else f.sib.ptr)
      (if f.onLeft then f.sib.ptr else child) ∧ BoxedCtx ext mem fs f.p

/-- The state of `AddNode` once the new branch `b` with children `L` and `n`
is linked in below the frame `f`, before the boxes above are refitted. -/
def spliced (s : BVTree AABB) (f : Frame) (fn cn nn : Node AABB) (L n b : NodePtr) (box : AABB) :
    BVTree AABB :=
  { s with
    mem := Function.update (Function.update (Function.update (Function.update s.mem
      f.p (some (if f.onLeft then { fn with left := some b } else { fn with right := some b })))
      L (some { cn with parent := some b }))
      n (some { nn with parent := some b }))
      b (some { parent := some f.p, left := some L, right := some n, collider := none,
                aabb := box })
    brk := max s.brk (b + 1) }

/-- The state of `AddNode` once the new branch `b` with children `L` and `n`
has become the root. -/
def splicedRoot (s : BVTree AABB) (cn nn : Node AABB) (L n b : NodePtr) (box : AABB) :
    BVTree AABB :=
  { s with
    root := some b
    mem := Function.update (Function.update (Function.update s.mem
      L (some { cn with parent := some b }))
      n (some { nn with parent := some b }))
      b (some { parent := none, left := some L, right := some n, collider := none,
                aabb := box })
    brk := max s.brk (b + 1) }

/-- The state of `RemoveNode` once the sibling of the removed leaf, a child of
the root `f`, has become the root and `f` is released. -/
def promoted (s : BVTree AABB) (f : Frame) (sn : Node AABB) : BVTree AABB :=
  { s with
    root := some f.sib.ptr
    mem := Function.update (Function.update s.mem f.p none)
      f.sib.ptr (some { sn with parent := none }) }

/-- The state of `RemoveNode` once the grandparent `g` has taken the sibling
of the removed leaf in place of the parent `f` and `f` is released, before
the boxes above are refitted. -/
def unlinked (s : BVTree AABB) (f g : Frame) (gn sn : Node AABB) : BVTree AABB :=
  { s with
    mem := Function.update (Function.update (Function.update s.mem
      g.p (some (if g.onLeft then { gn with left := some f.sib.ptr }
                 else { gn with right := some f.sib.ptr })))
      f.sib.ptr (some { sn with parent := some g.p }))
      f.p none }

/-- The last step of `RemoveNode`: the leaf is released when `deleteNode` is
set. -/
def RemoveNode.finish (node : NodePtr) (deleteNode : Bool) (s : BVTree AABB) :
    Outcome (BVTree AABB) :=
  if deleteNode then DeleteOnFreeList s (some node) else .ok s

/-- The leaf of an index entry no longer contains its collider's tight box:
`IsLeaf() && !IsInFatAABB()` of `Update` for the node of the entry. -/
def isStale (ext : Externals AABB F Ray Hit) (env : ColliderEnv AABB F Ray Hit)
    (mem : NodePtr → Option (Node AABB)) (e : Collider × NodePtr) : Bool :=
  match mem e.2 with
  | some n => !ext.Contains n.aabb (env.GetAABB e.1)
  | none => false

/-- Two states differ at most in the boxes stored at the addresses `ps`. -/
structure BoxesOnly (s s1 : BVTree AABB) (ps : List NodePtr) : Prop where
  root : s1.root = s.root
  index : s1.colNodeMap = s.colNodeMap
  pairs : s1.colliderPairSet = s.colliderPairSet
  brk : s1.brk = s.brk
  links : ∀ p, (s1.mem p).map Node.links = (s.mem p).map Node.links
  same : ∀ p, p ∉ ps → s1.mem p = s.mem p

/-- Structural invariant of a state: the heap holds the tree `t` under
`root`, every branch is boxed, the nodes in `D` are leaves taken out of the
tree and not released, no address is used twice, and the heap holds nothing
else. -/
structure Inv (ext : Externals AABB F Ray Hit) (s : BVTree AABB) (t : Option Shape)
    (D : List (Collider × NodePtr)) : Prop where
  root_eq : s.root = t.map Shape.ptr
  rep : ∀ t0, t = some t0 → Rep s.mem none t0
  boxed : ∀ t0, t = some t0 → Boxed ext s.mem t0
  det : ∀ e ∈ D, ∃ n, s.mem e.2 = some n ∧ n.left = none ∧ n.right = none ∧
    n.collider = some e.1
  nodup : (ptrsOf t ++ D.map Prod.snd).Nodup
  live : ∀ p n, s.mem p = some n → p ∈ ptrsOf t ++ D.map Prod.snd
  brk : ∀ p, s.brk ≤ p → s.mem p = none

/-- The collider index has one entry per key, and its entries are the leaves
of `t` together with the entries `D`. -/
structure Indexed (s : BVTree AABB) (t : Option Shape) (D : List (Collider × NodePtr)) :
    Prop where
  keys : (s.colNodeMap.map Prod.fst).Nodup
  entries : ∀ e, e ∈ s.colNodeMap ↔ e ∈ leavesOf t ∨ e ∈ D

/-- Well-formed state: a tree with all invariants and a consistent index. -/
def WF (ext : Externals AABB F Ray Hit) (s : BVTree AABB) : Prop :=
  ∃ t, Inv ext s t [] ∧ Indexed s t []

/-- Nodes reachable from `root` by `left` and `right` links. -/
inductive Linked (s : BVTree AABB) : NodePtr → Prop where
  | root {p : NodePtr} : s.root = some p → Linked s p
  | left {q p : NodePtr} {n : Node AABB} :
      Linked s q → s.mem q = some n → n.left = some p → Linked s p
  | right {q p : NodePtr} {n : Node AABB} :
      Linked s q → s.mem q = some n → n.right = some p → Linked s p

/-- States obtained from the empty tree by completed `AddCollider`,
`RemoveCollider` and `Update` calls that respect their preconditions, together
with the list of colliders added and not removed since: a collider is added
only when it is not in that list and removed only when it is.  The colliders
may answer differently at every call. -/
inductive Reachable (ext : Externals AABB F Ray Hit) : List Collider → BVTree AABB → Prop where
  | empty : Reachable ext [] (BVTree.empty AABB)
  | add {A : List Collider} {s s1 : BVTree AABB} (env : ColliderEnv AABB F Ray Hit) (fuel : Nat)
      (c : Collider) :
      Reachable ext A s → c ∉ A → AddCollider ext env fuel s c = .ok s1 →
      Reachable ext (c :: A) s1
  | remove {A : List Collider} {s s1 : BVTree AABB} (fuel : Nat) (c : Collider) :
      Reachable ext A s → c ∈ A → RemoveCollider ext fuel s c = .ok s1 →
      Reachable ext (A.erase c) s1
  | update {A : List Collider} {s s1 : BVTree AABB} (env : ColliderEnv AABB F Ray Hit)
      (fuel : Nat) :
      Reachable ext A s → Update ext env fuel s = .ok s1 → Reachable ext A s1

/-- The box stored at `p` passes the test `aabb.Intersect(box)`. -/
def boxHits (ext : Externals AABB F Ray Hit) (mem : NodePtr → Option (Node AABB)) (box : AABB)
    (p : NodePtr) : Bool :=
  match mem p with
  | some n => ext.Intersect n.aabb box
  | none => false

/-- The leaves of a shape that the pruned walk of `GetCollisionPairs` reaches
once the top node of the shape is in the queue: a child is entered when its
box intersects `box`. -/
def hitLeaves (ext : Externals AABB F Ray Hit) (mem : NodePtr → Option (Node AABB)) (box : AABB) :
    Shape → List (Collider × NodePtr)
  | .leaf p c => [(c, p)]
  | .branch _ l r =>
    (if boxHits ext mem box l.ptr then hitLeaves ext mem box l else []) ++
    (if boxHits ext mem box r.ptr then hitLeaves ext mem box r else [])

/-- The leaves reached from a queue of shapes. -/
def forestHit (ext : Externals AABB F Ray Hit) (mem : NodePtr → Option (Node AABB)) (box : AABB) :
    List Shape → List (Collider × NodePtr)
  | [] => []
  | t :: ts => hitLeaves ext mem box t ++ forestHit ext mem box ts

/-- The ray hits the box stored at `p` within `maxDistance`. -/
def rayHits (ext : Externals AABB F Ray Hit) (mem : NodePtr → Option (Node AABB)) (ray : Ray)
    (maxDistance : F) (p : NodePtr) : Bool :=
  match mem p with
  | some n => ext.RaycastAABB n.aabb ray maxDistance
  | none => false

/-- The leaves of a shape whose own box and whose ancestors' boxes the ray
hits, in the order in which `Raycast` comes to them (left before right). -/
def survivors (ext : Externals AABB F Ray Hit) (mem : NodePtr → Option (Node AABB)) (ray : Ray)
    (maxDistance : F) : Shape → List (Collider × NodePtr)
  | .leaf p c => if rayHits ext mem ray maxDistance p then [(c, p)] else []
  | .branch p l r =>
    if rayHits ext mem ray maxDistance p then
      survivors ext mem ray maxDistance l ++ survivors ext mem ray maxDistance r
    else []

/-- The nodes of a shape whose own box and whose ancestors' boxes the ray
hits. -/
def visited (ext : Externals AABB F Ray Hit) (mem : NodePtr → Option (Node AABB)) (ray : Ray)
    (maxDistance : F) : Shape → List NodePtr
  | .leaf p _ => if rayHits ext mem ray maxDistance p then [p] else []
  | .branch p l r =>
    if rayHits ext mem ray maxDistance p then
      p :: (visited ext mem ray maxDistance l ++ visited ext mem ray maxDistance r)
    else []

/-- Nodes reachable from `root` all of whose ancestors' boxes, and whose own
box, the ray hits within `maxDistance`. -/
inductive RayVisits (ext : Externals AABB F Ray Hit) (s : BVTree AABB) (ray : Ray)
    (maxDistance : F) : NodePtr → Prop where
  | root {p : NodePtr} {n : Node AABB} :
      s.root = some p → s.mem p = some n → ext.RaycastAABB n.aabb ray maxDistance = true →
      RayVisits ext s ray maxDistance p
  | left {q p : NodePtr} {qn n : Node AABB} :
      RayVisits ext s ray maxDistance q → s.mem q = some qn → qn.left = some p →
      s.mem p = some n → ext.RaycastAABB n.aabb ray maxDistance = true →
      RayVisits ext s ray maxDistance p
  | right {q p : NodePtr} {qn n : Node AABB} :
      RayVisits ext s ray maxDistance q → s.mem q = some qn → qn.right = some p →
      s.mem p = some n → ext.RaycastAABB n.aabb ray maxDistance = true →
      RayVisits ext s ray maxDistance p

/-- The node at `p` is a leaf of the tree under `root` that holds `c`. -/
def LeafAt (s : BVTree AABB) (c : Collider) (p : NodePtr) : Prop :=
  Linked s p ∧ ∃ n, s.mem p = some n ∧ n.IsLeaf = true ∧ n.collider = some c

end Spec

end Isetta


namespace Isetta

/-! ## A concrete instance: boxes on a line -/

/-- Boxes on a line: lower and upper end. -/
abbrev Interval := Nat × Nat

/-- The functions on boxes, scalars and hits for boxes on a line; a ray
starts at a point of the line and runs upwards, a hit is its distance. -/
def lineExt : Externals Interval Nat Nat Nat :=
  { Encapsulate := fun (a b : Nat × Nat) => (min a.1 b.1, max a.2 b.2)
    SurfaceArea := fun (a : Nat × Nat) => a.2 - a.1
    Intersect := fun (a b : Nat × Nat) => decide (a.1 ≤ b.2) && decide (b.1 ≤ a.2)
    Contains := fun (a b : Nat × Nat) => decide (a.1 ≤ b.1) && decide (b.2 ≤ a.2)
    RaycastAABB := fun (a : Nat × Nat) (origin maxD : Nat) =>
      decide (origin ≤ a.2) && decide (a.1 ≤ origin + maxD)
    fsub := fun (a b : Nat) => a - b
    flt := fun (a b : Nat) => decide (a < b)
    GetDistance := fun (h : Nat) => h }

/-- Colliders on a line: collider `c` spans `[10 c, 10 c + 1]`, its fat box
has a margin of one, no collider is static, and a ray from `origin` hits it at
the distance of its lower end. -/
def lineEnv : ColliderEnv Interval Nat Nat Nat :=
  { GetFatAABB := fun (c : Nat) => (10 * c + 4, 10 * c + 7)
    GetAABB := fun (c : Nat) => (10 * c + 5, 10 * c + 6)
    IsStatic := fun _ => false
    Raycast := fun (c origin maxD : Nat) =>
      if origin ≤ 10 * c + 5 ∧ 10 * c + 5 ≤ origin + maxD then some (10 * c + 5 - origin)
      else none }

/-- The tree after `AddCollider` of collider 0. -/
def line1 : BVTree Interval := (AddCollider lineExt lineEnv 0 (BVTree.empty Interval) 0).state

/-- The tree after `AddCollider` of colliders 0 and 1. -/
def line2 : BVTree Interval := (AddCollider lineExt lineEnv 1 line1 1).state

/-- The tree after `AddCollider` of colliders 0, 1 and 2. -/
def line3 : BVTree Interval := (AddCollider lineExt lineEnv 3 line2 2).state

/-- The colliders of `lineEnv` after collider 1 has moved to `[55, 56]`. -/
def lineMoved : ColliderEnv Interval Nat Nat Nat :=
  { lineEnv with
    GetFatAABB := fun (c : Nat) => if c = 1 then (54, 57) else lineEnv.GetFatAABB c
    GetAABB := fun (c : Nat) => if c = 1 then (55, 56) else lineEnv.GetAABB c }

/-- The three-collider tree after `Update` once collider 1 has moved. -/
def line3Updated : BVTree Interval := (Update lineExt lineMoved 5 line3).state

/-- The tree after `AddCollider` of collider 1 and then of collider 0: the
leaf of collider 1 is the left child of the root, that of collider 0 the
right one. -/
def lineRev2 : BVTree Interval :=
  (AddCollider lineExt lineEnv 1
    (AddCollider lineExt lineEnv 0 (BVTree.empty Interval) 1).state 0).state

end Isetta


namespace Isetta

section Reference

variable {AABB F Ray Hit : Type}

/-! ## Reference algorithms of insertion and removal -/

/-- The choice the specification prescribes at a branch with children `l` and
`r` when the box `box` is inserted: to the right child exactly when
`SurfaceArea(Encapsulate(left, n)) - SurfaceArea(left)` is greater than
`SurfaceArea(Encapsulate(right, n)) - SurfaceArea(right)`, to the left child
otherwise. -/
def refGoesRight (ext : Externals AABB F Ray Hit) (mem : NodePtr → Option (Node AABB)) (box : AABB)
    (l r : Shape) : Bool :=
  match mem l.ptr, mem r.ptr with
  | some ln, some rn =>
    ext.flt (ext.fsub (ext.SurfaceArea (ext.Encapsulate rn.aabb box)) (ext.SurfaceArea rn.aabb))
      (ext.fsub (ext.SurfaceArea (ext.Encapsulate ln.aabb box)) (ext.SurfaceArea ln.aabb))
  | _, _ => false

/-- The leaf the reference descent ends in. -/
def refLeaf (ext : Externals AABB F Ray Hit) (mem : NodePtr → Option (Node AABB)) (box : AABB) :
    Shape → Collider × NodePtr
  | .leaf p c => (c, p)
  | .branch _ l r =>
    if refGoesRight ext mem box l r then refLeaf ext mem box r else refLeaf ext mem box l

/-- The path of the reference descent, innermost frame first. -/
def refPath (ext : Externals AABB F Ray Hit) (mem : NodePtr → Option (Node AABB)) (box : AABB) :
    Shape → List Frame
  | .leaf _ _ => []
  | .branch p l r =>
    if refGoesRight ext mem box l r then refPath ext mem box r ++ [⟨p, false, l⟩]
    else refPath ext mem box l ++ [⟨p, true, r⟩]

/-- The reference insertion: the leaf `L` the descent ends in is replaced, in
the slot it occupied, by a new branch `b` with left child `L` and right child
the new leaf `n` of collider `c`. -/
def refInsert (ext : Externals AABB F Ray Hit) (mem : NodePtr → Option (Node AABB)) (box : AABB)
    (b n : NodePtr) (c : Collider) : Shape → Shape
  | .leaf p c0 => .branch b (.leaf p c0) (.leaf n c)
  | .branch p l r =>
    if refGoesRight ext mem box l r then .branch p l (refInsert ext mem box b n c r)
    else .branch p (refInsert ext mem box b n c l) r

/-- The reference removal of the leaf in the open slot of a path: the tree
becomes empty when the leaf is the root; the sibling subtree becomes the root
when the parent is the root; otherwise the sibling subtree takes the slot of
the parent below the grandparent. -/
def refRemove : List Frame → Option Shape
  | [] => none
  | [f] => some f.sib
  | f :: g :: rest => some (plug (g.fill f.sib) rest)

end Reference

/-! ## The pool allocator -/

/-- Errors raised by the pool allocator. -/
inductive PoolErr where
  | outOfRange
  deriving DecidableEq, Repr

/-- State of a `PoolAllocator`: its fields, and for every address the `next`
pointer of the `PoolAllocator::Node` placed there. -/
structure PoolAllocator where
  capacity : Nat
  elementSize : Nat
  head : Option Nat
  memHead : Nat
  next : Nat → Option Nat

/-- Function `PoolAllocator::Get`: the value returned or the exception thrown,
and the state of the pool afterwards. -/
def PoolAllocator.Get (p : PoolAllocator) : Except PoolErr Nat × PoolAllocator :=
  match p.head with
  | none => (.error .outOfRange, p)
  | some h => (.ok h, { p with head := p.next h })

/-- A pool of two chunks of eight bytes at address 64. -/
def poolTwo : PoolAllocator :=
  { capacity := 2
    elementSize := 8
    head := some 64
    memHead := 64
    next := fun a => if a = 64 then some 72 else none }

/-- An exhausted pool. -/
def poolDone : PoolAllocator := { poolTwo with head := none }

/-! ## The three-collider scenario -/

/-- Modelled from the spec: the `AABB` value type with `min` and `max` corner
points, here with integer coordinates. -/
structure Box3 where
  min : Int × Int × Int
  max : Int × Int × Int
  deriving DecidableEq, Repr

/-- Modelled from the spec: `AABB::Encapsulate`, the union of two boxes. -/
def Box3.Encapsulate (a b : Box3) : Box3 :=
  { min := (Min.min a.min.1 b.min.1, Min.min a.min.2.1 b.min.2.1, Min.min a.min.2.2 b.min.2.2)
    max := (Max.max a.max.1 b.max.1, Max.max a.max.2.1 b.max.2.1, Max.max a.max.2.2 b.max.2.2) }

/-- Modelled from the spec: `AABB::SurfaceArea`, a function of the size of the
box. -/
def Box3.SurfaceArea (a : Box3) : Int :=
  let x := a.max.1 - a.min.1
  let y := a.max.2.1 - a.min.2.1
  let z := a.max.2.2 - a.min.2.2
  2 * (x * y + y * z + z * x)

/-- Modelled from the spec: `AABB::Intersect`, overlap on every axis. -/
def Box3.Intersect (a b : Box3) : Bool :=
  decide (a.min.1 ≤ b.max.1) && decide (b.min.1 ≤ a.max.1) &&
  decide (a.min.2.1 ≤ b.max.2.1) && decide (b.min.2.1 ≤ a.max.2.1) &&
  decide (a.min.2.2 ≤ b.max.2.2) && decide (b.min.2.2 ≤ a.max.2.2)

/-- Modelled from the spec: `AABB::Contains`, inclusion on every axis. -/
def Box3.Contains (a b : Box3) : Bool :=
  decide (a.min.1 ≤ b.min.1) && decide (b.max.1 ≤ a.max.1) &&
  decide (a.min.2.1 ≤ b.min.2.1) && decide (b.max.2.1 ≤ a.max.2.1) &&
  decide (a.min.2.2 ≤ b.min.2.2) && decide (b.max.2.2 ≤ a.max.2.2)

/-- The functions on boxes in space with integer scalars; a ray is a point and
runs along the first axis, a hit is its distance. -/
def boxExt : Externals Box3 Int (Int × Int × Int) Int :=
  { Encapsulate := Box3.Encapsulate
    SurfaceArea := Box3.SurfaceArea
    Intersect := Box3.Intersect
    Contains := Box3.Contains
    RaycastAABB := fun (a : Box3) (o : Int × Int × Int) (maxD : Int) =>
      decide (o.1 ≤ a.max.1) && decide (a.min.1 ≤ o.1 + maxD) &&
      decide (a.min.2.1 ≤ o.2.1) && decide (o.2.1 ≤ a.max.2.1) &&
      decide (a.min.2.2 ≤ o.2.2) && decide (o.2.2 ≤ a.max.2.2)
    fsub := fun (a b : Int) => a - b
    flt := fun (a b : Int) => decide (a < b)
    GetDistance := fun (h : Int) => h }

/-- The box spanning `[lo, lo + 1]` on the first axis and `[0, 1]` on the
other two. -/
def unitBoxAt (lo : Int) : Box3 := { min := (lo, 0, 0), max := (lo + 1, 1, 1) }

/-- The colliders of the scenario: collider 0 is A, collider 1 is B and
collider 2 is C, with fat boxes spanning `[0, 1]`, `[10, 11]` and `[20, 21]`
on the first axis; none is static. -/
def boxEnv : ColliderEnv Box3 Int (Int × Int × Int) Int :=
  { GetFatAABB := fun (c : Nat) => unitBoxAt (10 * (c : Int))
    GetAABB := fun (c : Nat) => unitBoxAt (10 * (c : Int))
    IsStatic := fun _ => false
    Raycast := fun _ _ _ => none }

/-- The tree after `AddCollider` of A. -/
def boxA : BVTree Box3 := (AddCollider boxExt boxEnv 0 (BVTree.empty Box3) 0).state

/-- The tree after `AddCollider` of A and B. -/
def boxAB : BVTree Box3 := (AddCollider boxExt boxEnv 1 boxA 1).state

/-- The tree after `AddCollider` of A, B and C. -/
def boxABC : BVTree Box3 := (AddCollider boxExt boxEnv 3 boxAB 2).state

/-- The tree after the following `RemoveCollider` of B. -/
def boxAC : BVTree Box3 := (RemoveCollider boxExt 3 boxABC 1).state

/-! ## Further instances on a line -/

/-- Colliders on a line whose fat boxes `[2 c, 2 c + 5]` overlap those of
their neighbours; collider 0 is static, the others are not. -/
def lineNear : ColliderEnv Interval Nat Nat Nat :=
  { lineEnv with
    GetFatAABB := fun (c : Nat) => (2 * c, 2 * c + 5)
    GetAABB := fun (c : Nat) => (2 * c + 1, 2 * c + 2)
    IsStatic := fun (c : Nat) => decide (c = 0) }

/-- The colliders of `lineEnv`, all static. -/
def lineStatic : ColliderEnv Interval Nat Nat Nat :=
  { lineEnv with IsStatic := fun _ => true }

/-- The tree after `AddCollider` of collider 0 of `lineNear`. -/
def near1 : BVTree Interval := (AddCollider lineExt lineNear 0 (BVTree.empty Interval) 0).state

/-- The tree after `AddCollider` of colliders 0 and 1 of `lineNear`. -/
def near2 : BVTree Interval := (AddCollider lineExt lineNear 1 near1 1).state

/-- The tree after `AddCollider` of colliders 0, 1 and 2 of `lineNear`, whose
fat boxes `[0, 5]`, `[2, 7]` and `[4, 9]` intersect one another. -/
def near3 : BVTree Interval := (AddCollider lineExt lineNear 3 near2 2).state

/-- The tree `near3` after `GetCollisionPairs`. -/
def near3Pairs : BVTree Interval := (GetCollisionPairs lineExt lineNear 5 near3).state

/-- The one-leaf tree `line1` with the leaf of collider 1 allocated and
indexed, before `AddNode` links it. -/
def line1Pending : BVTree Interval :=
  { line1 with
    colNodeMap := [(0, 0), (1, 1)]
    mem := Function.update line1.mem 1 (some (Node.ofCollider lineEnv 1))
    brk := 2 }

/-- The two-collider tree `line2` with the leaf of collider 2 allocated and
indexed, before `AddNode` links it. -/
def line2Pending : BVTree Interval :=
  { line2 with
    colNodeMap := [(0, 0), (1, 1), (2, 3)]
    mem := Function.update line2.mem 3 (some (Node.ofCollider lineEnv 2))
    brk := 4 }

/-- The three-collider tree `line3` after `RemoveCollider` of collider 2,
the collider added last. -/
def line3Back : BVTree Interval := (RemoveCollider lineExt 5 line3 2).state

end Isetta


namespace Isetta

section Counting

variable {AABB : Type}

/-! ## Counting the nodes of the tree -/

/-- The address holds a leaf node. -/
def holdsLeaf (s : BVTree AABB) (p : NodePtr) : Bool :=
  match s.mem p with
  | some n => n.IsLeaf
  | none => false

/-- The address holds a branch node. -/
def holdsBranch (s : BVTree AABB) (p : NodePtr) : Bool :=
  match s.mem p with
  | some n => !n.IsLeaf
  | none => false

end Counting

/-! ## Construction of the pool allocator -/

/-- The exception of type `std::exception` thrown by the constructor of
`PoolAllocator`. -/
inductive PoolCtorErr where
  | overhead (chunkSize : Nat)
  deriving DecidableEq, Repr

/-- The loop `for (Size i = 1; i < count; ++i)` of the constructor, with the
number of iterations left, the pointer `cur`, the integer `address` and the
`next` pointers placed in memory so far: a node with null `next` is placed at
`address + elementSize`, the node at `cur` is linked to it, and `cur` moves on
to it. -/
def PoolAllocator.link (elementSize : Nat) :
    Nat → Nat → Nat → (Nat → Option Nat) → (Nat → Option Nat)
  | 0, _, _, next => next
  | k + 1, cur, address, next =>
    let address1 := address + elementSize
    let next1 := Function.update next address1 none
    let next2 := Function.update next1 cur (some address1)
    match next2 cur with
    | none => next2
    | some cur1 => PoolAllocator.link elementSize k cur1 address1 next2

/-- Function `PoolAllocator::PoolAllocator`, the constructor (the name of the
type cannot be used for it here).  The size
`sizeof(Node*)` of a pointer, the address returned by `std::malloc` and the
content of memory before the call are parameters.  Sizes and addresses are
natural numbers: the model covers the calls in which `elementSize * capacity`
and the addresses of the chunks stay below the range of `Size` and `PtrInt`.
Memory is modelled per address, which is exact when the nodes placed do not
overlap in part, that is for `chunkSize = 0` and `chunkSize ≥ sizeof(Node*)`. -/
def PoolAllocator.create (ptrSize chunkSize count memHead : Nat)
    (raw : Nat → Option Nat) : Except PoolCtorErr PoolAllocator :=
  if chunkSize > ptrSize then .error (.overhead chunkSize)
  else
    .ok { capacity := count
          elementSize := chunkSize
          head := some memHead
          memHead := memHead
          next := PoolAllocator.link chunkSize (count - 1) memHead memHead
            (Function.update raw memHead none) }

/-- The results of `k` successive calls of `PoolAllocator::Get`, first call
first, and the pool afterwards. -/
def PoolAllocator.GetMany : Nat → PoolAllocator → List (Except PoolErr Nat) × PoolAllocator
  | 0, p => ([], p)
  | k + 1, p =>
    let r := p.Get
    let rest := PoolAllocator.GetMany k r.2
    (r.1 :: rest.1, rest.2)

/-- Memory that holds null pointers only. -/
def rawZero : Nat → Option Nat := fun _ => none

end Isetta


namespace Isetta

section Basics

variable {AABB F Ray Hit : Type}

/-! ## Outcomes -/

@[simp] theorem Outcome.andThen_ok {σ : Type} (s : σ) (f : σ → Outcome σ) :
    (Outcome.ok s).andThen f = f s := rfl

@[simp] theorem Outcome.andThen_abort {σ : Type} (e : Err) (s : σ) (f : σ → Outcome σ) :
    (Outcome.abort e s).andThen f = .abort e s := rfl

theorem Outcome.andThen_eq_ok {σ : Type} {o : Outcome σ} {f : σ → Outcome σ} {s1 : σ}
    (h : o.andThen f = .ok s1) : ∃ s0, o = .ok s0 ∧ f s0 = .ok s1 := by
  cases o with
  | ok s0 => exact ⟨s0, rfl, h⟩
  | abort e s0 => simp at h

/-! ## Shapes and paths -/

@[simp] theorem Shape.ptr_leaf (p : NodePtr) (c : Collider) : (Shape.leaf p c).ptr = p := rfl

@[simp] theorem Shape.ptr_branch (p : NodePtr) (l r : Shape) : (Shape.branch p l r).ptr = p := rfl

theorem Shape.ptr_mem_ptrs (t : Shape) : t.ptr ∈ t.ptrs := by
  cases t <;> simp [Shape.ptr, Shape.ptrs]

theorem Shape.leaf_ptr_mem {t : Shape} {e : Collider × NodePtr} (h : e ∈ t.leaves) :
    e.2 ∈ t.ptrs := by
  induction t with
  | leaf p c => simp [Shape.leaves] at h; simp [Shape.ptrs, h]
  | branch p l r ihl ihr =>
    simp only [Shape.leaves, List.mem_append] at h
    simp only [Shape.ptrs, List.mem_cons, List.mem_append]
    rcases h with h | h
    · exact Or.inr (Or.inl (ihl h))
    · exact Or.inr (Or.inr (ihr h))

theorem Shape.ptrs_length_pos (t : Shape) : 0 < t.ptrs.length := by
  cases t <;> simp [Shape.ptrs]

theorem plug_ptr (t : Shape) (ctx : List Frame) : (plug t ctx).ptr = ctxRoot t.ptr ctx := by
  induction ctx generalizing t with
  | nil => rfl
  | cons f fs ih =>
    simp only [plug, ctxRoot]
    rw [ih]
    unfold Frame.fill
    split <;> rfl

theorem Frame.fill_ptr (f : Frame) (t : Shape) : (f.fill t).ptr = f.p := by
  unfold Frame.fill; split <;> rfl

theorem Frame.fill_ptrs_perm (f : Frame) (t : Shape) :
    (f.fill t).ptrs.Perm (t.ptrs ++ (f.p :: f.sib.ptrs)) := by
  unfold Frame.fill
  split
  · simp only [Shape.ptrs]
    exact (@List.perm_middle _ f.p t.ptrs f.sib.ptrs).symm
  · simp only [Shape.ptrs]
    refine List.Perm.trans ?_ (@List.perm_middle _ f.p t.ptrs f.sib.ptrs).symm
    exact List.Perm.cons _ List.perm_append_comm

theorem Frame.fill_leaves_perm (f : Frame) (t : Shape) :
    (f.fill t).leaves.Perm (t.leaves ++ f.sib.leaves) := by
  unfold Frame.fill
  split
  · simp [Shape.leaves]
  · simp only [Shape.leaves]
    exact List.perm_append_comm

theorem plug_ptrs_perm (t : Shape) (ctx : List Frame) :
    (plug t ctx).ptrs.Perm (t.ptrs ++ ctxPtrs ctx) := by
  induction ctx generalizing t with
  | nil => simp [plug, ctxPtrs]
  | cons f fs ih =>
    simp only [plug, ctxPtrs]
    refine (ih (f.fill t)).trans ?_
    refine ((f.fill_ptrs_perm t).append_right _).trans ?_
    simp [List.append_assoc]

theorem plug_leaves_perm (t : Shape) (ctx : List Frame) :
    (plug t ctx).leaves.Perm (t.leaves ++ ctxLeaves ctx) := by
  induction ctx generalizing t with
  | nil => simp [plug, ctxLeaves]
  | cons f fs ih =>
    simp only [plug, ctxLeaves]
    refine (ih (f.fill t)).trans ?_
    refine ((f.fill_leaves_perm t).append_right _).trans ?_
    simp [List.append_assoc]

theorem ctxRoot_mem (child : NodePtr) (ctx : List Frame) :
    ctxRoot child ctx = child ∧ ctx = [] ∨ ctxRoot child ctx ∈ ctxPtrs ctx := by
  induction ctx generalizing child with
  | nil => exact Or.inl ⟨rfl, rfl⟩
  | cons f fs ih =>
    right
    simp only [ctxRoot, ctxPtrs, List.mem_cons, List.mem_append]
    rcases ih f.p with ⟨h, _⟩ | h
    · exact Or.inl h
    · exact Or.inr (Or.inr h)

theorem ctx_p_mem_ctxPtrs {ctx : List Frame} {q : NodePtr} (h : q ∈ ctx.map Frame.p) :
    q ∈ ctxPtrs ctx := by
  induction ctx with
  | nil => simp at h
  | cons g gs ih =>
    simp only [List.map_cons, List.mem_cons] at h
    simp only [ctxPtrs, List.mem_cons, List.mem_append]
    rcases h with h | h
    · exact Or.inl h
    · exact Or.inr (Or.inr (ih h))

theorem ctx_length_le (ctx : List Frame) : ctx.length ≤ (ctxPtrs ctx).length := by
  induction ctx with
  | nil => simp
  | cons f fs ih => simp only [ctxPtrs, List.length_cons, List.length_append]; omega

/-- Every leaf of a shape sits below some path. -/
theorem Shape.leaf_decomp {t : Shape} {e : Collider × NodePtr} (h : e ∈ t.leaves) :
    ∃ ctx, t = plug (.leaf e.2 e.1) ctx := by
  induction t with
  | leaf p c =>
    simp only [Shape.leaves, List.mem_singleton] at h
    subst h
    exact ⟨[], rfl⟩
  | branch p l r ihl ihr =>
    simp only [Shape.leaves, List.mem_append] at h
    rcases h with h | h
    · obtain ⟨ctx, hc⟩ := ihl h
      refine ⟨ctx ++ [⟨p, true, r⟩], ?_⟩
      rw [hc]
      clear hc ihl ihr h
      generalize Shape.leaf e.2 e.1 = t0
      induction ctx generalizing t0 with
      | nil => simp [plug, Frame.fill]
      | cons f fs ih => simp only [plug, List.cons_append]; exact ih _
    · obtain ⟨ctx, hc⟩ := ihr h
      refine ⟨ctx ++ [⟨p, false, l⟩], ?_⟩
      rw [hc]
      clear hc ihl ihr h
      generalize Shape.leaf e.2 e.1 = t0
      induction ctx generalizing t0 with
      | nil => simp [plug, Frame.fill]
      | cons f fs ih => simp only [plug, List.cons_append]; exact ih _

/-! ## Representation in the heap -/

theorem Rep.rep_congr {mem mem1 : NodePtr → Option (Node AABB)} {par : Option NodePtr} {t : Shape}
    (h : ∀ p ∈ t.ptrs, (mem1 p).map Node.links = (mem p).map Node.links)
    (hr : Rep mem par t) : Rep mem1 par t := by
  induction t generalizing par with
  | leaf p c =>
    obtain ⟨n, hn, h1, h2, h3, h4⟩ := hr
    have := h p (by simp [Shape.ptrs])
    rw [hn] at this
    cases hm : mem1 p with
    | none => simp [hm] at this
    | some m =>
      simp only [hm, Option.map_some', Option.some.injEq, Node.links, Prod.mk.injEq] at this
      exact ⟨m, hm, by rw [this.1, h1], by rw [this.2.1, h2], by rw [this.2.2.1, h3],
        by rw [this.2.2.2, h4]⟩
  | branch p l r ihl ihr =>
    obtain ⟨⟨n, hn, h1, h2, h3, h4⟩, hl, hrr⟩ := hr
    have := h p (by simp [Shape.ptrs])
    rw [hn] at this
    refine ⟨?_, ihl (fun q hq => h q (by simp [Shape.ptrs, hq])) hl,
      ihr (fun q hq => h q (by simp [Shape.ptrs, hq])) hrr⟩
    cases hm : mem1 p with
    | none => simp [hm] at this
    | some m =>
      simp only [hm, Option.map_some', Option.some.injEq, Node.links, Prod.mk.injEq] at this
      exact ⟨m, rfl, by rw [this.1, h1], by rw [this.2.1, h2], by rw [this.2.2.1, h3],
        by rw [this.2.2.2, h4]⟩

theorem Rep.rep_live {mem : NodePtr → Option (Node AABB)} {par : Option NodePtr} {t : Shape}
    (hr : Rep mem par t) : ∀ p ∈ t.ptrs, ∃ n, mem p = some n := by
  induction t generalizing par with
  | leaf p c =>
    obtain ⟨n, hn, _⟩ := hr
    intro q hq
    simp only [Shape.ptrs, List.mem_singleton] at hq
    exact ⟨n, hq ▸ hn⟩
  | branch p l r ihl ihr =>
    obtain ⟨⟨n, hn, _⟩, hl, hrr⟩ := hr
    intro q hq
    simp only [Shape.ptrs, List.mem_cons, List.mem_append] at hq
    rcases hq with hq | hq | hq
    · exact ⟨n, hq ▸ hn⟩
    · exact ihl hl q hq
    · exact ihr hrr q hq

theorem Rep.top {mem : NodePtr → Option (Node AABB)} {par : Option NodePtr} {t : Shape}
    (hr : Rep mem par t) : ∃ n, mem t.ptr = some n ∧ n.parent = par := by
  cases t with
  | leaf p c => obtain ⟨n, hn, h1, _⟩ := hr; exact ⟨n, hn, h1⟩
  | branch p l r => obtain ⟨⟨n, hn, h1, _⟩, _⟩ := hr; exact ⟨n, hn, h1⟩

/-- Changing only the `parent` field of the top node moves a represented
shape below another parent. -/
theorem Rep.reparent {mem mem1 : NodePtr → Option (Node AABB)} {par par1 : Option NodePtr}
    {t : Shape} (hnd : t.ptrs.Nodup)
    (htop : ∀ n, mem t.ptr = some n → mem1 t.ptr = some { n with parent := par1 })
    (h : ∀ p ∈ t.ptrs, p ≠ t.ptr → mem1 p = mem p)
    (hr : Rep mem par t) : Rep mem1 par1 t := by
  cases t with
  | leaf p c =>
    obtain ⟨n, hn, h1, h2, h3, h4⟩ := hr
    exact ⟨_, htop n hn, rfl, h2, h3, h4⟩
  | branch p l r =>
    obtain ⟨⟨n, hn, h1, h2, h3, h4⟩, hl, hrr⟩ := hr
    simp only [Shape.ptrs, List.nodup_cons, List.mem_append, not_or] at hnd
    refine ⟨⟨_, htop n hn, rfl, h2, h3, h4⟩, ?_, ?_⟩
    · refine Rep.rep_congr (fun q hq => ?_) hl
      rw [h q (by simp [Shape.ptrs, hq]) (by rintro rfl; exact hnd.1.1 hq)]
    · refine Rep.rep_congr (fun q hq => ?_) hrr
      rw [h q (by simp [Shape.ptrs, hq]) (by rintro rfl; exact hnd.1.2 hq)]

theorem RepCtx.ctx_congr {mem mem1 : NodePtr → Option (Node AABB)} {par : Option NodePtr}
    {ctx : List Frame} {child : NodePtr}
    (h : ∀ p ∈ ctxPtrs ctx, (mem1 p).map Node.links = (mem p).map Node.links)
    (hr : RepCtx mem par ctx child) : RepCtx mem1 par ctx child := by
  induction ctx generalizing child with
  | nil => trivial
  | cons f fs ih =>
    obtain ⟨⟨n, hn, h1, h2, h3, h4⟩, hs, hrest⟩ := hr
    have := h f.p (by simp [ctxPtrs])
    rw [hn] at this
    refine ⟨?_, Rep.rep_congr (fun q hq => h q (by simp [ctxPtrs, hq])) hs,
      ih (fun q hq => h q (by simp [ctxPtrs, hq])) hrest⟩
    cases hm : mem1 f.p with
    | none => simp [hm] at this
    | some m =>
      simp only [hm, Option.map_some', Option.some.injEq, Node.links, Prod.mk.injEq] at this
      exact ⟨m, rfl, by rw [this.1, h1], by rw [this.2.1, h2], by rw [this.2.2.1, h3],
        by rw [this.2.2.2, h4]⟩

theorem Rep_fill {mem : NodePtr → Option (Node AABB)} {par : Option NodePtr} {f : Frame}
    {t : Shape} :
    Rep mem par (f.fill t) ↔
      (∃ n, mem f.p = some n ∧ n.parent = par ∧
        n.left = some (if f.onLeft then t.ptr else f.sib.ptr) ∧
        n.right = some (if f.onLeft then f.sib.ptr else t.ptr) ∧ n.collider = none) ∧
      Rep mem (some f.p) f.sib ∧ Rep mem (some f.p) t := by
  unfold Frame.fill
  cases hf : f.onLeft
  · simp only [Bool.false_eq_true, if_false, Rep]
  · simp only [if_true, Rep]
    constructor
    · rintro ⟨h1, h2, h3⟩; exact ⟨h1, h3, h2⟩
    · rintro ⟨h1, h2, h3⟩; exact ⟨h1, h3, h2⟩

/-- A shape below a path is represented exactly when the shape and the path
are. -/
theorem Rep_plug {mem : NodePtr → Option (Node AABB)} {par : Option NodePtr} {ctx : List Frame}
    {t : Shape} :
    Rep mem par (plug t ctx) ↔ Rep mem (ctxParent par ctx) t ∧ RepCtx mem par ctx t.ptr := by
  induction ctx generalizing t with
  | nil => simp [plug, ctxParent, RepCtx]
  | cons f fs ih =>
    simp only [plug, ctxParent, RepCtx]
    rw [ih, Rep_fill, Frame.fill_ptr]
    constructor
    · rintro ⟨⟨h1, h2, h3⟩, h4⟩; exact ⟨h3, h1, h2, h4⟩
    · rintro ⟨h3, h1, h2, h4⟩; exact ⟨⟨h1, h2, h3⟩, h4⟩

/-! ## Boxes -/

theorem BoxAt.boxAt_congr {ext : Externals AABB F Ray Hit} {mem mem1 : NodePtr → Option (Node AABB)}
    {p l r : NodePtr}
    (hp : (mem1 p).map Node.aabb = (mem p).map Node.aabb)
    (hl : (mem1 l).map Node.aabb = (mem l).map Node.aabb)
    (hr : (mem1 r).map Node.aabb = (mem r).map Node.aabb)
    (h : BoxAt ext mem p l r) : BoxAt ext mem1 p l r := by
  obtain ⟨n, ln, rn, h1, h2, h3, h4⟩ := h
  rw [h1] at hp; rw [h2] at hl; rw [h3] at hr
  cases e1 : mem1 p with
  | none => simp [e1] at hp
  | some n1 =>
    cases e2 : mem1 l with
    | none => simp [e2] at hl
    | some l1 =>
      cases e3 : mem1 r with
      | none => simp [e3] at hr
      | some r1 =>
        simp only [e1, e2, e3, Option.map_some', Option.some.injEq] at hp hl hr
        exact ⟨n1, l1, r1, e1, e2, e3, by rw [hp, hl, hr, h4]⟩

theorem Boxed.boxed_congr {ext : Externals AABB F Ray Hit} {mem mem1 : NodePtr → Option (Node AABB)}
    {t : Shape} (h : ∀ p ∈ t.ptrs, (mem1 p).map Node.aabb = (mem p).map Node.aabb)
    (hb : Boxed ext mem t) : Boxed ext mem1 t := by
  induction t with
  | leaf p c => trivial
  | branch p l r ihl ihr =>
    obtain ⟨h1, h2, h3⟩ := hb
    refine ⟨?_, ihl (fun q hq => h q (by simp [Shape.ptrs, hq])) h2,
      ihr (fun q hq => h q (by simp [Shape.ptrs, hq])) h3⟩
    exact BoxAt.boxAt_congr (h p (by simp [Shape.ptrs]))
      (h _ (by simp [Shape.ptrs, l.ptr_mem_ptrs])) (h _ (by simp [Shape.ptrs, r.ptr_mem_ptrs])) h1

theorem BoxedSibs.sibs_congr {ext : Externals AABB F Ray Hit}
    {mem mem1 : NodePtr → Option (Node AABB)} {ctx : List Frame}
    (h : ∀ f ∈ ctx, ∀ p ∈ f.sib.ptrs, (mem1 p).map Node.aabb = (mem p).map Node.aabb)
    (hb : BoxedSibs ext mem ctx) : BoxedSibs ext mem1 ctx := by
  induction ctx with
  | nil => trivial
  | cons f fs ih =>
    exact ⟨Boxed.boxed_congr (fun q hq => h f (by simp) q hq) hb.1,
      ih (fun g hg q hq => h g (by simp [hg]) q hq) hb.2⟩

theorem sib_ptrs_mem_ctxPtrs {ctx : List Frame} {f : Frame} (hf : f ∈ ctx) {q : NodePtr}
    (hq : q ∈ f.sib.ptrs) : q ∈ ctxPtrs ctx := by
  induction ctx with
  | nil => simp at hf
  | cons g gs ih =>
    simp only [ctxPtrs, List.mem_cons, List.mem_append]
    rcases List.mem_cons.1 hf with rfl | h
    · exact Or.inr (Or.inl hq)
    · exact Or.inr (Or.inr (ih h))

theorem sib_ptrs_not_frame {ctx : List Frame} (hnd : (ctxPtrs ctx).Nodup) {f : Frame}
    (hf : f ∈ ctx) {q : NodePtr} (hq : q ∈ f.sib.ptrs) : q ∉ ctx.map Frame.p := by
  induction ctx with
  | nil => simp at hf
  | cons g gs ih =>
    simp only [ctxPtrs, List.nodup_cons, List.mem_append, not_or, List.nodup_append] at hnd
    obtain ⟨⟨hg1, hg2⟩, hsnd, hgnd, hdisj⟩ := hnd
    simp only [List.map_cons, List.mem_cons, not_or]
    rcases List.mem_cons.1 hf with rfl | h
    · exact ⟨fun e => hg1 (e ▸ hq), fun hm => hdisj hq (ctx_p_mem_ctxPtrs hm)⟩
    · exact ⟨fun e => hg2 (e ▸ sib_ptrs_mem_ctxPtrs h hq), ih hgnd h⟩

theorem Boxed_fill {ext : Externals AABB F Ray Hit} {mem : NodePtr → Option (Node AABB)}
    {f : Frame} {t : Shape} :
    Boxed ext mem (f.fill t) ↔
      BoxAt ext mem f.p (if f.onLeft then t.ptr else f.sib.ptr)
        (if f.onLeft then f.sib.ptr else t.ptr) ∧ Boxed ext mem f.sib ∧ Boxed ext mem t := by
  unfold Frame.fill
  cases hf : f.onLeft
  · simp only [Bool.false_eq_true, if_false, Boxed]
  · simp only [if_true, Boxed]
    constructor
    · rintro ⟨h1, h2, h3⟩; exact ⟨h1, h3, h2⟩
    · rintro ⟨h1, h2, h3⟩; exact ⟨h1, h3, h2⟩

theorem Boxed_plug {ext : Externals AABB F Ray Hit} {mem : NodePtr → Option (Node AABB)}
    {ctx : List Frame} {t : Shape} :
    Boxed ext mem (plug t ctx) ↔
      Boxed ext mem t ∧ BoxedSibs ext mem ctx ∧ BoxedCtx ext mem ctx t.ptr := by
  induction ctx generalizing t with
  | nil => simp [plug, BoxedSibs, BoxedCtx]
  | cons f fs ih =>
    simp only [plug, BoxedSibs, BoxedCtx]
    rw [ih, Boxed_fill, Frame.fill_ptr]
    constructor
    · rintro ⟨⟨h1, h2, h3⟩, h4, h5⟩; exact ⟨h3, ⟨h2, h4⟩, h1, h5⟩
    · rintro ⟨h3, ⟨h2, h4⟩, h1, h5⟩; exact ⟨⟨h1, h2, h3⟩, h4, h5⟩

end Basics

end Isetta


namespace Isetta

section Heap

variable {AABB F Ray Hit : Type}

theorem plug_append (t : Shape) (ctx : List Frame) (f : Frame) :
    plug t (ctx ++ [f]) = f.fill (plug t ctx) := by
  induction ctx generalizing t with
  | nil => rfl
  | cons g gs ih => simp only [plug, List.cons_append]; exact ih _

theorem BVTree.modify_ok {s : BVTree AABB} {p : NodePtr} {n : Node AABB}
    (f : Node AABB → Node AABB) (h : s.mem p = some n) :
    s.modify p f = .ok { s with mem := Function.update s.mem p (some (f n)) } := by
  simp [BVTree.modify, h]

theorem deref_some {mem : NodePtr → Option (Node AABB)} {p : NodePtr} {n : Node AABB}
    (h : mem p = some n) : deref mem (some p) = .ok n := by
  simp [deref, h]

/-- The allocator returns an address that holds no node. -/
theorem firstFree_free {mem : NodePtr → Option (Node AABB)} {brk : Nat}
    (h : ∀ p, brk ≤ p → mem p = none) : mem (firstFree mem brk) = none := by
  unfold firstFree
  cases hf : (List.range brk).find? (fun p => (mem p).isNone) with
  | none => simpa using h brk (le_refl _)
  | some p =>
    have := List.find?_some hf
    simpa using this

theorem firstFree_le {mem : NodePtr → Option (Node AABB)} {brk : Nat} :
    firstFree mem brk ≤ brk := by
  unfold firstFree
  cases hf : (List.range brk).find? (fun p => (mem p).isNone) with
  | none => simp
  | some p =>
    have := List.mem_of_find?_eq_some hf
    simp only [List.mem_range] at this
    simpa using this.le

/-! ## The descent of `AddNode` -/

theorem descend_spec (ext : Externals AABB F Ray Hit) {mem : NodePtr → Option (Node AABB)}
    (box : AABB) {t : Shape} {par : Option NodePtr} (hr : Rep mem par t) {fuel : Nat}
    (hf : t.ptrs.length ≤ fuel) :
    ∃ ctx c L, AddNode.descend ext mem box fuel t.ptr = .ok L ∧ t = plug (.leaf L c) ctx := by
  induction t generalizing par fuel with
  | leaf p c =>
    obtain ⟨n, hn, _, h2, h3, _⟩ := hr
    cases fuel with
    | zero => simp [Shape.ptrs] at hf
    | succ k =>
      refine ⟨[], c, p, ?_, rfl⟩
      simp [AddNode.descend, hn, Node.IsLeaf, h2, h3]
  | branch p l r ihl ihr =>
    obtain ⟨⟨n, hn, _, h2, h3, _⟩, hl, hrr⟩ := hr
    cases fuel with
    | zero => simp [Shape.ptrs] at hf
    | succ k =>
      simp only [Shape.ptrs, List.length_cons, List.length_append] at hf
      obtain ⟨ln, hln, _⟩ := hl.top
      obtain ⟨rn, hrn, _⟩ := hrr.top
      obtain ⟨cl, c1, L1, hd1, he1⟩ := ihl hl (show l.ptrs.length ≤ k by omega)
      obtain ⟨cr, c2, L2, hd2, he2⟩ := ihr hrr (show r.ptrs.length ≤ k by omega)
      by_cases hgo : ext.flt
          (ext.fsub (ext.SurfaceArea (ext.Encapsulate rn.aabb box)) (ext.SurfaceArea rn.aabb))
          (ext.fsub (ext.SurfaceArea (ext.Encapsulate ln.aabb box)) (ext.SurfaceArea ln.aabb)) = true
      · refine ⟨cr ++ [⟨p, false, l⟩], c2, L2, ?_, ?_⟩
        · simp [AddNode.descend, hn, Node.IsLeaf, h2, h3, deref, hln, hrn, hgo, hd2]
        · rw [plug_append, ← he2]; simp [Frame.fill]
      · refine ⟨cl ++ [⟨p, true, r⟩], c1, L1, ?_, ?_⟩
        · simp [AddNode.descend, hn, Node.IsLeaf, h2, h3, deref, hln, hrn, hgo, hd1]
        · rw [plug_append, ← he1]; simp [Frame.fill]

/-! ## The refit loop -/

theorem refit_spec (ext : Externals AABB F Ray Hit) {ctx : List Frame} {s : BVTree AABB}
    {child : NodePtr} {fuel : Nat}
    (hnd : (child :: ctxPtrs ctx).Nodup)
    (hrep : RepCtx s.mem none ctx child)
    (hchild : ∃ n, s.mem child = some n)
    (hf : ctx.length ≤ fuel) :
    ∃ s1, refit ext fuel s (ctxParent none ctx) = .ok s1 ∧
      BoxesOnly s s1 (ctx.map Frame.p) ∧ BoxedCtx ext s1.mem ctx child := by
  induction ctx generalizing s child fuel with
  | nil =>
    refine ⟨s, ?_, ⟨rfl, rfl, rfl, rfl, fun _ => rfl, fun _ _ => rfl⟩, trivial⟩
    cases fuel <;> simp [ctxParent, refit]
  | cons f fs ih =>
    obtain ⟨⟨n, hn, h1, h2, h3, h4⟩, hs, hrest⟩ := hrep
    obtain ⟨cn, hcn⟩ := hchild
    obtain ⟨sn, hsn, _⟩ := hs.top
    cases fuel with
    | zero => simp at hf
    | succ k =>
      simp only [List.length_cons, Nat.add_le_add_iff_right] at hf
      simp only [ctxPtrs, List.nodup_cons, List.mem_cons, List.mem_append, not_or,
        List.nodup_append] at hnd
      obtain ⟨⟨hc1, hc2, hc3⟩, ⟨hp1, hp2⟩, hsnd, hfnd, hdisj⟩ := hnd
      have hsp : f.sib.ptr ≠ f.p := by
        intro h; exact hp1 (h ▸ f.sib.ptr_mem_ptrs)
      -- the two children of the frame
      obtain ⟨ln, rn, hl, hr, hlne, hrne⟩ : ∃ ln rn, s.mem (if f.onLeft then child else f.sib.ptr)
          = some ln ∧ s.mem (if f.onLeft then f.sib.ptr else child) = some rn ∧
          (if f.onLeft then child else f.sib.ptr) ≠ f.p ∧
          (if f.onLeft then f.sib.ptr else child) ≠ f.p := by
        cases f.onLeft
        · exact ⟨sn, cn, by simpa using hsn, by simpa using hcn, by simpa using hsp,
            by simpa using hc1⟩
        · exact ⟨cn, sn, by simpa using hcn, by simpa using hsn, by simpa using hc1,
            by simpa using hsp⟩
      let n1 : Node AABB := { n with aabb := ext.Encapsulate ln.aabb rn.aabb }
      let s1 : BVTree AABB := { s with mem := Function.update s.mem f.p (some n1) }
      have hub : UpdateBranchAABB ext s f.p = .ok s1 := by
        simp [UpdateBranchAABB, hn, h4, Node.IsLeaf, h2, h3, deref, hl, hr, BVTree.modify, s1, n1]
      have hlinks1 : ∀ p, (s1.mem p).map Node.links = (s.mem p).map Node.links := by
        intro p
        by_cases hp : p = f.p
        · subst hp; simp [s1, hn, Node.links, n1]
        · simp [s1, Function.update_noteq hp]
      have hnd1 : (f.p :: ctxPtrs fs).Nodup := by
        simp only [List.nodup_cons]
        exact ⟨hp2, hfnd⟩
      obtain ⟨s2, hs2, hbo, hbx⟩ := @ih s1 f.p k hnd1
        (RepCtx.ctx_congr (fun p _ => hlinks1 p) hrest) ⟨n1, by simp [s1]⟩ hf
      refine ⟨s2, ?_, ?_, ?_, hbx⟩
      · have hp1' : n1.parent = ctxParent none fs := h1
        have : s1.mem f.p = some n1 := by simp [s1]
        simp only [ctxParent, refit, hub, Outcome.andThen_ok]
        simp only [Function.update_same]
        exact h1 ▸ hs2
      · refine ⟨hbo.root, hbo.index, hbo.pairs, hbo.brk, fun p => ?_, fun p hp => ?_⟩
        · rw [hbo.links, hlinks1]
        · simp only [List.map_cons, List.mem_cons, not_or] at hp
          rw [hbo.same p hp.2]
          simp [s1, Function.update_noteq hp.1]
      · -- the frame itself is boxed, and stays so above
        have hnotin : ∀ q, q = f.p ∨ q = child ∨ q ∈ f.sib.ptrs → q ∉ fs.map Frame.p := by
          intro q hq hmem
          have hq2 : q ∈ ctxPtrs fs := ctx_p_mem_ctxPtrs hmem
          rcases hq with rfl | rfl | hq
          · exact hp2 hq2
          · exact hc3 hq2
          · exact hdisj hq hq2
        have e1 : s2.mem f.p = some n1 := by
          rw [hbo.same _ (hnotin _ (Or.inl rfl))]; simp [s1]
        have e2 : s2.mem (if f.onLeft then child else f.sib.ptr) = some ln := by
          rw [hbo.same _ (hnotin _ (by
            cases f.onLeft
            · exact Or.inr (Or.inr (by simpa using f.sib.ptr_mem_ptrs))
            · exact Or.inr (Or.inl (by simp))))]
          simp [s1, Function.update_noteq hlne, hl]
        have e3 : s2.mem (if f.onLeft then f.sib.ptr else child) = some rn := by
          rw [hbo.same _ (hnotin _ (by
            cases f.onLeft
            · exact Or.inr (Or.inl (by simp))
            · exact Or.inr (Or.inr (by simpa using f.sib.ptr_mem_ptrs))))]
          simp [s1, Function.update_noteq hrne, hr]
        exact ⟨n1, ln, rn, e1, e2, e3, rfl⟩

end Heap

end Isetta


namespace Isetta

section Insert

variable {AABB F Ray Hit : Type}

theorem Inv.det_head {ext : Externals AABB F Ray Hit} {s : BVTree AABB} {t : Option Shape}
    {D : List (Collider × NodePtr)} {c : Collider} {n : NodePtr}
    (h : Inv ext s t ((c, n) :: D)) :
    ∃ nn, s.mem n = some nn ∧ nn.left = none ∧ nn.right = none ∧ nn.collider = some c := by
  simpa using h.det (c, n) (by simp)

/-- Call of `AddNode` into the empty tree. -/
theorem AddNode_none (ext : Externals AABB F Ray Hit) {s : BVTree AABB}
    {D : List (Collider × NodePtr)} {c : Collider} {n : NodePtr} (fuel : Nat)
    (hinv : Inv ext s none ((c, n) :: D)) :
    ∃ s1, AddNode ext fuel s n = .ok s1 ∧ Inv ext s1 (some (.leaf n c)) D ∧
      s1.colNodeMap = s.colNodeMap ∧ s1.colliderPairSet = s.colliderPairSet ∧
      s1.brk = s.brk ∧
      (∀ p m, s.mem p = some m → ∃ m1, s1.mem p = some m1 ∧ m1.aabb = m.aabb ∧
        m1.collider = m.collider) := by
  obtain ⟨nn, hnn, hl, hr, hc⟩ := hinv.det_head
  have hroot : s.root = none := by simpa using hinv.root_eq
  have hnd := hinv.nodup
  simp only [ptrsOf, List.nil_append, List.map_cons, List.nodup_cons] at hnd
  refine ⟨{ s with root := some n,
                   mem := Function.update s.mem n (some { nn with parent := none }) }, ?_, ?_,
    rfl, rfl, rfl, ?_⟩
  · simp [AddNode, hnn, hroot, BVTree.modify]
  · constructor
    · simp
    · intro t0 ht0
      simp only [Option.some.injEq] at ht0
      subst ht0
      exact ⟨{ nn with parent := none }, by simp, rfl, hl, hr, hc⟩
    · intro t0 ht0
      simp only [Option.some.injEq] at ht0
      subst ht0
      trivial
    · intro e he
      have hne : e.2 ≠ n := by
        rintro rfl
        exact hnd.1 (List.mem_map_of_mem _ he)
      obtain ⟨m, hm, h⟩ := hinv.det e (by simp [he])
      exact ⟨m, by simp [Function.update_noteq hne, hm], h⟩
    · simpa [ptrsOf, Shape.ptrs] using hnd
    · intro p m hm
      by_cases hp : p = n
      · simp [ptrsOf, Shape.ptrs, hp]
      · simp only [Function.update_noteq hp] at hm
        simpa [ptrsOf, Shape.ptrs] using hinv.live p m hm
    · intro p hp
      have hne : p ≠ n := by
        rintro rfl
        rw [hinv.brk _ hp] at hnn
        cases hnn
      simpa [Function.update_noteq hne] using hinv.brk p hp
  · intro p m hm
    by_cases hp : p = n
    · subst hp
      rw [hnn] at hm
      cases hm
      exact ⟨{ nn with parent := none }, by simp, rfl, rfl⟩
    · exact ⟨m, by simp [Function.update_noteq hp, hm], rfl, rfl⟩

theorem AddNode_splice (ext : Externals AABB F Ray Hit) {s : BVTree AABB} {f : Frame}
    {fn cn nn : Node AABB} {L n b r : NodePtr} (fuel : Nat)
    (hroot : s.root = some r)
    (hdesc : AddNode.descend ext s.mem nn.aabb fuel r = .ok L)
    (hLr : L ≠ r)
    (hb : b = firstFree s.mem s.brk)
    (hfn : s.mem f.p = some fn) (hcn : s.mem L = some cn) (hnn : s.mem n = some nn)
    (hcp : cn.parent = some f.p)
    (hfl : fn.left = some (if f.onLeft then L else f.sib.ptr))
    (hfr : fn.right = some (if f.onLeft then f.sib.ptr else L))
    (hsL : f.sib.ptr ≠ L)
    (hbf : b ≠ f.p) (hbL : b ≠ L) (hbn : b ≠ n) (hLn : L ≠ n) (hLf : L ≠ f.p) (hnf : n ≠ f.p) :
    AddNode ext fuel s n =
      refit ext fuel (spliced s f fn cn nn L n b (ext.Encapsulate cn.aabb nn.aabb))
        (some f.p) := by
  subst hb
  unfold AddNode
  simp only [hnn, hroot, hdesc, hcn, if_neg hLr, NewOnFreeList, BVTree.modify,
    Function.update_same, Outcome.andThen_ok, hcp, SwapOutChild,
    Function.update_noteq hbf.symm, hfn, hfl, hfr]
  cases hf : f.onLeft
  · simp [hsL, Function.update_noteq, hbf, hbL, hbn, hLn, hLf, hnf, hbf.symm, hbL.symm, hbn.symm,
      hLn.symm, hLf.symm, hnf.symm, hcn, hnn, Node.ofAABB]
    congr 1
    simp only [spliced, hf, BVTree.mk.injEq, hroot, true_and, and_true]
    funext q
    simp only [Function.update_apply]
    split_ifs <;> simp_all
  · simp [hsL, Function.update_noteq, hbf, hbL, hbn, hLn, hLf, hnf, hbf.symm, hbL.symm, hbn.symm,
      hLn.symm, hLf.symm, hnf.symm, hcn, hnn, Node.ofAABB]
    congr 1
    simp only [spliced, hf, BVTree.mk.injEq, hroot, true_and, and_true]
    funext q
    simp only [Function.update_apply]
    split_ifs <;> simp_all

theorem AddNode_rootleaf_eq (ext : Externals AABB F Ray Hit) {s : BVTree AABB}
    {cn nn : Node AABB} {L n b : NodePtr} (fuel : Nat)
    (hroot : s.root = some L)
    (hdesc : AddNode.descend ext s.mem nn.aabb fuel L = .ok L)
    (hb : b = firstFree s.mem s.brk)
    (hcn : s.mem L = some cn) (hnn : s.mem n = some nn)
    (hbL : b ≠ L) (hbn : b ≠ n) (hLn : L ≠ n) :
    AddNode ext fuel s n =
      .ok (splicedRoot s cn nn L n b (ext.Encapsulate cn.aabb nn.aabb)) := by
  subst hb
  unfold AddNode
  simp only [hnn, hroot, hdesc, hcn, if_true, NewOnFreeList, BVTree.modify,
    Function.update_same, Outcome.andThen_ok]
  simp [Function.update_noteq, hbL, hbn, hLn, hbL.symm, hbn.symm, hLn.symm, hcn, hnn,
    Node.ofAABB]
  simp only [splicedRoot, BVTree.mk.injEq, true_and, and_true]
  funext q
  simp only [Function.update_apply]
  split_ifs <;> simp_all

theorem RepCtx.frame_node {mem : NodePtr → Option (Node AABB)} {par : Option NodePtr}
    {ctx : List Frame} {child : NodePtr} (h : RepCtx mem par ctx child) {p : NodePtr}
    (hp : p ∈ ctx.map Frame.p) : ∃ m, mem p = some m ∧ m.collider = none := by
  induction ctx generalizing child with
  | nil => simp at hp
  | cons f fs ih =>
    obtain ⟨⟨m, hm, _, _, _, hc⟩, _, hrest⟩ := h
    simp only [List.map_cons, List.mem_cons] at hp
    rcases hp with rfl | hp
    · exact ⟨m, hm, hc⟩
    · exact ih hrest hp

theorem RepCtx.ctx_live {mem : NodePtr → Option (Node AABB)} {par : Option NodePtr}
    {ctx : List Frame} {child : NodePtr} (h : RepCtx mem par ctx child) {p : NodePtr}
    (hp : p ∈ ctxPtrs ctx) : ∃ m, mem p = some m := by
  induction ctx generalizing child with
  | nil => simp [ctxPtrs] at hp
  | cons f fs ih =>
    obtain ⟨⟨m, hm, _⟩, hs, hrest⟩ := h
    simp only [ctxPtrs, List.mem_cons, List.mem_append] at hp
    rcases hp with rfl | hp | hp
    · exact ⟨m, hm⟩
    · exact hs.rep_live p hp
    · exact ih hrest hp

/-- Call of `AddNode` into a non-empty tree whose descent ends in the leaf `L`
below the path `ctx`: the leaf `n` becomes the right child of a new branch `b`
that takes the place of `L`, and no node but the parent of `L` changes a
child. -/
theorem AddNode_at (ext : Externals AABB F Ray Hit) {s : BVTree AABB} {ctx : List Frame}
    {L : NodePtr} {c0 : Collider}
    {D : List (Collider × NodePtr)} {c : Collider} {n : NodePtr} {nn : Node AABB} {fuel : Nat}
    (hinv : Inv ext s (some (plug (.leaf L c0) ctx)) ((c, n) :: D))
    (hnn : s.mem n = some nn)
    (hdesc : AddNode.descend ext s.mem nn.aabb fuel (plug (.leaf L c0) ctx).ptr = .ok L)
    (hf : (plug (.leaf L c0) ctx).ptrs.length ≤ fuel) :
    ∃ s1 b, s.mem b = none ∧
      AddNode ext fuel s n = .ok s1 ∧
      Inv ext s1 (some (plug (.branch b (.leaf L c0) (.leaf n c)) ctx)) D ∧
      s1.colNodeMap = s.colNodeMap ∧ s1.colliderPairSet = s.colliderPairSet ∧
      (∀ p m, s.mem p = some m → m.collider ≠ none →
        ∃ m1, s1.mem p = some m1 ∧ m1.aabb = m.aabb ∧ m1.collider = m.collider) ∧
      (∀ q m, s.mem q = some m → ctxParent none ctx ≠ some q →
        ∃ m1, s1.mem q = some m1 ∧ m1.left = m.left ∧ m1.right = m.right) := by
  obtain ⟨nn1, hnn1, hnl, hnr, hnc⟩ := hinv.det_head
  obtain rfl : nn = nn1 := by rw [hnn] at hnn1; exact Option.some.inj hnn1
  have hroot : s.root = some (plug (.leaf L c0) ctx).ptr := by simpa using hinv.root_eq
  obtain ⟨⟨cn, hcn, hcp, hcl, hcr, hcc⟩, hctx⟩ := Rep_plug.1 (hinv.rep _ rfl)
  have hbox0 := Boxed_plug.1 (hinv.boxed _ rfl)
  -- distinctness of all addresses involved
  have hnd : (L :: ctxPtrs ctx ++ n :: D.map Prod.snd).Nodup := by
    have := hinv.nodup
    simp only [ptrsOf, List.map_cons] at this
    exact (List.Perm.nodup_iff ((plug_ptrs_perm _ ctx).append_right _)).1 this
  simp only [List.cons_append, List.nodup_cons, List.mem_append, List.mem_cons, not_or,
    List.nodup_append] at hnd
  obtain ⟨⟨hLctx, hLn, hLD⟩, hcnd, ⟨hnD, hDnd⟩, hdisj⟩ := hnd
  have hnctx : n ∉ ctxPtrs ctx := fun h => hdisj h (by simp)
  have hDctx : ∀ q, q ∈ D.map Prod.snd → q ∉ ctxPtrs ctx := fun q hq h => hdisj h (by simp [hq])
  have hlive : ∀ q m, s.mem q = some m → q = L ∨ q ∈ ctxPtrs ctx ∨ q = n ∨ q ∈ D.map Prod.snd := by
    intro q m hm
    have := hinv.live q m hm
    simp only [ptrsOf, List.map_cons, List.mem_append, List.mem_cons] at this
    rcases this with h | h
    · have := (plug_ptrs_perm _ ctx).mem_iff.1 h
      simp only [Shape.ptrs, List.singleton_append, List.mem_cons] at this
      rcases this with h | h
      · exact Or.inl h
      · exact Or.inr (Or.inl h)
    · exact Or.inr (Or.inr h)
  -- the fresh address
  obtain ⟨b, hb⟩ : ∃ b, b = firstFree s.mem s.brk := ⟨_, rfl⟩
  have hbfree : s.mem b = none := hb ▸ firstFree_free hinv.brk
  have hbL : b ≠ L := by rintro rfl; rw [hcn] at hbfree; cases hbfree
  have hbn : b ≠ n := by rintro rfl; rw [hnn] at hbfree; cases hbfree
  have hbctx : b ∉ ctxPtrs ctx := by
    intro h
    obtain ⟨m, hm⟩ := hctx.ctx_live h
    rw [hm] at hbfree; cases hbfree
  have hbD : b ∉ D.map Prod.snd := by
    intro h
    obtain ⟨e, he, rfl⟩ := List.mem_map.1 h
    obtain ⟨m, hm, _⟩ := hinv.det e (by simp [he])
    rw [hm] at hbfree; cases hbfree
  have hbrk : ∀ q, max s.brk (b + 1) ≤ q → s.mem q = none ∧ q ≠ b := by
    intro q hq
    exact ⟨hinv.brk q (le_trans (le_max_left _ _) hq), by omega⟩
  cases ctx with
  | nil =>
    simp only [plug] at hroot hdesc ⊢
    simp only [Shape.ptr_leaf] at hroot hdesc
    have eb : (splicedRoot s cn nn L n b (ext.Encapsulate cn.aabb nn.aabb)).mem b =
        some { parent := none, left := some L, right := some n, collider := none,
               aabb := ext.Encapsulate cn.aabb nn.aabb } := by
      simp [splicedRoot]
    have eL : (splicedRoot s cn nn L n b (ext.Encapsulate cn.aabb nn.aabb)).mem L =
        some { cn with parent := some b } := by
      simp [splicedRoot, Function.update_noteq hbL.symm, Function.update_noteq hLn]
    have en : (splicedRoot s cn nn L n b (ext.Encapsulate cn.aabb nn.aabb)).mem n =
        some { nn with parent := some b } := by
      simp [splicedRoot, Function.update_noteq hbn.symm]
    have eo : ∀ q, q ≠ b → q ≠ L → q ≠ n →
        (splicedRoot s cn nn L n b (ext.Encapsulate cn.aabb nn.aabb)).mem q = s.mem q := by
      intro q h1 h2 h3
      simp [splicedRoot, Function.update_noteq h1, Function.update_noteq h2,
        Function.update_noteq h3]
    refine ⟨_, b, hbfree,
      AddNode_rootleaf_eq ext fuel hroot hdesc hb hcn hnn hbL hbn hLn, ?_, rfl, rfl, ?_, ?_⟩
    · constructor
      · simp [splicedRoot, plug]
      · intro t1 ht1
        simp only [plug, Option.some.injEq] at ht1
        subst ht1
        exact ⟨⟨_, eb, rfl, rfl, rfl, rfl⟩, ⟨_, eL, rfl, hcl, hcr, hcc⟩,
          ⟨_, en, rfl, hnl, hnr, hnc⟩⟩
      · intro t1 ht1
        simp only [plug, Option.some.injEq] at ht1
        subst ht1
        exact ⟨⟨_, _, _, eb, eL, en, rfl⟩, trivial, trivial⟩
      · intro e he
        have h1 : e.2 ∈ D.map Prod.snd := List.mem_map_of_mem _ he
        obtain ⟨m, hm, h⟩ := hinv.det e (by simp [he])
        refine ⟨m, ?_, h⟩
        rw [eo _ (fun h => hbD (h ▸ h1)) (fun h => hLD (h ▸ h1)) (fun h => hnD (h ▸ h1))]
        exact hm
      · simp only [ptrsOf, plug, Shape.ptrs, List.singleton_append, List.cons_append,
          List.nil_append, List.nodup_cons, List.mem_cons, List.mem_append, not_or]
        exact ⟨⟨hbL, hbn, hbD⟩, ⟨hLn, hLD⟩, hnD, hDnd⟩
      · intro q m hm
        simp only [ptrsOf, plug, Shape.ptrs, List.singleton_append, List.cons_append,
          List.nil_append, List.mem_cons, List.mem_append]
        by_cases h1 : q = b
        · exact Or.inl h1
        by_cases h2 : q = L
        · exact Or.inr (Or.inl h2)
        by_cases h3 : q = n
        · exact Or.inr (Or.inr (Or.inl h3))
        rw [eo q h1 h2 h3] at hm
        rcases hlive q m hm with h | h | h | h
        · exact absurd h h2
        · simp [ctxPtrs] at h
        · exact absurd h h3
        · exact Or.inr (Or.inr (Or.inr h))
      · intro q hq
        obtain ⟨h1, h2⟩ := hbrk q hq
        rw [eo q h2 (by rintro rfl; rw [hcn] at h1; cases h1)
          (by rintro rfl; rw [hnn] at h1; cases h1)]
        exact h1
    · intro q m hm hmc
      by_cases h2 : q = L
      · have hmm : cn = m := by rw [h2, hcn] at hm; exact Option.some.inj hm
        exact ⟨_, by rw [h2]; exact eL, by rw [← hmm], by rw [← hmm]⟩
      by_cases h3 : q = n
      · have hmm : nn = m := by rw [h3, hnn] at hm; exact Option.some.inj hm
        exact ⟨_, by rw [h3]; exact en, by rw [← hmm], by rw [← hmm]⟩
      have h1 : q ≠ b := by rintro rfl; rw [hm] at hbfree; cases hbfree
      exact ⟨m, by rw [eo q h1 h2 h3, hm], rfl, rfl⟩
    · intro q m hm _
      by_cases h2 : q = L
      · have hmm : cn = m := by rw [h2, hcn] at hm; exact Option.some.inj hm
        exact ⟨_, by rw [h2]; exact eL, by rw [← hmm], by rw [← hmm]⟩
      by_cases h3 : q = n
      · have hmm : nn = m := by rw [h3, hnn] at hm; exact Option.some.inj hm
        exact ⟨_, by rw [h3]; exact en, by rw [← hmm], by rw [← hmm]⟩
      have h1 : q ≠ b := by rintro rfl; rw [hm] at hbfree; cases hbfree
      exact ⟨m, by rw [eo q h1 h2 h3, hm], rfl, rfl⟩
  | cons f fs =>
    obtain ⟨⟨fn, hfn, hfp, hfl, hfr, hfc⟩, hsib, hrest⟩ := hctx
    have hcp1 : cn.parent = some f.p := hcp
    have hfctx : f.p ∈ ctxPtrs (f :: fs) := by simp [ctxPtrs]
    have hLf : L ≠ f.p := fun h => hLctx (h ▸ hfctx)
    have hnf : n ≠ f.p := fun h => hnctx (h ▸ hfctx)
    have hbf : b ≠ f.p := fun h => hbctx (h ▸ hfctx)
    have hsL : f.sib.ptr ≠ L := by
      intro h
      exact hLctx (by simp [ctxPtrs, ← h, f.sib.ptr_mem_ptrs])
    have hLr : L ≠ (plug (Shape.leaf L c0) (f :: fs)).ptr := by
      rw [plug_ptr]
      intro h
      rcases ctxRoot_mem (Shape.leaf L c0).ptr (f :: fs) with ⟨_, h1⟩ | h1
      · cases h1
      · exact hLctx (h ▸ h1)
    have hlen : (f :: fs).length ≤ fuel := by
      have h1 := (plug_ptrs_perm (Shape.leaf L c0) (f :: fs)).length_eq
      have h2 := ctx_length_le (f :: fs)
      simp only [List.length_append] at h1
      omega
    obtain ⟨sS, hsS⟩ : ∃ sS, sS = spliced s f fn cn nn L n b (ext.Encapsulate cn.aabb nn.aabb) :=
      ⟨_, rfl⟩
    have eb : sS.mem b =
        some { parent := some f.p, left := some L, right := some n, collider := none,
               aabb := ext.Encapsulate cn.aabb nn.aabb } := by
      simp [hsS, spliced]
    have en : sS.mem n = some { nn with parent := some b } := by
      simp [hsS, spliced, Function.update_noteq hbn.symm]
    have eL : sS.mem L = some { cn with parent := some b } := by
      simp [hsS, spliced, Function.update_noteq hbL.symm, Function.update_noteq hLn]
    have ef : sS.mem f.p =
        some (if f.onLeft then { fn with left := some b } else { fn with right := some b }) := by
      simp [hsS, spliced, Function.update_noteq hbf.symm, Function.update_noteq hnf.symm,
        Function.update_noteq hLf.symm]
    have eo : ∀ q, q ≠ b → q ≠ n → q ≠ L → q ≠ f.p → sS.mem q = s.mem q := by
      intro q h1 h2 h3 h4
      simp [hsS, spliced, Function.update_noteq h1, Function.update_noteq h2,
        Function.update_noteq h3, Function.update_noteq h4]
    have eoc : ∀ q, q ∈ ctxPtrs (f :: fs) → q ≠ f.p → sS.mem q = s.mem q := by
      intro q hq h4
      exact eo q (fun h => hbctx (h ▸ hq)) (fun h => hnctx (h ▸ hq)) (fun h => hLctx (h ▸ hq)) h4
    have hcnd1 := hcnd
    simp only [ctxPtrs, List.nodup_cons, List.mem_append, not_or, List.nodup_append] at hcnd1
    obtain ⟨⟨hf1, hf2⟩, hsnd, hfsnd, hsdisj⟩ := hcnd1
    have hrepS : RepCtx sS.mem none (f :: fs) b := by
      refine ⟨⟨_, ef, ?_, ?_, ?_, ?_⟩, ?_, ?_⟩
      · cases f.onLeft <;> simpa using hfp
      · cases hfo : f.onLeft <;> simp [hfo] at hfl ⊢ <;> exact hfl
      · cases hfo : f.onLeft <;> simp [hfo] at hfr ⊢ <;> exact hfr
      · cases f.onLeft <;> simpa using hfc
      · refine Rep.rep_congr (fun q hq => ?_) hsib
        rw [eoc q (by simp [ctxPtrs, hq]) (fun h => hf1 (h ▸ hq))]
      · refine RepCtx.ctx_congr (fun q hq => ?_) hrest
        rw [eoc q (by simp [ctxPtrs, hq]) (fun h => hf2 (h ▸ hq))]
    obtain ⟨s1, hs1, hbo, hbx⟩ := @refit_spec _ _ _ _ ext (f :: fs) sS b fuel
      (List.nodup_cons.2 ⟨hbctx, hcnd⟩) hrepS ⟨_, eb⟩ hlen
    have hnotp : ∀ q, q ∉ ctxPtrs (f :: fs) → q ∉ (f :: fs).map Frame.p :=
      fun q hq h => hq (ctx_p_mem_ctxPtrs h)
    have e1b : s1.mem b = sS.mem b := hbo.same b (hnotp b hbctx)
    have e1L : s1.mem L = sS.mem L := hbo.same L (hnotp L hLctx)
    have e1n : s1.mem n = sS.mem n := hbo.same n (hnotp n hnctx)
    have hsame : ∀ q, q ≠ b → q ≠ n → q ≠ L → q ∉ (f :: fs).map Frame.p →
        s1.mem q = s.mem q := by
      intro q h1 h2 h3 h4
      rw [hbo.same q h4]
      exact eo q h1 h2 h3 (fun h => h4 (by simp [h]))
    have hliveS : ∀ q m, sS.mem q = some m →
        q ∈ (plug (.branch b (.leaf L c0) (.leaf n c)) (f :: fs)).ptrs ++ D.map Prod.snd := by
      intro q m hm
      rw [List.mem_append, (plug_ptrs_perm _ _).mem_iff]
      simp only [Shape.ptrs, List.singleton_append, List.cons_append, List.nil_append,
        List.mem_cons, List.mem_append]
      by_cases h1 : q = b
      · exact Or.inl (Or.inl h1)
      by_cases h2 : q = L
      · exact Or.inl (Or.inr (Or.inl h2))
      by_cases h3 : q = n
      · exact Or.inl (Or.inr (Or.inr (Or.inl h3)))
      by_cases h4 : q = f.p
      · exact Or.inl (Or.inr (Or.inr (Or.inr (h4 ▸ hfctx))))
      rw [eo q h1 h3 h2 h4] at hm
      rcases hlive q m hm with h | h | h | h
      · exact absurd h h2
      · exact Or.inl (Or.inr (Or.inr (Or.inr h)))
      · exact absurd h h3
      · exact Or.inr h
    have hsome : ∀ q m, s1.mem q = some m → ∃ m0, sS.mem q = some m0 := by
      intro q m hm
      have := hbo.links q
      rw [hm] at this
      cases h : sS.mem q with
      | none => simp [h] at this
      | some m0 => exact ⟨m0, rfl⟩
    refine ⟨s1, b, hbfree, ?_, ?_, ?_, ?_, ?_, ?_⟩
    · rw [AddNode_splice ext fuel hroot hdesc hLr hb hfn hcn hnn hcp1 hfl hfr hsL hbf hbL hbn
        hLn hLf hnf, ← hsS]
      exact hs1
    · constructor
      · rw [hbo.root]
        simp only [hsS, spliced, hroot, plug_ptr, Option.map_some', Shape.ptr_leaf,
          Shape.ptr_branch, ctxRoot]
      · intro t1 ht1
        simp only [Option.some.injEq] at ht1
        subst ht1
        refine Rep_plug.2 ⟨Rep.rep_congr (fun q _ => hbo.links q) ?_,
          RepCtx.ctx_congr (fun q _ => hbo.links q) hrepS⟩
        exact ⟨⟨_, eb, rfl, rfl, rfl, rfl⟩, ⟨_, eL, rfl, hcl, hcr, hcc⟩,
          ⟨_, en, rfl, hnl, hnr, hnc⟩⟩
      · intro t1 ht1
        simp only [Option.some.injEq] at ht1
        subst ht1
        refine Boxed_plug.2 ⟨⟨⟨_, _, _, e1b.trans eb, e1L.trans eL, e1n.trans en, rfl⟩, trivial,
          trivial⟩, ?_, hbx⟩
        refine BoxedSibs.sibs_congr (fun g hg q hq => ?_) hbox0.2.1
        have hq1 : q ∈ ctxPtrs (f :: fs) := sib_ptrs_mem_ctxPtrs hg hq
        rw [hsame q (fun h => hbctx (h ▸ hq1)) (fun h => hnctx (h ▸ hq1))
          (fun h => hLctx (h ▸ hq1)) (sib_ptrs_not_frame hcnd hg hq)]
      · intro e he
        have h1 : e.2 ∈ D.map Prod.snd := List.mem_map_of_mem _ he
        obtain ⟨m, hm, h⟩ := hinv.det e (by simp [he])
        refine ⟨m, ?_, h⟩
        rw [hsame _ (fun h => hbD (h ▸ h1)) (fun h => hnD (h ▸ h1)) (fun h => hLD (h ▸ h1))
          (fun h => hDctx _ h1 (ctx_p_mem_ctxPtrs h))]
        exact hm
      · refine (List.Perm.nodup_iff ((plug_ptrs_perm _ (f :: fs)).append_right _)).2 ?_
        simp only [ptrsOf, Shape.ptrs, List.singleton_append, List.cons_append,
          List.nil_append, List.nodup_cons, List.mem_cons, List.mem_append, not_or,
          List.nodup_append]
        refine ⟨⟨hbL, hbn, hbctx, hbD⟩, ⟨hLn, hLctx, hLD⟩, ⟨hnctx, hnD⟩, hcnd, hDnd, ?_⟩
        intro q hq hq2
        exact hDctx q hq2 hq
      · intro q m hm
        obtain ⟨m0, hm0⟩ := hsome q m hm
        exact hliveS q m0 hm0
      · intro q hq
        have hq1 : s1.brk = max s.brk (b + 1) := by rw [hbo.brk, hsS]; rfl
        rw [hq1] at hq
        obtain ⟨h1, h2⟩ := hbrk q hq
        have h3 : sS.mem q = none := by
          rw [eo q h2 (by rintro rfl; rw [hnn] at h1; cases h1)
            (by rintro rfl; rw [hcn] at h1; cases h1)
            (by rintro rfl; rw [hfn] at h1; cases h1)]
          exact h1
        cases h : s1.mem q with
        | none => rfl
        | some m =>
          obtain ⟨m0, hm0⟩ := hsome q m h
          rw [h3] at hm0; cases hm0
    · rw [hbo.index, hsS]; rfl
    · rw [hbo.pairs, hsS]; rfl
    · intro q m hm hmc
      have h4 : q ∉ (f :: fs).map Frame.p := by
        intro h
        obtain ⟨m0, hm0, hc0⟩ :=
          RepCtx.frame_node (show RepCtx s.mem none (f :: fs) L from
            ⟨⟨fn, hfn, hfp, hfl, hfr, hfc⟩, hsib, hrest⟩) h
        rw [hm] at hm0; cases hm0
        exact hmc hc0
      by_cases h2 : q = L
      · have hmm : cn = m := by rw [h2, hcn] at hm; exact Option.some.inj hm
        exact ⟨_, by rw [h2]; exact e1L.trans eL, by rw [← hmm], by rw [← hmm]⟩
      by_cases h3 : q = n
      · have hmm : nn = m := by rw [h3, hnn] at hm; exact Option.some.inj hm
        exact ⟨_, by rw [h3]; exact e1n.trans en, by rw [← hmm], by rw [← hmm]⟩
      have h1 : q ≠ b := by rintro rfl; rw [hm] at hbfree; cases hbfree
      exact ⟨m, by rw [hsame q h1 h3 h2 h4, hm], rfl, rfl⟩
    · intro q m hm hq
      have h4 : q ≠ f.p := fun h => hq (by simp [ctxParent, h])
      by_cases h2 : q = L
      · have hmm : cn = m := by rw [h2, hcn] at hm; exact Option.some.inj hm
        exact ⟨_, by rw [h2]; exact e1L.trans eL, by rw [← hmm], by rw [← hmm]⟩
      by_cases h3 : q = n
      · have hmm : nn = m := by rw [h3, hnn] at hm; exact Option.some.inj hm
        exact ⟨_, by rw [h3]; exact e1n.trans en, by rw [← hmm], by rw [← hmm]⟩
      have h1 : q ≠ b := by rintro rfl; rw [hm] at hbfree; cases hbfree
      have hl := hbo.links q
      rw [eo q h1 h3 h2 h4, hm] at hl
      cases h : s1.mem q with
      | none => simp [h] at hl
      | some m1 =>
        simp only [h, Option.map_some', Option.some.injEq, Node.links, Prod.mk.injEq] at hl
        exact ⟨m1, rfl, hl.2.1, hl.2.2.1⟩

/-- Call of `AddNode` into a non-empty tree: the leaf `n` becomes the right child of a
new branch `b` that takes the place of the leaf `L` the descent ends in. -/
theorem AddNode_some (ext : Externals AABB F Ray Hit) {s : BVTree AABB} {t0 : Shape}
    {D : List (Collider × NodePtr)} {c : Collider} {n : NodePtr} {fuel : Nat}
    (hinv : Inv ext s (some t0) ((c, n) :: D)) (hf : t0.ptrs.length ≤ fuel) :
    ∃ s1 ctx L c0 b, t0 = plug (.leaf L c0) ctx ∧ s.mem b = none ∧
      AddNode ext fuel s n = .ok s1 ∧
      Inv ext s1 (some (plug (.branch b (.leaf L c0) (.leaf n c)) ctx)) D ∧
      s1.colNodeMap = s.colNodeMap ∧ s1.colliderPairSet = s.colliderPairSet ∧
      (∀ p m, s.mem p = some m → m.collider ≠ none →
        ∃ m1, s1.mem p = some m1 ∧ m1.aabb = m.aabb ∧ m1.collider = m.collider) := by
  obtain ⟨nn, hnn, _⟩ := hinv.det_head
  obtain ⟨ctx, c0, L, hdesc, ht0⟩ := descend_spec ext nn.aabb (hinv.rep t0 rfl) hf
  subst ht0
  obtain ⟨s1, b, h1, h2, h3, h4, h5, h6, _⟩ := AddNode_at ext hinv hnn hdesc hf
  exact ⟨s1, ctx, L, c0, b, rfl, h1, h2, h3, h4, h5, h6⟩

end Insert

end Isetta


namespace Isetta

section Remove

variable {AABB F Ray Hit : Type}

theorem RemoveNode_root_eq (ext : Externals AABB F Ray Hit) {s : BVTree AABB} {nn : Node AABB}
    {node : NodePtr} (fuel : Nat) (del : Bool)
    (hroot : s.root = some node) (hnn : s.mem node = some nn)
    (hl : nn.left = none) (hr : nn.right = none) :
    RemoveNode ext fuel s node del = RemoveNode.finish node del { s with root := none } := by
  unfold RemoveNode RemoveNode.finish
  simp [hnn, Node.IsLeaf, hl, hr, hroot]

theorem RemoveNode_child_eq (ext : Externals AABB F Ray Hit) {s : BVTree AABB} {f : Frame}
    {nn fn sn : Node AABB} {node : NodePtr} (fuel : Nat) (del : Bool)
    (hroot : s.root = some f.p) (hnn : s.mem node = some nn)
    (hl : nn.left = none) (hr : nn.right = none) (hp : nn.parent = some f.p)
    (hfn : s.mem f.p = some fn) (hsn : s.mem f.sib.ptr = some sn)
    (hfl : fn.left = some (if f.onLeft then node else f.sib.ptr))
    (hfr : fn.right = some (if f.onLeft then f.sib.ptr else node))
    (hnf : node ≠ f.p) (hsf : f.sib.ptr ≠ f.p) (hsn1 : f.sib.ptr ≠ node) :
    RemoveNode ext fuel s node del = RemoveNode.finish node del (promoted s f sn) := by
  unfold RemoveNode RemoveNode.finish
  cases hfo : f.onLeft <;>
    simp [hfo, hnn, Node.IsLeaf, hl, hr, hroot, hp, hnf.symm, deref, hfn, hfl, hfr,
      DeleteOnFreeList, BVTree.modify, Function.update_noteq hsf, hsn, promoted, hsn1.symm,
      hsn1]

theorem RemoveNode_deep_eq (ext : Externals AABB F Ray Hit) {s : BVTree AABB} {f g : Frame}
    {nn fn gn sn : Node AABB} {node r : NodePtr} (fuel : Nat) (del : Bool)
    (hroot : s.root = some r) (hrn : r ≠ node) (hrf : r ≠ f.p)
    (hnn : s.mem node = some nn)
    (hl : nn.left = none) (hr : nn.right = none) (hp : nn.parent = some f.p)
    (hfn : s.mem f.p = some fn) (hsn : s.mem f.sib.ptr = some sn) (hgn : s.mem g.p = some gn)
    (hfp : fn.parent = some g.p)
    (hfl : fn.left = some (if f.onLeft then node else f.sib.ptr))
    (hfr : fn.right = some (if f.onLeft then f.sib.ptr else node))
    (hgl : gn.left = some (if g.onLeft then f.p else g.sib.ptr))
    (hgr : gn.right = some (if g.onLeft then g.sib.ptr else f.p))
    (hgs : g.sib.ptr ≠ f.p)
    (hsf : f.sib.ptr ≠ f.p) (hsn1 : f.sib.ptr ≠ node) (hsg : f.sib.ptr ≠ g.p)
    (hfg : f.p ≠ g.p) :
    RemoveNode ext fuel s node del =
      (refit ext fuel (unlinked s f g gn sn) (some g.p)).andThen (RemoveNode.finish node del) := by
  unfold RemoveNode
  have e1 : ¬ (some r = some node) := by simpa using hrn
  have e2 : ¬ (some f.p = some r) := by simpa using hrf.symm
  simp only [hnn, Node.IsLeaf, hl, hr, hroot, hp, Option.isNone_none, Bool.and_self, if_true,
    e1, e2, if_false, hfn, hfp]
  have hst : SwapOutChild s g.p f.p (some f.sib.ptr) =
      .ok { s with
        mem := Function.update (Function.update s.mem
          g.p (some (if g.onLeft then { gn with left := some f.sib.ptr }
                     else { gn with right := some f.sib.ptr })))
          f.sib.ptr (some { sn with parent := some g.p }) } := by
    unfold SwapOutChild
    cases hgo : g.onLeft <;>
      simp [hgo, hgn, hgl, hgr, hgs, BVTree.modify, Function.update_noteq hsg, hsn]
  have hsel : (if some node = fn.left then SwapOutChild s g.p f.p fn.right
      else SwapOutChild s g.p f.p fn.left) = SwapOutChild s g.p f.p (some f.sib.ptr) := by
    cases hfo : f.onLeft <;> simp [hfo, hfl, hfr, hsn1.symm]
  have hor : some node = fn.left ∨ some node = fn.right := by
    cases hfo : f.onLeft <;> simp [hfo, hfl, hfr]
  simp only [hor, if_true, hsel, hst, Outcome.andThen_ok, DeleteOnFreeList,
    Function.update_noteq hsf.symm, Function.update_noteq hfg, hfn]
  rfl

/-- Releasing a leaf that was taken out of the tree keeps the invariant. -/
theorem Inv.release_head {ext : Externals AABB F Ray Hit} {s : BVTree AABB} {t : Option Shape}
    {D : List (Collider × NodePtr)} {c : Collider} {n : NodePtr}
    (h : Inv ext s t ((c, n) :: D)) :
    DeleteOnFreeList s (some n) = .ok { s with mem := Function.update s.mem n none } ∧
      Inv ext { s with mem := Function.update s.mem n none } t D := by
  obtain ⟨nn, hnn, _⟩ := h.det_head
  have hnd := h.nodup
  simp only [List.map_cons, List.nodup_append, List.nodup_cons] at hnd
  obtain ⟨htnd, ⟨hnD, hDnd⟩, hdisj⟩ := hnd
  have hnt : n ∉ ptrsOf t := fun hm => hdisj hm (by simp)
  refine ⟨by simp [DeleteOnFreeList, hnn], ?_⟩
  constructor
  · exact h.root_eq
  · intro t0 ht0
    refine Rep.rep_congr (fun q hq => ?_) (h.rep t0 ht0)
    have : q ≠ n := by rintro rfl; exact hnt (by simpa [ptrsOf, ht0] using hq)
    simp [Function.update_noteq this]
  · intro t0 ht0
    refine Boxed.boxed_congr (fun q hq => ?_) (h.boxed t0 ht0)
    have : q ≠ n := by rintro rfl; exact hnt (by simpa [ptrsOf, ht0] using hq)
    simp [Function.update_noteq this]
  · intro e he
    have hne : e.2 ≠ n := by
      intro hh
      exact hnD (hh ▸ List.mem_map_of_mem _ he)
    obtain ⟨m, hm, hh⟩ := h.det e (by simp [he])
    exact ⟨m, by simp [Function.update_noteq hne, hm], hh⟩
  · exact List.nodup_append.2 ⟨htnd, hDnd, fun q h1 h2 => hdisj h1 (by simp [h2])⟩
  · intro q m hm
    by_cases hq : q = n
    · subst hq; simp at hm
    · simp only [Function.update_noteq hq] at hm
      have := h.live q m hm
      simp only [List.map_cons, List.mem_append, List.mem_cons] at this ⊢
      rcases this with h1 | h1 | h1
      · exact Or.inl h1
      · exact absurd h1 hq
      · exact Or.inr h1
  · intro q hq
    by_cases hq1 : q = n
    · subst hq1; simp
    · simpa [Function.update_noteq hq1] using h.brk q hq

theorem RemoveNode.finish_spec {ext : Externals AABB F Ray Hit} {s : BVTree AABB}
    {t : Option Shape} {D : List (Collider × NodePtr)} {c : Collider} {n : NodePtr}
    (del : Bool) (h : Inv ext s t ((c, n) :: D)) :
    ∃ s1, RemoveNode.finish n del s = .ok s1 ∧
      Inv ext s1 t (if del then D else (c, n) :: D) ∧
      s1.root = s.root ∧ s1.colNodeMap = s.colNodeMap ∧
      s1.colliderPairSet = s.colliderPairSet ∧ s1.brk = s.brk ∧
      (∀ q, q ≠ n → s1.mem q = s.mem q) ∧ (del = false → s1 = s) := by
  cases del with
  | false => exact ⟨s, rfl, h, rfl, rfl, rfl, rfl, fun _ _ => rfl, fun _ => rfl⟩
  | true =>
    refine ⟨_, ?_, h.release_head.2, rfl, rfl, rfl, rfl, ?_, ?_⟩
    · simp only [RemoveNode.finish, if_true]; exact h.release_head.1
    · intro q hq; simp [Function.update_noteq hq]
    · intro hh; cases hh

/-- The unlinking part of `RemoveNode`: the leaf leaves the tree, its sibling
moves up, the parent branch is released and the boxes above are refitted. -/
theorem RemoveNode_unlink_frame (ext : Externals AABB F Ray Hit) {s : BVTree AABB}
    {ctx : List Frame} {D : List (Collider × NodePtr)} {c : Collider} {node : NodePtr}
    {fuel : Nat}
    (hinv : Inv ext s (some (plug (.leaf node c) ctx)) D)
    (hf : (plug (.leaf node c) ctx).ptrs.length ≤ fuel) :
    ∃ s1, (∀ del, RemoveNode ext fuel s node del = RemoveNode.finish node del s1) ∧
      Inv ext s1 (unplug ctx) ((c, node) :: D) ∧
      s1.colNodeMap = s.colNodeMap ∧ s1.colliderPairSet = s.colliderPairSet ∧
      s1.brk = s.brk ∧
      (∀ p m, s.mem p = some m → m.collider ≠ none →
        ∃ m1, s1.mem p = some m1 ∧ m1.aabb = m.aabb ∧ m1.collider = m.collider) ∧
      (∀ q, ctxParent none ctx = some q → s1.mem q = none) ∧
      (∀ q m, s.mem q = some m → q ∉ ctx.map Frame.p →
        ∃ m1, s1.mem q = some m1 ∧ m1.left = m.left ∧ m1.right = m.right ∧
          m1.aabb = m.aabb ∧ m1.collider = m.collider) := by
  have hroot : s.root = some (plug (Shape.leaf node c) ctx).ptr := by simpa using hinv.root_eq
  obtain ⟨⟨nn, hnn, hnp, hnl, hnr, hnc⟩, hctx⟩ := Rep_plug.1 (hinv.rep _ rfl)
  have hbox0 := Boxed_plug.1 (hinv.boxed _ rfl)
  have hnd : (node :: ctxPtrs ctx ++ D.map Prod.snd).Nodup := by
    have := hinv.nodup
    simp only [ptrsOf] at this
    exact (List.Perm.nodup_iff ((plug_ptrs_perm _ ctx).append_right _)).1 this
  simp only [List.cons_append, List.nodup_cons, List.mem_append, not_or,
    List.nodup_append] at hnd
  obtain ⟨⟨hnctx, hnD⟩, hcnd, hDnd, hdisj⟩ := hnd
  have hDctx : ∀ q, q ∈ D.map Prod.snd → q ∉ ctxPtrs ctx := fun q hq h => hdisj h hq
  have hlive : ∀ q m, s.mem q = some m → q = node ∨ q ∈ ctxPtrs ctx ∨ q ∈ D.map Prod.snd := by
    intro q m hm
    have := hinv.live q m hm
    simp only [ptrsOf, List.mem_append] at this
    rcases this with h | h
    · have := (plug_ptrs_perm _ ctx).mem_iff.1 h
      simp only [Shape.ptrs, List.singleton_append, List.mem_cons] at this
      rcases this with h | h
      · exact Or.inl h
      · exact Or.inr (Or.inl h)
    · exact Or.inr (Or.inr h)
  have hdetD : ∀ e ∈ D, ∃ n, s.mem e.2 = some n ∧ n.left = none ∧ n.right = none ∧
      n.collider = some e.1 := hinv.det
  match ctx, hinv, hf, hroot, hnp, hctx, hbox0, hnctx, hcnd, hdisj, hDctx, hlive with
  | [], hinv, hf, hroot, hnp, hctx, hbox0, hnctx, hcnd, hdisj, hDctx, hlive =>
    simp only [plug, Shape.ptr_leaf] at hroot
    refine ⟨{ s with root := none }, fun del => RemoveNode_root_eq ext fuel del hroot hnn hnl hnr,
      ?_, rfl, rfl, rfl, fun p m hm _ => ⟨m, hm, rfl, rfl⟩,
      fun q hq => by simp [ctxParent] at hq, fun q m hm _ => ⟨m, hm, rfl, rfl, rfl, rfl⟩⟩
    constructor
    · rfl
    · intro t0 ht0; cases ht0
    · intro t0 ht0; cases ht0
    · intro e he
      rcases List.mem_cons.1 he with rfl | he
      · exact ⟨nn, hnn, hnl, hnr, hnc⟩
      · exact hdetD e he
    · simp only [unplug, ptrsOf, List.nil_append, List.map_cons, List.nodup_cons]
      exact ⟨hnD, hDnd⟩
    · intro q m hm
      rcases hlive q m hm with h | h | h
      · simp [unplug, ptrsOf, h]
      · simp [ctxPtrs] at h
      · simp only [unplug, ptrsOf, List.nil_append, List.map_cons, List.mem_cons]
        exact Or.inr h
    · exact hinv.brk
  | [f], hinv, hf, hroot, hnp, hctx, hbox0, hnctx, hcnd, hdisj, hDctx, hlive =>
    obtain ⟨⟨fn, hfn, hfp, hfl, hfr, hfc⟩, hsib, _⟩ := hctx
    simp only [Shape.ptr_leaf] at hfl hfr
    simp only [plug_ptr, ctxRoot] at hroot
    have hnp1 : nn.parent = some f.p := hnp
    simp only [ctxPtrs, List.append_nil, List.mem_cons, not_or, List.nodup_cons] at hnctx hcnd
    obtain ⟨hnf, hns⟩ := hnctx
    obtain ⟨hfs, hsnd⟩ := hcnd
    obtain ⟨sn, hsn, _⟩ := hsib.top
    have hsf : f.sib.ptr ≠ f.p := fun h => hfs (h ▸ f.sib.ptr_mem_ptrs)
    have hsn1 : f.sib.ptr ≠ node := fun h => hns (h ▸ f.sib.ptr_mem_ptrs)
    have ep_f : (promoted s f sn).mem f.p = none := by
      simp [promoted, Function.update_noteq hsf.symm]
    have ep_s : (promoted s f sn).mem f.sib.ptr = some { sn with parent := none } := by
      simp [promoted]
    have ep_o : ∀ q, q ≠ f.p → q ≠ f.sib.ptr → (promoted s f sn).mem q = s.mem q := by
      intro q h1 h2
      simp [promoted, Function.update_noteq h1, Function.update_noteq h2]
    have hDf : ∀ q, q ∈ D.map Prod.snd → q ≠ f.p ∧ q ∉ f.sib.ptrs := by
      intro q hq
      have := hDctx q hq
      simpa [ctxPtrs] using this
    refine ⟨promoted s f sn, fun del => RemoveNode_child_eq ext fuel del hroot hnn hnl hnr hnp1
      hfn hsn hfl hfr hnf hsf hsn1, ?_, rfl, rfl, rfl, ?_, ?_, ?_⟩
    · constructor
      · simp [promoted, unplug, plug]
      · intro t0 ht0
        simp only [unplug, plug, Option.some.injEq] at ht0
        subst ht0
        refine Rep.reparent hsnd (fun n hn => ?_) (fun q hq hq1 => ?_) hsib
        · rw [hsn] at hn; cases hn; exact ep_s
        · exact ep_o q (fun h => hfs (h ▸ hq)) hq1
      · intro t0 ht0
        simp only [unplug, plug, Option.some.injEq] at ht0
        subst ht0
        refine Boxed.boxed_congr (fun q hq => ?_) hbox0.2.1.1
        by_cases hq1 : q = f.sib.ptr
        · rw [hq1, ep_s, hsn]; rfl
        · rw [ep_o q (fun h => hfs (h ▸ hq)) hq1]
      · intro e he
        rcases List.mem_cons.1 he with rfl | he
        · exact ⟨nn, by rw [ep_o _ hnf hsn1.symm]; exact hnn, hnl, hnr, hnc⟩
        · obtain ⟨m, hm, h⟩ := hdetD e he
          have := hDf e.2 (List.mem_map_of_mem _ he)
          exact ⟨m, by rw [ep_o _ this.1 (fun h => this.2 (h ▸ f.sib.ptr_mem_ptrs))]; exact hm, h⟩
      · simp only [unplug, plug, ptrsOf, List.map_cons, List.nodup_append, List.nodup_cons]
        refine ⟨hsnd, ⟨hnD, hDnd⟩, ?_⟩
        intro q h1 h2
        rcases List.mem_cons.1 h2 with rfl | h2
        · exact hns h1
        · exact (hDf q h2).2 h1
      · intro q m hm
        simp only [unplug, plug, ptrsOf, List.map_cons, List.mem_append, List.mem_cons]
        by_cases h1 : q = f.p
        · rw [h1, ep_f] at hm; cases hm
        by_cases h2 : q = f.sib.ptr
        · exact Or.inl (h2 ▸ f.sib.ptr_mem_ptrs)
        rw [ep_o q h1 h2] at hm
        rcases hlive q m hm with h | h | h
        · exact Or.inr (Or.inl h)
        · simp only [ctxPtrs, List.append_nil, List.mem_cons] at h
          rcases h with h | h
          · exact absurd h h1
          · exact Or.inl h
        · exact Or.inr (Or.inr h)
      · intro q hq
        have h0 := hinv.brk q hq
        by_cases h1 : q = f.p
        · rw [h1]; exact ep_f
        by_cases h2 : q = f.sib.ptr
        · rw [h2, hsn] at h0; cases h0
        rw [ep_o q h1 h2]; exact h0
    · intro q m hm hmc
      by_cases h1 : q = f.p
      · rw [h1, hfn] at hm; cases hm; exact absurd hfc hmc
      by_cases h2 : q = f.sib.ptr
      · have hmm : sn = m := by rw [h2, hsn] at hm; exact Option.some.inj hm
        exact ⟨_, by rw [h2]; exact ep_s, by rw [← hmm], by rw [← hmm]⟩
      exact ⟨m, by rw [ep_o q h1 h2, hm], rfl, rfl⟩
    · intro q hq
      simp only [ctxParent, Option.some.injEq] at hq
      rw [← hq]; exact ep_f
    · intro q m hm hq
      have h1 : q ≠ f.p := fun h => hq (by simp [h])
      by_cases h2 : q = f.sib.ptr
      · have hmm : sn = m := by rw [h2, hsn] at hm; exact Option.some.inj hm
        exact ⟨_, by rw [h2]; exact ep_s, by rw [← hmm], by rw [← hmm], by rw [← hmm],
          by rw [← hmm]⟩
      exact ⟨m, by rw [ep_o q h1 h2, hm], rfl, rfl, rfl, rfl⟩
  | f :: g :: rest, hinv, hf, hroot, hnp, hctx, hbox0, hnctx, hcnd, hdisj, hDctx, hlive =>
    obtain ⟨⟨fn, hfn, hfp, hfl, hfr, hfc⟩, hsib, hctx1⟩ := hctx
    have hctx2 := hctx1
    obtain ⟨⟨gn, hgn, hgp, hgl, hgr, hgc⟩, hgsib, hrest⟩ := hctx2
    simp only [Shape.ptr_leaf] at hfl hfr
    simp only [plug_ptr, ctxRoot] at hroot
    have hnp1 : nn.parent = some f.p := hnp
    have hfp1 : fn.parent = some g.p := hfp
    have hcnd0 := hcnd
    simp only [ctxPtrs, List.nodup_cons, List.mem_append, not_or, List.nodup_append] at hcnd0
    obtain ⟨⟨hfs, hfc1⟩, hsnd, hcnd1, hsdisj⟩ := hcnd0
    have hcnd2 : (ctxPtrs (g :: rest)).Nodup := by
      simpa only [ctxPtrs, List.nodup_cons, List.mem_append, not_or, List.nodup_append]
        using hcnd1
    have hfc2 : f.p ∉ ctxPtrs (g :: rest) := by
      simpa only [ctxPtrs, List.mem_cons, List.mem_append, not_or] using hfc1
    have hsc2 : ∀ q, q ∈ f.sib.ptrs → q ∉ ctxPtrs (g :: rest) := by
      intro q hq h
      exact hsdisj hq (by simpa only [ctxPtrs, List.mem_cons, List.mem_append] using h)
    have hsub : ∀ q, q ∈ ctxPtrs (g :: rest) → q ∈ ctxPtrs (f :: g :: rest) := by
      intro q hq
      simp only [ctxPtrs, List.mem_cons, List.mem_append] at hq ⊢
      exact Or.inr (Or.inr hq)
    have hsubs : ∀ q, q ∈ f.sib.ptrs → q ∈ ctxPtrs (f :: g :: rest) := by
      intro q hq
      simp only [ctxPtrs, List.mem_cons, List.mem_append]
      exact Or.inr (Or.inl hq)
    have hfin : f.p ∈ ctxPtrs (f :: g :: rest) := by simp [ctxPtrs]
    have hgin : g.p ∈ ctxPtrs (g :: rest) := by simp [ctxPtrs]
    have hnf : node ≠ f.p := fun h => hnctx (h ▸ hfin)
    obtain ⟨sn, hsn, _⟩ := hsib.top
    have hsf : f.sib.ptr ≠ f.p := fun h => hfs (h ▸ f.sib.ptr_mem_ptrs)
    have hsn1 : f.sib.ptr ≠ node := fun h => hnctx (h ▸ hsubs _ f.sib.ptr_mem_ptrs)
    have hsg : f.sib.ptr ≠ g.p := fun h => hsc2 _ f.sib.ptr_mem_ptrs (h ▸ hgin)
    have hfg : f.p ≠ g.p := fun h => hfc2 (h ▸ hgin)
    have hgs : g.sib.ptr ≠ f.p := by
      intro h
      exact hfc2 (by simp [ctxPtrs, ← h, g.sib.ptr_mem_ptrs])
    have hrin : ctxRoot g.p rest ∈ ctxPtrs (g :: rest) := by
      rcases ctxRoot_mem g.p rest with ⟨h1, _⟩ | h1
      · rw [h1]; exact hgin
      · simp only [ctxPtrs, List.mem_cons, List.mem_append]; exact Or.inr (Or.inr h1)
    have hrn : ctxRoot g.p rest ≠ node := fun h => hnctx (h ▸ hsub _ hrin)
    have hrf : ctxRoot g.p rest ≠ f.p := fun h => hfc2 (h ▸ hrin)
    have hlen : (g :: rest).length ≤ fuel := by
      have h1 := (plug_ptrs_perm (Shape.leaf node c) (f :: g :: rest)).length_eq
      have h2 := ctx_length_le (f :: g :: rest)
      simp only [List.length_append, List.length_cons] at h1 h2 ⊢
      omega
    obtain ⟨sS, hsS⟩ : ∃ sS, sS = unlinked s f g gn sn := ⟨_, rfl⟩
    have eu_f : sS.mem f.p = none := by simp [hsS, unlinked]
    have eu_s : sS.mem f.sib.ptr = some { sn with parent := some g.p } := by
      simp [hsS, unlinked, Function.update_noteq hsf]
    have eu_g : sS.mem g.p =
        some (if g.onLeft then { gn with left := some f.sib.ptr }
              else { gn with right := some f.sib.ptr }) := by
      simp [hsS, unlinked, Function.update_noteq hfg.symm, Function.update_noteq hsg.symm]
    have eu_o : ∀ q, q ≠ f.p → q ≠ f.sib.ptr → q ≠ g.p → sS.mem q = s.mem q := by
      intro q h1 h2 h3
      simp [hsS, unlinked, Function.update_noteq h1, Function.update_noteq h2,
        Function.update_noteq h3]
    have eu_c : ∀ q, q ∈ ctxPtrs (g :: rest) → q ≠ g.p → sS.mem q = s.mem q := by
      intro q hq h3
      exact eu_o q (fun h => hfc2 (h ▸ hq)) (fun h => hsc2 _ f.sib.ptr_mem_ptrs (h ▸ hq)) h3
    have hcnd3 := hcnd2
    simp only [ctxPtrs, List.nodup_cons, List.mem_append, not_or, List.nodup_append] at hcnd3
    obtain ⟨⟨hg1, hg2⟩, _, _, _⟩ := hcnd3
    have hrepS : RepCtx sS.mem none (g :: rest) f.sib.ptr := by
      refine ⟨⟨_, eu_g, ?_, ?_, ?_, ?_⟩, ?_, ?_⟩
      · cases g.onLeft <;> simpa using hgp
      · cases hgo : g.onLeft <;> simp [hgo] at hgl ⊢ <;> exact hgl
      · cases hgo : g.onLeft <;> simp [hgo] at hgr ⊢ <;> exact hgr
      · cases g.onLeft <;> simpa using hgc
      · refine Rep.rep_congr (fun q hq => ?_) hgsib
        rw [eu_c q (by simp [ctxPtrs, hq]) (fun h => hg1 (h ▸ hq))]
      · refine RepCtx.ctx_congr (fun q hq => ?_) hrest
        rw [eu_c q (by simp [ctxPtrs, hq]) (fun h => hg2 (h ▸ hq))]
    have hsibS : Rep sS.mem (some g.p) f.sib := by
      refine Rep.reparent hsnd (fun n hn => ?_) (fun q hq hq1 => ?_) hsib
      · rw [hsn] at hn; cases hn; exact eu_s
      · exact eu_o q (fun h => hfs (h ▸ hq)) hq1 (fun h => hsc2 q hq (h ▸ hgin))
    obtain ⟨s1, hs1, hbo, hbx⟩ := @refit_spec _ _ _ _ ext (g :: rest) sS
      f.sib.ptr fuel (List.nodup_cons.2 ⟨hsc2 _ f.sib.ptr_mem_ptrs, hcnd2⟩) hrepS
      ⟨_, eu_s⟩ hlen
    have hnotp : ∀ q, q ∉ ctxPtrs (g :: rest) → q ∉ (g :: rest).map Frame.p :=
      fun q hq h => hq (ctx_p_mem_ctxPtrs h)
    have hsame : ∀ q, q ≠ f.p → q ≠ f.sib.ptr → q ∉ (g :: rest).map Frame.p →
        s1.mem q = s.mem q := by
      intro q h1 h2 h4
      rw [hbo.same q h4]
      exact eu_o q h1 h2 (fun h => h4 (by simp [h]))
    have hsome : ∀ q m, s1.mem q = some m → ∃ m0, sS.mem q = some m0 := by
      intro q m hm
      have := hbo.links q
      rw [hm] at this
      cases h : sS.mem q with
      | none => simp [h] at this
      | some m0 => exact ⟨m0, rfl⟩
    have hDf : ∀ q, q ∈ D.map Prod.snd →
        q ≠ f.p ∧ q ∉ f.sib.ptrs ∧ q ∉ ctxPtrs (g :: rest) := by
      intro q hq
      have := hDctx q hq
      exact ⟨fun h => this (h ▸ hfin), fun h => this (hsubs q h), fun h => this (hsub q h)⟩
    have e1n : s1.mem node = s.mem node :=
      hsame node hnf hsn1.symm (hnotp _ (fun h => hnctx (hsub _ h)))
    refine ⟨s1, fun del => ?_, ?_, ?_, ?_, ?_, ?_, ?_, ?_⟩
    · rw [RemoveNode_deep_eq ext fuel del hroot hrn hrf hnn hnl hnr hnp1 hfn hsn hgn hfp1 hfl
        hfr hgl hgr hgs hsf hsn1 hsg hfg, ← hsS]
      have : refit ext fuel sS (some g.p) = .ok s1 := hs1
      rw [this]; rfl
    · constructor
      · rw [hbo.root]
        simp only [hsS, unlinked, hroot, unplug, plug_ptr, Option.map_some', ctxRoot]
      · intro t1 ht1
        simp only [unplug, Option.some.injEq] at ht1
        subst ht1
        exact Rep_plug.2 ⟨Rep.rep_congr (fun q _ => hbo.links q) hsibS,
          RepCtx.ctx_congr (fun q _ => hbo.links q) hrepS⟩
      · intro t1 ht1
        simp only [unplug, Option.some.injEq] at ht1
        subst ht1
        refine Boxed_plug.2 ⟨?_, ?_, hbx⟩
        · refine Boxed.boxed_congr (fun q hq => ?_) hbox0.2.1.1
          rw [hbo.same q (hnotp q (hsc2 q hq))]
          by_cases hq1 : q = f.sib.ptr
          · rw [hq1, eu_s, hsn]; rfl
          · rw [eu_o q (fun h => hfs (h ▸ hq)) hq1 (fun h => hsc2 q hq (h ▸ hgin))]
        · refine BoxedSibs.sibs_congr (fun h hh q hq => ?_) hbox0.2.1.2
          have hq1 : q ∈ ctxPtrs (g :: rest) := sib_ptrs_mem_ctxPtrs hh hq
          rw [hsame q (fun h => hfc2 (h ▸ hq1)) (fun h => hsc2 _ f.sib.ptr_mem_ptrs (h ▸ hq1))
            (sib_ptrs_not_frame hcnd2 hh hq)]
      · intro e he
        rcases List.mem_cons.1 he with rfl | he
        · exact ⟨nn, by rw [e1n]; exact hnn, hnl, hnr, hnc⟩
        · obtain ⟨m, hm, h⟩ := hdetD e he
          have := hDf e.2 (List.mem_map_of_mem _ he)
          refine ⟨m, ?_, h⟩
          rw [hsame _ this.1 (fun h => this.2.1 (h ▸ f.sib.ptr_mem_ptrs)) (hnotp _ this.2.2)]
          exact hm
      · simp only [unplug, ptrsOf, List.map_cons]
        refine (List.Perm.nodup_iff ((plug_ptrs_perm _ (g :: rest)).append_right _)).2 ?_
        simp only [List.nodup_append, List.nodup_cons, List.mem_append, List.mem_cons]
        refine ⟨⟨hsnd, hcnd2, fun q h1 h2 => hsc2 q h1 h2⟩, ⟨hnD, hDnd⟩, ?_⟩
        intro q h1 h2
        rw [List.mem_append] at h1
        rw [List.mem_cons] at h2
        rcases h2 with h2 | h2
        · rcases h1 with h1 | h1
          · exact hnctx (hsubs _ (h2 ▸ h1))
          · exact hnctx (hsub _ (h2 ▸ h1))
        · rcases h1 with h1 | h1
          · exact (hDf q h2).2.1 h1
          · exact (hDf q h2).2.2 h1
      · intro q m hm
        obtain ⟨m0, hm0⟩ := hsome q m hm
        simp only [unplug, ptrsOf, List.map_cons]
        rw [List.mem_append, (plug_ptrs_perm _ _).mem_iff, List.mem_append, List.mem_cons]
        by_cases h1 : q = f.p
        · rw [h1, eu_f] at hm0; cases hm0
        by_cases h2 : q = f.sib.ptr
        · exact Or.inl (Or.inl (h2 ▸ f.sib.ptr_mem_ptrs))
        by_cases h3 : q = g.p
        · exact Or.inl (Or.inr (h3 ▸ hgin))
        rw [eu_o q h1 h2 h3] at hm0
        rcases hlive q m0 hm0 with h | h | h
        · exact Or.inr (Or.inl h)
        · simp only [ctxPtrs, List.mem_cons, List.mem_append] at h ⊢
          rcases h with h | h | h
          · exact absurd h h1
          · exact Or.inl (Or.inl h)
          · exact Or.inl (Or.inr h)
        · exact Or.inr (Or.inr h)
      · intro q hq
        have hq1 : s1.brk = s.brk := by rw [hbo.brk, hsS]; rfl
        rw [hq1] at hq
        have h0 := hinv.brk q hq
        have h3 : sS.mem q = none := by
          by_cases h1 : q = f.p
          · rw [h1]; exact eu_f
          rw [eu_o q h1 (by rintro rfl; rw [hsn] at h0; cases h0)
            (by rintro rfl; rw [hgn] at h0; cases h0)]
          exact h0
        cases h : s1.mem q with
        | none => rfl
        | some m =>
          obtain ⟨m0, hm0⟩ := hsome q m h
          rw [h3] at hm0; cases hm0
    · rw [hbo.index, hsS]; rfl
    · rw [hbo.pairs, hsS]; rfl
    · rw [hbo.brk, hsS]; rfl
    · intro q m hm hmc
      have h4 : q ∉ (g :: rest).map Frame.p := by
        intro h
        obtain ⟨m0, hm0, hc0⟩ := RepCtx.frame_node hctx1 h
        rw [hm] at hm0; cases hm0
        exact hmc hc0
      by_cases h1 : q = f.p
      · rw [h1, hfn] at hm; cases hm; exact absurd hfc hmc
      by_cases h2 : q = f.sib.ptr
      · have hmm : sn = m := by rw [h2, hsn] at hm; exact Option.some.inj hm
        refine ⟨{ sn with parent := some g.p }, ?_, ?_, ?_⟩
        · rw [h2, hbo.same _ (hnotp _ (hsc2 _ f.sib.ptr_mem_ptrs))]; exact eu_s
        · rw [← hmm]
        · rw [← hmm]
      exact ⟨m, by rw [hsame q h1 h2 h4, hm], rfl, rfl⟩
    · intro q hq
      simp only [ctxParent, Option.some.injEq] at hq
      rw [← hq, hbo.same _ (hnotp _ hfc2)]; exact eu_f
    · intro q m hm hq
      have h1 : q ≠ f.p := fun h => hq (by simp [h])
      have h4 : q ∉ (g :: rest).map Frame.p := fun h => hq (by
        simp only [List.map_cons, List.mem_cons] at h ⊢
        exact Or.inr h)
      by_cases h2 : q = f.sib.ptr
      · have hmm : sn = m := by rw [h2, hsn] at hm; exact Option.some.inj hm
        refine ⟨{ sn with parent := some g.p }, ?_, ?_, ?_, ?_, ?_⟩
        · rw [h2, hbo.same _ (hnotp _ (hsc2 _ f.sib.ptr_mem_ptrs))]; exact eu_s
        · rw [← hmm]
        · rw [← hmm]
        · rw [← hmm]
        · rw [← hmm]
      exact ⟨m, by rw [hsame q h1 h2 h4, hm], rfl, rfl, rfl, rfl⟩

/-- The unlinking part of `RemoveNode`, without the frame conditions. -/
theorem RemoveNode_unlink (ext : Externals AABB F Ray Hit) {s : BVTree AABB}
    {ctx : List Frame} {D : List (Collider × NodePtr)} {c : Collider} {node : NodePtr}
    {fuel : Nat}
    (hinv : Inv ext s (some (plug (.leaf node c) ctx)) D)
    (hf : (plug (.leaf node c) ctx).ptrs.length ≤ fuel) :
    ∃ s1, (∀ del, RemoveNode ext fuel s node del = RemoveNode.finish node del s1) ∧
      Inv ext s1 (unplug ctx) ((c, node) :: D) ∧
      s1.colNodeMap = s.colNodeMap ∧ s1.colliderPairSet = s.colliderPairSet ∧
      s1.brk = s.brk ∧
      (∀ p m, s.mem p = some m → m.collider ≠ none →
        ∃ m1, s1.mem p = some m1 ∧ m1.aabb = m.aabb ∧ m1.collider = m.collider) := by
  obtain ⟨s1, h1, h2, h3, h4, h5, h6, _⟩ := RemoveNode_unlink_frame ext hinv hf
  exact ⟨s1, h1, h2, h3, h4, h5, h6⟩

end Remove

end Isetta


namespace Isetta

section Ops

variable {AABB F Ray Hit : Type}

/-! ## Summaries of `AddNode` and `RemoveNode` -/

theorem Shape.ptrs_length (t : Shape) : t.ptrs.length + 1 = 2 * t.leaves.length := by
  induction t with
  | leaf p c => simp [Shape.ptrs, Shape.leaves]
  | branch p l r ihl ihr =>
    simp only [Shape.ptrs, Shape.leaves, List.length_cons, List.length_append]
    omega

theorem Shape.leaves_length_pos (t : Shape) : 0 < t.leaves.length := by
  have := t.ptrs_length
  omega

theorem leavesOf_unplug_perm (ctx : List Frame) : (leavesOf (unplug ctx)).Perm (ctxLeaves ctx) := by
  cases ctx with
  | nil => simp [unplug, leavesOf, ctxLeaves]
  | cons f fs =>
    simp only [unplug, leavesOf, ctxLeaves]
    exact plug_leaves_perm _ _

theorem ptrsOf_length (t : Option Shape) :
    (ptrsOf t).length + 1 = 2 * (leavesOf t).length ∨ (t = none ∧ (ptrsOf t).length = 0) := by
  cases t with
  | none => right; simp [ptrsOf]
  | some t0 => left; exact t0.ptrs_length

/-- A call of `AddNode` puts a leaf that is outside the tree into it. -/
theorem AddNode_spec (ext : Externals AABB F Ray Hit) {s : BVTree AABB} {t : Option Shape}
    {D : List (Collider × NodePtr)} {c : Collider} {n : NodePtr} {fuel : Nat}
    (hinv : Inv ext s t ((c, n) :: D)) (hf : (ptrsOf t).length ≤ fuel) :
    ∃ s1 t1, AddNode ext fuel s n = .ok s1 ∧ Inv ext s1 (some t1) D ∧
      t1.leaves.Perm ((c, n) :: leavesOf t) ∧
      s1.colNodeMap = s.colNodeMap ∧ s1.colliderPairSet = s.colliderPairSet ∧
      (∀ p m, s.mem p = some m → m.collider ≠ none →
        ∃ m1, s1.mem p = some m1 ∧ m1.aabb = m.aabb ∧ m1.collider = m.collider) := by
  cases t with
  | none =>
    obtain ⟨s1, h1, h2, h3, h4, _, h6⟩ := AddNode_none ext fuel hinv
    exact ⟨s1, _, h1, h2, by simp [Shape.leaves, leavesOf], h3, h4, fun p m hm _ => h6 p m hm⟩
  | some t0 =>
    obtain ⟨s1, ctx, L, c0, b, h0, _, h1, h2, h3, h4, h5⟩ := AddNode_some ext hinv hf
    refine ⟨s1, _, h1, h2, ?_, h3, h4, h5⟩
    subst h0
    simp only [leavesOf]
    refine (plug_leaves_perm _ ctx).trans ?_
    refine List.Perm.trans ?_ (List.Perm.cons _ (plug_leaves_perm _ ctx).symm)
    simp only [Shape.leaves, List.singleton_append, List.cons_append, List.nil_append]
    exact List.Perm.swap _ _ _

/-- A call of `RemoveNode` takes a leaf out of the tree; with `deleteNode` the leaf is
released, otherwise it stays allocated outside the tree. -/
theorem RemoveNode_spec (ext : Externals AABB F Ray Hit) {s : BVTree AABB} {t0 : Shape}
    {D : List (Collider × NodePtr)} {c : Collider} {node : NodePtr} {fuel : Nat} (del : Bool)
    (hinv : Inv ext s (some t0) D) (hleaf : (c, node) ∈ t0.leaves)
    (hf : t0.ptrs.length ≤ fuel) :
    ∃ s1 t1, RemoveNode ext fuel s node del = .ok s1 ∧
      Inv ext s1 t1 (if del then D else (c, node) :: D) ∧
      t0.leaves.Perm ((c, node) :: leavesOf t1) ∧
      s1.colNodeMap = s.colNodeMap ∧ s1.colliderPairSet = s.colliderPairSet ∧
      s1.brk = s.brk ∧
      (∀ p m, s.mem p = some m → m.collider ≠ none → (del = true → p ≠ node) →
        ∃ m1, s1.mem p = some m1 ∧ m1.aabb = m.aabb ∧ m1.collider = m.collider) := by
  obtain ⟨ctx, hctx⟩ := Shape.leaf_decomp hleaf
  simp only at hctx
  subst hctx
  obtain ⟨s1, h1, h2, h3, h4, h5, h6⟩ := RemoveNode_unlink ext hinv hf
  obtain ⟨s2, g1, g2, _, g4, g5, g6, g7, g8⟩ := RemoveNode.finish_spec del h2
  refine ⟨s2, unplug ctx, by rw [h1 del, g1], g2, ?_, by rw [g4, h3], by rw [g5, h4],
    by rw [g6, h5], ?_⟩
  · refine (plug_leaves_perm _ ctx).trans ?_
    simp only [Shape.leaves, List.singleton_append]
    exact List.Perm.cons _ (leavesOf_unplug_perm ctx).symm
  · intro p m hm hmc hp
    obtain ⟨m1, e1, e2, e3⟩ := h6 p m hm hmc
    cases del with
    | false => rw [g8 rfl]; exact ⟨m1, e1, e2, e3⟩
    | true => exact ⟨m1, by rw [g7 p (hp rfl)]; exact e1, e2, e3⟩

end Ops

end Isetta


namespace Isetta

section Public

variable {AABB F Ray Hit : Type}

/-! ## The collider index -/

theorem mapFind_eq_none {m : List (Collider × NodePtr)} {c : Collider} :
    mapFind m c = none ↔ ∀ p, (c, p) ∉ m := by
  unfold mapFind
  rw [Option.map_eq_none', List.find?_eq_none]
  constructor
  · intro h p hp
    exact h (c, p) hp (by simp)
  · intro h e he hc
    simp only [beq_iff_eq] at hc
    exact h e.2 (by rw [← hc]; exact he)

theorem mapFind_eq_some {m : List (Collider × NodePtr)} {c : Collider} {p : NodePtr}
    (h : mapFind m c = some p) : (c, p) ∈ m := by
  unfold mapFind at h
  rw [Option.map_eq_some'] at h
  obtain ⟨e, he, hp⟩ := h
  have h1 := List.mem_of_find?_eq_some he
  have h2 := List.find?_some he
  simp only [beq_iff_eq] at h2
  rw [← h2, ← hp]
  exact h1

theorem mapFind_of_mem {m : List (Collider × NodePtr)} {c : Collider} {p : NodePtr}
    (hk : (m.map Prod.fst).Nodup) (h : (c, p) ∈ m) : mapFind m c = some p := by
  cases hf : mapFind m c with
  | none => exact absurd h (mapFind_eq_none.1 hf p)
  | some q =>
    have hq := mapFind_eq_some hf
    have : (c, q) = (c, p) := List.inj_on_of_nodup_map hk hq h rfl
    rw [(Prod.mk.inj this).2]

theorem mapInsert_absent {m : List (Collider × NodePtr)} {c : Collider} (p : NodePtr)
    (h : mapFind m c = none) : mapInsert m c p = m ++ [(c, p)] := by
  unfold mapInsert
  unfold mapFind at h
  rw [Option.map_eq_none'] at h
  simp [h]

theorem mem_mapErase {m : List (Collider × NodePtr)} {c : Collider} {e : Collider × NodePtr} :
    e ∈ mapErase m c ↔ e ∈ m ∧ e.1 ≠ c := by
  simp [mapErase]

theorem mapErase_keys {m : List (Collider × NodePtr)} (c : Collider)
    (hk : (m.map Prod.fst).Nodup) : ((mapErase m c).map Prod.fst).Nodup := by
  unfold mapErase
  exact List.Nodup.sublist (List.Sublist.map _ (List.filter_sublist _)) hk

/-! ## The invariant under changes outside the tree -/

theorem Inv.of_eq {ext : Externals AABB F Ray Hit} {s s1 : BVTree AABB} {t : Option Shape}
    {D : List (Collider × NodePtr)} (h1 : s1.root = s.root) (h2 : s1.mem = s.mem)
    (h3 : s1.brk = s.brk) (h : Inv ext s t D) : Inv ext s1 t D := by
  constructor
  · rw [h1]; exact h.root_eq
  · rw [h2]; exact h.rep
  · rw [h2]; exact h.boxed
  · rw [h2]; exact h.det
  · exact h.nodup
  · rw [h2]; exact h.live
  · rw [h2, h3]; exact h.brk

theorem Inv.perm {ext : Externals AABB F Ray Hit} {s : BVTree AABB} {t : Option Shape}
    {D D1 : List (Collider × NodePtr)} (hp : D.Perm D1) (h : Inv ext s t D) :
    Inv ext s t D1 := by
  constructor
  · exact h.root_eq
  · exact h.rep
  · exact h.boxed
  · intro e he; exact h.det e (hp.mem_iff.2 he)
  · exact (List.Perm.nodup_iff ((hp.map _).append_left _)).1 h.nodup
  · intro p n hn
    have := h.live p n hn
    rw [List.mem_append] at this ⊢
    exact this.imp id (fun h1 => (hp.map _).mem_iff.1 h1)
  · exact h.brk

theorem Shape.leaves_sublist (t : Shape) : (t.leaves.map Prod.snd).Sublist t.ptrs := by
  induction t with
  | leaf p c => simp [Shape.leaves, Shape.ptrs]
  | branch p l r ihl ihr =>
    simp only [Shape.leaves, Shape.ptrs, List.map_append]
    exact List.Sublist.cons _ (List.Sublist.append ihl ihr)

theorem Inv.leaves_nodup {ext : Externals AABB F Ray Hit} {s : BVTree AABB} {t : Option Shape}
    {D : List (Collider × NodePtr)} (h : Inv ext s t D) :
    ((leavesOf t).map Prod.snd).Nodup := by
  cases t with
  | none => simp [leavesOf]
  | some t0 =>
    have := (List.nodup_append.1 h.nodup).1
    exact List.Nodup.sublist t0.leaves_sublist this

theorem Inv.leaf_node {ext : Externals AABB F Ray Hit} {s : BVTree AABB} {t : Option Shape}
    {D : List (Collider × NodePtr)} (h : Inv ext s t D) {e : Collider × NodePtr}
    (he : e ∈ leavesOf t) :
    ∃ n, s.mem e.2 = some n ∧ n.left = none ∧ n.right = none ∧ n.collider = some e.1 := by
  cases t with
  | none => simp [leavesOf] at he
  | some t0 =>
    obtain ⟨ctx, hctx⟩ := Shape.leaf_decomp (show e ∈ t0.leaves from he)
    have := h.rep t0 rfl
    rw [hctx] at this
    obtain ⟨⟨n, h1, _, h3, h4, h5⟩, _⟩ := Rep_plug.1 this
    exact ⟨n, h1, h3, h4, h5⟩

/-- A leaf allocated for a collider stands outside the tree. -/
theorem Inv.alloc_leaf {ext : Externals AABB F Ray Hit} {s s1 : BVTree AABB} {t : Option Shape}
    {D : List (Collider × NodePtr)} (env : ColliderEnv AABB F Ray Hit) (c : Collider)
    (h : Inv ext s t D) (h1 : s1.root = s.root)
    (h2 : s1.mem = Function.update s.mem (firstFree s.mem s.brk) (some (Node.ofCollider env c)))
    (h3 : s1.brk = max s.brk (firstFree s.mem s.brk + 1)) :
    Inv ext s1 t ((c, firstFree s.mem s.brk) :: D) := by
  have hfree : s.mem (firstFree s.mem s.brk) = none := firstFree_free h.brk
  generalize firstFree s.mem s.brk = p at *
  have hp : p ∉ ptrsOf t ++ D.map Prod.snd := by
    intro hm
    rw [List.mem_append] at hm
    rcases hm with hm | hm
    · cases t with
      | none => simp [ptrsOf] at hm
      | some t0 =>
        obtain ⟨n, hn⟩ := (h.rep t0 rfl).rep_live p hm
        rw [hn] at hfree; cases hfree
    · obtain ⟨e, he, rfl⟩ := List.mem_map.1 hm
      obtain ⟨n, hn, _⟩ := h.det e he
      rw [hn] at hfree; cases hfree
  have hne : ∀ q, q ∈ ptrsOf t ++ D.map Prod.snd → q ≠ p := fun q hq hh => hp (hh ▸ hq)
  constructor
  · rw [h1]; exact h.root_eq
  · intro t0 ht0
    refine Rep.rep_congr (fun q hq => ?_) (h.rep t0 ht0)
    rw [h2, Function.update_noteq (hne q (by simp [ht0, ptrsOf, hq]))]
  · intro t0 ht0
    refine Boxed.boxed_congr (fun q hq => ?_) (h.boxed t0 ht0)
    rw [h2, Function.update_noteq (hne q (by simp [ht0, ptrsOf, hq]))]
  · intro e he
    rcases List.mem_cons.1 he with rfl | he
    · exact ⟨Node.ofCollider env c, by simp [h2], rfl, rfl, rfl⟩
    · obtain ⟨n, hn, hh⟩ := h.det e he
      refine ⟨n, ?_, hh⟩
      rw [h2, Function.update_noteq (hne _ (by
        rw [List.mem_append]; exact Or.inr (List.mem_map_of_mem _ he)))]
      exact hn
  · have := h.nodup
    rw [List.nodup_append] at this ⊢
    obtain ⟨g1, g2, g3⟩ := this
    refine ⟨g1, ?_, ?_⟩
    · simp only [List.map_cons, List.nodup_cons]
      exact ⟨fun hm => hp (List.mem_append.2 (Or.inr hm)), g2⟩
    · intro q hq1 hq2
      simp only [List.map_cons, List.mem_cons] at hq2
      rcases hq2 with hq2 | hq2
      · exact hp (List.mem_append.2 (Or.inl (hq2 ▸ hq1)))
      · exact g3 hq1 hq2
  · intro q n hn
    rw [h2] at hn
    simp only [List.map_cons, List.mem_append, List.mem_cons]
    by_cases hq : q = p
    · exact Or.inr (Or.inl hq)
    · rw [Function.update_noteq hq] at hn
      have := h.live q n hn
      rw [List.mem_append] at this
      exact this.imp id Or.inr
  · intro q hq
    rw [h3] at hq
    have hq1 : q ≠ p := by omega
    rw [h2, Function.update_noteq hq1]
    exact h.brk q (le_trans (le_max_left _ _) hq)

/-! ## `AddCollider` and `RemoveCollider` -/

theorem AddCollider_spec (ext : Externals AABB F Ray Hit) (env : ColliderEnv AABB F Ray Hit)
    {s : BVTree AABB} {t : Option Shape} {c : Collider} {fuel : Nat}
    (hinv : Inv ext s t []) (hidx : Indexed s t [])
    (habs : mapFind s.colNodeMap c = none) (hf : (ptrsOf t).length ≤ fuel) :
    ∃ s1 t1 p, AddCollider ext env fuel s c = .ok s1 ∧ Inv ext s1 (some t1) [] ∧
      Indexed s1 (some t1) [] ∧ s.mem p = none ∧
      t1.leaves.Perm ((c, p) :: leavesOf t) ∧
      s1.colNodeMap = s.colNodeMap ++ [(c, p)] ∧
      s1.colliderPairSet = s.colliderPairSet ∧
      (∃ m1, s1.mem p = some m1 ∧ m1.aabb = env.GetFatAABB c) ∧
      (∀ q m, s.mem q = some m → m.collider ≠ none →
        ∃ m1, s1.mem q = some m1 ∧ m1.aabb = m.aabb ∧ m1.collider = m.collider) := by
  obtain ⟨p, hp⟩ : ∃ p, p = firstFree s.mem s.brk := ⟨_, rfl⟩
  have hfree : s.mem p = none := hp ▸ firstFree_free hinv.brk
  obtain ⟨sA, hsA⟩ : ∃ sA : BVTree AABB, sA =
      { s with mem := Function.update s.mem p (some (Node.ofCollider env c))
               brk := max s.brk (p + 1)
               colNodeMap := s.colNodeMap ++ [(c, p)] } := ⟨_, rfl⟩
  have hA : Inv ext sA t [(c, p)] := by
    rw [hp]
    exact Inv.alloc_leaf env c hinv (by rw [hsA]) (by rw [hsA, hp]) (by rw [hsA, hp])
  have hrun : AddCollider ext env fuel s c = AddNode ext fuel sA p := by
    simp only [AddCollider, NewOnFreeList, ← hp, mapInsert_absent p habs, hsA]
  obtain ⟨s1, t1, g1, g2, g3, g4, g5, g6⟩ := AddNode_spec ext hA hf
  have hAp : sA.mem p = some (Node.ofCollider env c) := by simp [hsA]
  refine ⟨s1, t1, p, by rw [hrun, g1], g2, ?_, hfree, g3, by rw [g4, hsA], by rw [g5, hsA],
    ?_, ?_⟩
  · constructor
    · rw [g4, hsA]
      simp only [List.map_append, List.map_cons, List.map_nil]
      rw [List.nodup_append]
      refine ⟨hidx.keys, by simp, ?_⟩
      intro k hk1 hk2
      simp only [List.mem_singleton] at hk2
      subst hk2
      obtain ⟨e, he, rfl⟩ := List.mem_map.1 hk1
      exact mapFind_eq_none.1 habs e.2 he
    · intro e
      rw [g4, hsA]
      simp only [List.mem_append, List.mem_singleton, leavesOf, List.not_mem_nil, or_false]
      rw [g3.mem_iff, List.mem_cons, hidx.entries e]
      simp only [List.not_mem_nil, or_false]
      exact or_comm
  · obtain ⟨m1, e1, e2, _⟩ := g6 p _ hAp (by simp [Node.ofCollider])
    exact ⟨m1, e1, e2⟩
  · intro q m hm hmc
    have hq : q ≠ p := by rintro rfl; rw [hm] at hfree; cases hfree
    exact g6 q m (by rw [hsA]; simp [Function.update_noteq hq, hm]) hmc

theorem RemoveCollider_spec (ext : Externals AABB F Ray Hit)
    {s : BVTree AABB} {t : Option Shape} {c : Collider} {node : NodePtr} {fuel : Nat}
    (hinv : Inv ext s t []) (hidx : Indexed s t [])
    (hfind : mapFind s.colNodeMap c = some node) (hf : (ptrsOf t).length ≤ fuel) :
    ∃ s1 t1, RemoveCollider ext fuel s c = .ok s1 ∧ Inv ext s1 t1 [] ∧ Indexed s1 t1 [] ∧
      (leavesOf t).Perm ((c, node) :: leavesOf t1) ∧
      s1.colNodeMap = mapErase s.colNodeMap c ∧
      s1.colliderPairSet = s.colliderPairSet ∧
      (∀ q m, s.mem q = some m → m.collider ≠ none → q ≠ node →
        ∃ m1, s1.mem q = some m1 ∧ m1.aabb = m.aabb ∧ m1.collider = m.collider) := by
  have hmem : (c, node) ∈ s.colNodeMap := mapFind_eq_some hfind
  have hleaf : (c, node) ∈ leavesOf t := by
    have := (hidx.entries _).1 hmem
    simpa using this
  cases t with
  | none => simp [leavesOf] at hleaf
  | some t0 =>
    obtain ⟨s1, t1, g1, g2, g3, g4, g5, g6, g7⟩ := RemoveNode_spec ext true hinv hleaf hf
    simp only [if_true] at g2
    refine ⟨{ s1 with colNodeMap := mapErase s1.colNodeMap c }, t1, ?_,
      Inv.of_eq (s := s1) rfl rfl rfl g2, ?_, g3, by rw [g4], g5, ?_⟩
    · simp [RemoveCollider, hfind, g1]
    · constructor
      · exact mapErase_keys c (g4 ▸ hidx.keys)
      · intro e
        simp only [mem_mapErase, g4, List.not_mem_nil, or_false]
        rw [hidx.entries e]
        simp only [leavesOf, List.not_mem_nil, or_false]
        rw [g3.mem_iff, List.mem_cons]
        constructor
        · rintro ⟨h1 | h1, h2⟩
          · exact absurd (by rw [h1]) h2
          · exact h1
        · intro h1
          refine ⟨Or.inr h1, ?_⟩
          intro hc
          have hnd := hinv.leaves_nodup
          simp only [leavesOf] at hnd
          have hnd2 := (List.Perm.nodup_iff (g3.map Prod.snd)).1 hnd
          have hin : e ∈ s.colNodeMap := by
            rw [hidx.entries e]; simp only [leavesOf, List.not_mem_nil, or_false]
            exact g3.mem_iff.2 (List.mem_cons.2 (Or.inr h1))
          have : e = (c, node) := List.inj_on_of_nodup_map hidx.keys hin hmem hc
          simp only [List.map_cons, List.nodup_cons] at hnd2
          exact hnd2.1 (by rw [this] at h1; exact List.mem_map_of_mem Prod.snd h1)
    · intro q m hm hmc hq
      exact g7 q m hm hmc (fun _ => hq)

end Public

end Isetta


namespace Isetta

section UpdateLemmas

variable {AABB F Ray Hit : Type}

theorem forestLeaves_append (ts us : List Shape) :
    forestLeaves (ts ++ us) = forestLeaves ts ++ forestLeaves us := by
  induction ts with
  | nil => rfl
  | cons t ts ih => simp [forestLeaves, ih]

theorem forestSize_append (ts us : List Shape) :
    forestSize (ts ++ us) = forestSize ts + forestSize us := by
  induction ts with
  | nil => simp [forestSize]
  | cons t ts ih => simp [forestSize, ih]; omega

/-- The breadth-first walk of `Update` returns the stale leaves of the shapes
in its queue. -/
theorem collect_spec (ext : Externals AABB F Ray Hit) (env : ColliderEnv AABB F Ray Hit)
    (mem : NodePtr → Option (Node AABB)) (k : Nat) :
    ∀ (ts : List Shape) (acc : List NodePtr) (fuel : Nat),
      forestSize ts ≤ k → k ≤ fuel → (∀ t ∈ ts, ∃ par, Rep mem par t) →
      ∃ R : List (Collider × NodePtr),
        Update.collect ext env mem fuel (ts.map Shape.ptr) acc = .ok (acc ++ R.map Prod.snd) ∧
        R.Perm ((forestLeaves ts).filter (isStale ext env mem)) := by
  induction k with
  | zero =>
    intro ts acc fuel hk _ _
    cases ts with
    | nil => exact ⟨[], by simp [Update.collect], by simp [forestLeaves]⟩
    | cons t ts =>
      have := t.ptrs_length_pos
      simp only [forestSize] at hk
      omega
  | succ k ih =>
    intro ts acc fuel hk hfuel hrep
    cases ts with
    | nil => exact ⟨[], by simp [Update.collect], by simp [forestLeaves]⟩
    | cons t ts =>
      cases fuel with
      | zero => omega
      | succ fuel =>
        obtain ⟨par, hr⟩ := hrep t (by simp)
        have hrest : ∀ u ∈ ts, ∃ par, Rep mem par u := fun u hu => hrep u (by simp [hu])
        cases t with
        | leaf p c =>
          obtain ⟨n, hn, _, hl, hr2, hc⟩ := hr
          simp only [forestSize, Shape.ptrs, List.length_singleton] at hk
          by_cases hst : ext.Contains n.aabb (env.GetAABB c) = true
          · obtain ⟨R, hR, hperm⟩ := ih ts acc fuel (by omega) (by omega) hrest
            refine ⟨R, ?_, ?_⟩
            · simp [Update.collect, hn, hl, hr2, Node.IsLeaf, Node.IsInFatAABB, hc, hst, hR]
            · simp only [forestLeaves, Shape.leaves, List.singleton_append]
              rw [List.filter_cons_of_neg (by simp [isStale, hn, hst])]
              exact hperm
          · obtain ⟨R, hR, hperm⟩ := ih ts (acc ++ [p]) fuel (by omega) (by omega) hrest
            refine ⟨(c, p) :: R, ?_, ?_⟩
            · simp [Update.collect, hn, hl, hr2, Node.IsLeaf, Node.IsInFatAABB, hc, hst, hR]
            · simp only [forestLeaves, Shape.leaves, List.singleton_append]
              rw [List.filter_cons_of_pos (by simp [isStale, hn, hst])]
              exact List.Perm.cons _ hperm
        | branch p l r =>
          obtain ⟨⟨n, hn, _, hl, hr2, hc⟩, hrl, hrr⟩ := hr
          simp only [forestSize, Shape.ptrs, List.length_cons, List.length_append] at hk
          obtain ⟨R, hR, hperm⟩ := ih (ts ++ [l, r]) acc fuel
            (by simp only [forestSize_append, forestSize]; omega) (by omega)
            (by
              intro u hu
              simp only [List.mem_append, List.mem_cons, List.mem_singleton,
                List.not_mem_nil, or_false] at hu
              rcases hu with hu | rfl | rfl
              · exact hrest u hu
              · exact ⟨_, hrl⟩
              · exact ⟨_, hrr⟩)
          refine ⟨R, ?_, ?_⟩
          · simp only [List.map_append, List.map_cons, List.map_nil] at hR
            simp [Update.collect, hn, hl, hr2, Node.IsLeaf, hR]
          · refine hperm.trans ?_
            refine List.Perm.filter _ ?_
            simp only [forestLeaves_append, forestLeaves, Shape.leaves, List.append_nil]
            exact List.perm_append_comm

theorem leavesOf_length_le {t t1 : Option Shape} {fuel : Nat}
    (h : (leavesOf t1).length ≤ (leavesOf t).length) (hf : (ptrsOf t).length ≤ fuel) :
    (ptrsOf t1).length ≤ fuel := by
  rcases ptrsOf_length t with h1 | ⟨h1, _⟩
  · rcases ptrsOf_length t1 with h2 | ⟨_, h2⟩ <;> omega
  · subst h1
    simp only [leavesOf, List.length_nil, Nat.le_zero, List.length_eq_zero] at h
    cases t1 with
    | none => simp [ptrsOf]
    | some t0 =>
      have := t0.leaves_length_pos
      simp [leavesOf] at h
      simp [h] at this

/-- The first loop of `Update`: every listed leaf leaves the tree and stays
allocated. -/
theorem removeAll_spec (ext : Externals AABB F Ray Hit) {fuel : Nat} :
    ∀ (R : List (Collider × NodePtr)) {s : BVTree AABB} {t : Option Shape}
      {D : List (Collider × NodePtr)},
      Inv ext s t D → (∀ e ∈ R, e ∈ leavesOf t) → (R.map Prod.snd).Nodup →
      (ptrsOf t).length ≤ fuel →
      ∃ s1 t1, Update.removeAll ext fuel s (R.map Prod.snd) = .ok s1 ∧
        Inv ext s1 t1 (R.reverse ++ D) ∧ (leavesOf t).Perm (R ++ leavesOf t1) ∧
        s1.colNodeMap = s.colNodeMap ∧ s1.colliderPairSet = s.colliderPairSet ∧
        (∀ p m, s.mem p = some m → m.collider ≠ none →
          ∃ m1, s1.mem p = some m1 ∧ m1.aabb = m.aabb ∧ m1.collider = m.collider) := by
  intro R
  induction R with
  | nil =>
    intro s t D hinv _ _ _
    exact ⟨s, t, rfl, by simpa using hinv, by simp, rfl, rfl, fun p m hm _ => ⟨m, hm, rfl, rfl⟩⟩
  | cons e R ih =>
    intro s t D hinv hsub hnd hf
    have he : e ∈ leavesOf t := hsub e (by simp)
    cases t with
    | none => simp [leavesOf] at he
    | some t0 =>
      obtain ⟨s1, t1, g1, g2, g3, g4, g5, _, g7⟩ :=
        @RemoveNode_spec _ _ _ _ ext s t0 D e.1 e.2 fuel false hinv he hf
      simp only [Bool.false_eq_true, if_false] at g2
      simp only [List.map_cons, List.nodup_cons] at hnd
      have hsub1 : ∀ e1 ∈ R, e1 ∈ leavesOf t1 := by
        intro e1 he1
        have h1 : e1 ∈ t0.leaves := hsub e1 (by simp [he1])
        rcases List.mem_cons.1 (g3.mem_iff.1 h1) with h2 | h2
        · exact absurd (List.mem_map_of_mem Prod.snd he1) (by rw [h2]; exact hnd.1)
        · exact h2
      have hlen : (leavesOf t1).length ≤ (leavesOf (some t0)).length := by
        have := g3.length_eq
        simp only [List.length_cons, leavesOf] at this ⊢
        omega
      obtain ⟨s2, t2, k1, k2, k3, k4, k5, k6⟩ :=
        ih g2 hsub1 hnd.2 (leavesOf_length_le hlen hf)
      refine ⟨s2, t2, ?_, ?_, ?_, by rw [k4, g4], by rw [k5, g5], ?_⟩
      · simp only [List.map_cons, Update.removeAll, g1, Outcome.andThen_ok, k1]
      · simpa [List.reverse_cons, List.append_assoc] using k2
      · simp only [leavesOf] at g3 ⊢
        exact g3.trans (List.Perm.cons _ k3)
      · intro p m hm hmc
        obtain ⟨m1, e1, e2, e3⟩ := g7 p m hm hmc (fun h => by cases h)
        obtain ⟨m2, f1, f2, f3⟩ := k6 p m1 e1 (by rw [e3]; exact hmc)
        exact ⟨m2, f1, by rw [f2, e2], by rw [f3, e3]⟩

/-- Call of `UpdateLeafAABB` on a leaf outside the tree. -/
theorem UpdateLeafAABB_spec {ext : Externals AABB F Ray Hit} (env : ColliderEnv AABB F Ray Hit)
    {s : BVTree AABB} {t : Option Shape} {D : List (Collider × NodePtr)} {c : Collider}
    {n : NodePtr} (hinv : Inv ext s t ((c, n) :: D)) :
    ∃ s1 nn, s.mem n = some nn ∧ UpdateLeafAABB env s n = .ok s1 ∧ Inv ext s1 t ((c, n) :: D) ∧
      s1.colNodeMap = s.colNodeMap ∧ s1.colliderPairSet = s.colliderPairSet ∧
      s1.mem n = some { nn with aabb := env.GetFatAABB c } ∧ nn.collider = some c ∧
      (∀ q, q ≠ n → s1.mem q = s.mem q) := by
  obtain ⟨nn, hnn, hl, hr, hc⟩ := hinv.det_head
  have hnd := hinv.nodup
  simp only [List.map_cons, List.nodup_append, List.nodup_cons] at hnd
  obtain ⟨_, ⟨hnD, _⟩, hdisj⟩ := hnd
  have hnt : ∀ q, q ∈ ptrsOf t → q ≠ n := fun q hq h => hdisj hq (by simp [h])
  refine ⟨{ s with mem := Function.update s.mem n (some { nn with aabb := env.GetFatAABB c }) },
    nn, hnn, ?_, ?_, rfl, rfl, by simp, hc, fun q hq => by simp [Function.update_noteq hq]⟩
  · simp [UpdateLeafAABB, hnn, hc, Node.IsLeaf, hl, hr, BVTree.modify]
  · constructor
    · exact hinv.root_eq
    · intro t0 ht0
      refine Rep.rep_congr (fun q hq => ?_) (hinv.rep t0 ht0)
      simp [Function.update_noteq (hnt q (by simpa [ptrsOf, ht0] using hq))]
    · intro t0 ht0
      refine Boxed.boxed_congr (fun q hq => ?_) (hinv.boxed t0 ht0)
      simp [Function.update_noteq (hnt q (by simpa [ptrsOf, ht0] using hq))]
    · intro e he
      rcases List.mem_cons.1 he with rfl | he1
      · exact ⟨{ nn with aabb := env.GetFatAABB c }, by simp, hl, hr, hc⟩
      · have hne : e.2 ≠ n := fun h => hnD (h ▸ List.mem_map_of_mem _ he1)
        obtain ⟨m, hm, h⟩ := hinv.det e he
        exact ⟨m, by simp [Function.update_noteq hne, hm], h⟩
    · exact hinv.nodup
    · intro q m hm
      by_cases hq : q = n
      · subst hq; exact hinv.live q nn hnn
      · simp only [Function.update_noteq hq] at hm
        exact hinv.live q m hm
    · intro q hq
      have hne : q ≠ n := by
        rintro rfl
        rw [hinv.brk _ hq] at hnn; cases hnn
      simpa [Function.update_noteq hne] using hinv.brk q hq

/-- The second loop of `Update`: every listed leaf gets the current fat box of
its collider and goes back into the tree. -/
theorem reinsertAll_spec (ext : Externals AABB F Ray Hit) (env : ColliderEnv AABB F Ray Hit)
    {fuel : Nat} :
    ∀ (R : List (Collider × NodePtr)) {s : BVTree AABB} {t : Option Shape}
      {D : List (Collider × NodePtr)},
      Inv ext s t (R ++ D) → 2 * ((leavesOf t).length + R.length) ≤ fuel + 1 →
      ∃ s1 t1, Update.reinsertAll ext env fuel s (R.map Prod.snd) = .ok s1 ∧
        Inv ext s1 t1 D ∧ (leavesOf t1).Perm (R ++ leavesOf t) ∧
        s1.colNodeMap = s.colNodeMap ∧ s1.colliderPairSet = s.colliderPairSet ∧
        (∀ p m, s.mem p = some m → m.collider ≠ none →
          ∃ m1, s1.mem p = some m1 ∧ m1.collider = m.collider ∧
            (p ∉ R.map Prod.snd → m1.aabb = m.aabb) ∧
            (∀ c, (c, p) ∈ R → m1.aabb = env.GetFatAABB c)) := by
  intro R
  induction R with
  | nil =>
    intro s t D hinv _
    exact ⟨s, t, rfl, by simpa using hinv, by simp, rfl, rfl,
      fun p m hm _ => ⟨m, hm, rfl, fun _ => rfl, fun c hc => by simp at hc⟩⟩
  | cons e R ih =>
    intro s t D hinv hf
    have hinv0 : Inv ext s t ((e.1, e.2) :: (R ++ D)) := by simpa using hinv
    obtain ⟨s1, nn, hnn, g1, g2, g3, g4, g5, g6, g7⟩ := UpdateLeafAABB_spec env hinv0
    have hfa : (ptrsOf t).length ≤ fuel := by
      simp only [List.length_cons] at hf
      rcases ptrsOf_length t with h1 | ⟨_, h1⟩ <;> omega
    obtain ⟨s2, t2, k1, k2, k3, k4, k5, k6⟩ := AddNode_spec ext g2 hfa
    have hf2 : 2 * ((leavesOf (some t2)).length + R.length) ≤ fuel + 1 := by
      have := k3.length_eq
      simp only [leavesOf, List.length_cons] at this hf ⊢
      omega
    obtain ⟨s3, t3, j1, j2, j3, j4, j5, j6⟩ := ih k2 hf2
    have hnd := hinv.nodup
    simp only [List.map_cons, List.map_append, List.cons_append] at hnd
    have hnd1 := (List.nodup_append.1 hnd).2.1
    simp only [List.nodup_cons, List.mem_append, not_or] at hnd1
    refine ⟨s3, t3, ?_, j2, ?_, by rw [j4, k4, g3], by rw [j5, k5, g4], ?_⟩
    · simp only [List.map_cons, Update.reinsertAll, g1, Outcome.andThen_ok, k1, j1]
    · refine j3.trans ?_
      simp only [leavesOf, List.cons_append]
      exact (List.Perm.append_left R k3).trans List.perm_middle
    · intro p m hm hmc
      by_cases hp : p = e.2
      · have hmm : nn = m := by rw [hp, hnn] at hm; exact Option.some.inj hm
        obtain ⟨m2, e1, e2, e3⟩ := k6 e.2 _ g5 (by simp [g6])
        obtain ⟨m3, f1, f2, f3, f4⟩ := j6 e.2 m2 e1 (by rw [e3]; simp [g6])
        refine ⟨m3, by rw [hp]; exact f1, by rw [f2, e3, ← hmm], ?_, ?_⟩
        · intro hnot
          exact absurd (by rw [hp]; simp) hnot
        · intro c hc
          rcases List.mem_cons.1 hc with hc1 | hc1
          · rw [f3 hnd1.1.1, e2]
            have : c = e.1 := by rw [← hc1]
            rw [this]
          · exact absurd (List.mem_map_of_mem Prod.snd hc1) (by
              simp only [hp] at hnd1 ⊢; exact hnd1.1.1)
      · obtain ⟨m2, e1, e2, e3⟩ := k6 p m (by rw [g7 p hp]; exact hm) hmc
        obtain ⟨m3, f1, f2, f3, f4⟩ := j6 p m2 e1 (by rw [e3]; exact hmc)
        refine ⟨m3, f1, by rw [f2, e3], ?_, ?_⟩
        · intro hnot
          simp only [List.map_cons, List.mem_cons, not_or] at hnot
          rw [f3 hnot.2, e2]
        · intro c hc
          rcases List.mem_cons.1 hc with hc1 | hc1
          · exact absurd (by rw [← hc1]) hp
          · exact f4 c hc1

/-- A call of `Update` keeps the tree well formed, keeps the leaves and the index, and
gives every stale leaf the current fat box of its collider. -/
theorem Update_spec (ext : Externals AABB F Ray Hit) (env : ColliderEnv AABB F Ray Hit)
    {s : BVTree AABB} {t : Option Shape} {fuel : Nat}
    (hinv : Inv ext s t []) (hidx : Indexed s t []) (hf : (ptrsOf t).length ≤ fuel) :
    ∃ s1 t1, Update ext env fuel s = .ok s1 ∧ Inv ext s1 t1 [] ∧ Indexed s1 t1 [] ∧
      (leavesOf t1).Perm (leavesOf t) ∧ s1.colNodeMap = s.colNodeMap ∧
      s1.colliderPairSet = s.colliderPairSet ∧
      (∀ e ∈ leavesOf t, ∀ m, s.mem e.2 = some m →
        ∃ m1, s1.mem e.2 = some m1 ∧ m1.collider = some e.1 ∧
          m1.aabb = if ext.Contains m.aabb (env.GetAABB e.1) then m.aabb
            else env.GetFatAABB e.1) := by
  have hrun : Update ext env fuel s =
      (match Update.collect ext env s.mem fuel (t.toList.map Shape.ptr) [] with
      | .error e => Outcome.abort e s
      | .ok l => (Update.removeAll ext fuel s l).andThen fun s1 =>
          Update.reinsertAll ext env fuel s1 l) := by
    unfold Update
    rw [hinv.root_eq]
    cases t <;> rfl
  have hfl : forestLeaves t.toList = leavesOf t := by
    cases t <;> simp [forestLeaves, leavesOf]
  have hfs : forestSize t.toList = (ptrsOf t).length := by
    cases t <;> simp [forestSize, ptrsOf]
  obtain ⟨R, hR, hperm⟩ := collect_spec ext env s.mem (forestSize t.toList) t.toList []
    fuel (le_refl _) (by rw [hfs]; exact hf) (by
      intro u hu
      simp only [Option.mem_toList, Option.mem_def] at hu
      exact ⟨none, hinv.rep u hu⟩)
  rw [hfl] at hperm
  simp only [List.nil_append] at hR
  have hsub : ∀ e ∈ R, e ∈ leavesOf t := fun e he => (List.mem_filter.1 (hperm.mem_iff.1 he)).1
  have hlnd := hinv.leaves_nodup
  have hRnd : (R.map Prod.snd).Nodup := by
    rw [List.Perm.nodup_iff (hperm.map Prod.snd)]
    exact List.Nodup.sublist (List.Sublist.map _ (List.filter_sublist _)) hlnd
  obtain ⟨s1, t1, g1, g2, g3, g4, g5, g6⟩ := removeAll_spec ext R hinv hsub hRnd hf
  have g2' : Inv ext s1 t1 (R ++ []) :=
    Inv.perm ((List.reverse_perm R).append_right _) g2
  have hfuel : 2 * ((leavesOf t1).length + R.length) ≤ fuel + 1 := by
    have h1 := g3.length_eq
    simp only [List.length_append] at h1
    rcases ptrsOf_length t with h2 | ⟨h2, _⟩
    · omega
    · subst h2
      have : (leavesOf (none : Option Shape)).length = 0 := rfl
      omega
  obtain ⟨s2, t2, k1, k2, k3, k4, k5, k6⟩ := reinsertAll_spec ext env R g2' hfuel
  have hleaves : (leavesOf t2).Perm (leavesOf t) := k3.trans g3.symm
  refine ⟨s2, t2, ?_, k2, ?_, hleaves, by rw [k4, g4], by rw [k5, g5], ?_⟩
  · rw [hrun, hR]
    simp only [g1, Outcome.andThen_ok, k1]
  · constructor
    · rw [k4, g4]; exact hidx.keys
    · intro e
      rw [k4, g4, hidx.entries e]
      simp only [List.not_mem_nil, or_false]
      exact hleaves.mem_iff.symm
  · intro e he m hm
    obtain ⟨n, hn, _, _, hc⟩ := hinv.leaf_node he
    rw [hm] at hn
    obtain rfl := Option.some.inj hn
    have hmc : m.collider ≠ none := by rw [hc]; simp
    obtain ⟨m1, e1, e2, e3⟩ := g6 e.2 m hm hmc
    obtain ⟨m2, f1, f2, f3, f4⟩ := k6 e.2 m1 e1 (by rw [e3]; exact hmc)
    refine ⟨m2, f1, by rw [f2, e3, hc], ?_⟩
    by_cases hst : ext.Contains m.aabb (env.GetAABB e.1) = true
    · rw [if_pos hst, ← e2]
      apply f3
      intro hin
      obtain ⟨e', he', hsnd⟩ := List.mem_map.1 hin
      have : e' = e := List.inj_on_of_nodup_map hlnd (hsub e' he') he hsnd
      subst this
      have := (List.mem_filter.1 (hperm.mem_iff.1 he')).2
      simp [isStale, hm, hst] at this
    · rw [if_neg hst]
      apply f4
      refine hperm.mem_iff.2 (List.mem_filter.2 ⟨he, ?_⟩)
      simp [isStale, hm, hst]

end UpdateLemmas

end Isetta


namespace Isetta

section Fuel

variable {AABB F Ray Hit : Type}

/-! ## More fuel does not change a completed call -/

theorem Outcome.andThen_mono {σ : Type} {o : Outcome σ} {f g : σ → Outcome σ} {s1 : σ}
    (hfg : ∀ s0, f s0 = .ok s1 → g s0 = .ok s1) (h : o.andThen f = .ok s1) :
    o.andThen g = .ok s1 := by
  obtain ⟨s0, h0, h1⟩ := Outcome.andThen_eq_ok h
  rw [h0]; exact hfg s0 h1

theorem Outcome.andThen_mono2 {σ : Type} {o o1 : Outcome σ} {f g : σ → Outcome σ} {s1 : σ}
    (ho : ∀ s0, o = .ok s0 → o1 = .ok s0)
    (hfg : ∀ s0, f s0 = .ok s1 → g s0 = .ok s1) (h : o.andThen f = .ok s1) :
    o1.andThen g = .ok s1 := by
  obtain ⟨s0, h0, h1⟩ := Outcome.andThen_eq_ok h
  rw [ho s0 h0]; exact hfg s0 h1

theorem descend_succ (ext : Externals AABB F Ray Hit) (mem : NodePtr → Option (Node AABB))
    (box : AABB) : ∀ (fuel : Nat) (cur L : NodePtr),
    AddNode.descend ext mem box fuel cur = .ok L →
    AddNode.descend ext mem box (fuel + 1) cur = .ok L := by
  intro fuel
  induction fuel with
  | zero => intro cur L h; simp [AddNode.descend] at h
  | succ k ih =>
    intro cur L h
    rw [AddNode.descend] at h ⊢
    cases hm : mem cur with
    | none => simp [hm] at h
    | some n =>
      simp only [hm] at h ⊢
      by_cases hl : n.IsLeaf = true
      · simpa [hl] using h
      · simp only [hl, if_false] at h ⊢
        cases h1 : deref mem n.left with
        | error e => simp [h1] at h
        | ok ln =>
          cases h2 : deref mem n.right with
          | error e => simp [h1, h2] at h
          | ok rn =>
            simp only [h1, h2] at h ⊢
            by_cases hgo : ext.flt
                (ext.fsub (ext.SurfaceArea (ext.Encapsulate rn.aabb box))
                  (ext.SurfaceArea rn.aabb))
                (ext.fsub (ext.SurfaceArea (ext.Encapsulate ln.aabb box))
                  (ext.SurfaceArea ln.aabb)) = true
            · simp only [hgo, if_true] at h ⊢
              cases hr : n.right with
              | none => simp [hr] at h
              | some r => simp only [hr] at h ⊢; exact ih r L h
            · simp only [hgo, if_false] at h ⊢
              cases hr : n.left with
              | none => simp [hr] at h
              | some l => simp only [hr] at h ⊢; exact ih l L h

theorem descend_mono (ext : Externals AABB F Ray Hit) (mem : NodePtr → Option (Node AABB))
    (box : AABB) {fuel fuel1 : Nat} (hle : fuel ≤ fuel1) {cur L : NodePtr}
    (h : AddNode.descend ext mem box fuel cur = .ok L) :
    AddNode.descend ext mem box fuel1 cur = .ok L := by
  induction hle with
  | refl => exact h
  | step _ ih => exact descend_succ ext mem box _ cur L ih

theorem refit_succ (ext : Externals AABB F Ray Hit) : ∀ (fuel : Nat) (s s1 : BVTree AABB)
    (p : Option NodePtr), refit ext fuel s p = .ok s1 → refit ext (fuel + 1) s p = .ok s1 := by
  intro fuel
  induction fuel with
  | zero =>
    intro s s1 p h
    cases p with
    | none => simpa [refit] using h
    | some q => simp [refit] at h
  | succ k ih =>
    intro s s1 p h
    cases p with
    | none => simpa [refit] using h
    | some q =>
      rw [refit] at h ⊢
      refine Outcome.andThen_mono (fun s0 h0 => ?_) h
      cases hm : s0.mem q with
      | none => simp [hm] at h0
      | some n => simp only [hm] at h0 ⊢; exact ih _ _ _ h0

theorem refit_mono (ext : Externals AABB F Ray Hit) {fuel fuel1 : Nat} (hle : fuel ≤ fuel1)
    {s s1 : BVTree AABB} {p : Option NodePtr} (h : refit ext fuel s p = .ok s1) :
    refit ext fuel1 s p = .ok s1 := by
  induction hle with
  | refl => exact h
  | step _ ih => exact refit_succ ext _ s s1 p ih

theorem AddNode_mono (ext : Externals AABB F Ray Hit) {fuel fuel1 : Nat} (hle : fuel ≤ fuel1)
    {s s1 : BVTree AABB} {n : NodePtr} (h : AddNode ext fuel s n = .ok s1) :
    AddNode ext fuel1 s n = .ok s1 := by
  unfold AddNode at h ⊢
  cases hm : s.mem n with
  | none => simp [hm] at h
  | some nn =>
    simp only [hm] at h ⊢
    cases hr : s.root with
    | none => simpa [hr] using h
    | some r =>
      simp only [hr] at h ⊢
      cases hd : AddNode.descend ext s.mem nn.aabb fuel r with
      | error e => simp [hd] at h
      | ok cur =>
        simp only [hd, descend_mono ext s.mem nn.aabb hle hd] at h ⊢
        cases hc : s.mem cur with
        | none => simp [hc] at h
        | some cn =>
          simp only [hc] at h ⊢
          by_cases hcr : cur = r
          · simpa [hcr] using h
          · simp only [hcr, if_false] at h ⊢
            refine Outcome.andThen_mono (fun s0 h0 => ?_) h
            cases hp : cn.parent with
            | none => simp [hp] at h0
            | some cp =>
              simp only [hp] at h0 ⊢
              refine Outcome.andThen_mono (fun s2 h2 => ?_) h0
              refine Outcome.andThen_mono (fun s3 h3 => ?_) h2
              refine Outcome.andThen_mono (fun s4 h4 => ?_) h3
              refine Outcome.andThen_mono (fun s5 h5 => ?_) h4
              refine Outcome.andThen_mono (fun s6 h6 => ?_) h5
              cases hb : s6.mem (NewOnFreeList s (Node.ofAABB (ext.Encapsulate cn.aabb nn.aabb))).1 with
              | none => simp [hb] at h6
              | some bn => simp only [hb] at h6 ⊢; exact refit_mono ext hle h6

theorem RemoveNode_mono (ext : Externals AABB F Ray Hit) {fuel fuel1 : Nat} (hle : fuel ≤ fuel1)
    {s s1 : BVTree AABB} {n : NodePtr} {del : Bool}
    (h : RemoveNode ext fuel s n del = .ok s1) : RemoveNode ext fuel1 s n del = .ok s1 := by
  unfold RemoveNode at h ⊢
  cases hm : s.mem n with
  | none => simp [hm] at h
  | some nn =>
    simp only [hm] at h ⊢
    by_cases hl : nn.IsLeaf = true
    · simp only [hl, if_true] at h ⊢
      refine Outcome.andThen_mono2 (fun s0 h0 => ?_) (fun _ h1 => h1) h
      by_cases h1 : s.root = some n
      · simpa [h1] using h0
      · simp only [h1, if_false] at h0 ⊢
        by_cases h2 : nn.parent = s.root
        · simpa [h2] using h0
        · simp only [h2, if_false] at h0 ⊢
          cases hp : nn.parent with
          | none => simp [hp] at h0
          | some parent =>
            simp only [hp] at h0 ⊢
            cases hpm : s.mem parent with
            | none => simp [hpm] at h0
            | some pn =>
              simp only [hpm] at h0 ⊢
              cases hg : pn.parent with
              | none => simp [hg] at h0
              | some gp =>
                simp only [hg] at h0 ⊢
                by_cases h3 : some n = pn.left ∨ some n = pn.right
                · simp only [h3, if_true] at h0 ⊢
                  refine Outcome.andThen_mono (fun s2 h4 => ?_) h0
                  refine Outcome.andThen_mono (fun s3 h5 => ?_) h4
                  exact refit_mono ext hle h5
                · simp [h3] at h0
    · simp [hl] at h

theorem AddCollider_mono (ext : Externals AABB F Ray Hit) (env : ColliderEnv AABB F Ray Hit)
    {fuel fuel1 : Nat} (hle : fuel ≤ fuel1) {s s1 : BVTree AABB} {c : Collider}
    (h : AddCollider ext env fuel s c = .ok s1) : AddCollider ext env fuel1 s c = .ok s1 := by
  unfold AddCollider at h ⊢
  exact AddNode_mono ext hle h

theorem RemoveCollider_mono (ext : Externals AABB F Ray Hit)
    {fuel fuel1 : Nat} (hle : fuel ≤ fuel1) {s s1 : BVTree AABB} {c : Collider}
    (h : RemoveCollider ext fuel s c = .ok s1) : RemoveCollider ext fuel1 s c = .ok s1 := by
  unfold RemoveCollider at h ⊢
  cases hf : mapFind s.colNodeMap c with
  | none => simp [hf] at h
  | some node =>
    simp only [hf] at h ⊢
    exact Outcome.andThen_mono2 (fun s0 h0 => RemoveNode_mono ext hle h0) (fun _ h1 => h1) h

theorem collect_succ (ext : Externals AABB F Ray Hit) (env : ColliderEnv AABB F Ray Hit)
    (mem : NodePtr → Option (Node AABB)) : ∀ (fuel : Nat) (q acc R : List NodePtr),
    Update.collect ext env mem fuel q acc = .ok R →
    Update.collect ext env mem (fuel + 1) q acc = .ok R := by
  intro fuel
  induction fuel with
  | zero =>
    intro q acc R h
    cases q with
    | nil => simpa [Update.collect] using h
    | cons cur q => simp [Update.collect] at h
  | succ k ih =>
    intro q acc R h
    cases q with
    | nil => simpa [Update.collect] using h
    | cons cur q =>
      rw [Update.collect] at h ⊢
      cases hm : mem cur with
      | none => simp [hm] at h
      | some n =>
        simp only [hm] at h ⊢
        by_cases hl : n.IsLeaf = true
        · simp only [hl, if_true] at h ⊢
          cases hi : n.IsInFatAABB ext env with
          | error e => simp [hi] at h
          | ok b =>
            simp only [hi] at h ⊢
            cases b
            · simp only [Bool.not_false, if_true] at h ⊢; exact ih _ _ _ h
            · simp only [Bool.not_true, Bool.false_eq_true, if_false] at h ⊢; exact ih _ _ _ h
        · simp only [hl, if_false] at h ⊢
          exact ih _ _ _ h

theorem collect_mono (ext : Externals AABB F Ray Hit) (env : ColliderEnv AABB F Ray Hit)
    (mem : NodePtr → Option (Node AABB)) {fuel fuel1 : Nat} (hle : fuel ≤ fuel1)
    {q acc R : List NodePtr} (h : Update.collect ext env mem fuel q acc = .ok R) :
    Update.collect ext env mem fuel1 q acc = .ok R := by
  induction hle with
  | refl => exact h
  | step _ ih => exact collect_succ ext env mem _ q acc R ih

theorem removeAll_mono (ext : Externals AABB F Ray Hit) {fuel fuel1 : Nat} (hle : fuel ≤ fuel1) :
    ∀ (l : List NodePtr) (s s1 : BVTree AABB), Update.removeAll ext fuel s l = .ok s1 →
    Update.removeAll ext fuel1 s l = .ok s1 := by
  intro l
  induction l with
  | nil => intro s s1 h; simpa [Update.removeAll] using h
  | cons n l ih =>
    intro s s1 h
    rw [Update.removeAll] at h ⊢
    exact Outcome.andThen_mono2 (fun s0 h0 => RemoveNode_mono ext hle h0)
      (fun s0 h0 => ih s0 s1 h0) h

theorem reinsertAll_mono (ext : Externals AABB F Ray Hit) (env : ColliderEnv AABB F Ray Hit)
    {fuel fuel1 : Nat} (hle : fuel ≤ fuel1) :
    ∀ (l : List NodePtr) (s s1 : BVTree AABB), Update.reinsertAll ext env fuel s l = .ok s1 →
    Update.reinsertAll ext env fuel1 s l = .ok s1 := by
  intro l
  induction l with
  | nil => intro s s1 h; simpa [Update.reinsertAll] using h
  | cons n l ih =>
    intro s s1 h
    rw [Update.reinsertAll] at h ⊢
    refine Outcome.andThen_mono (fun s0 h0 => ?_) h
    exact Outcome.andThen_mono2 (fun s2 h2 => AddNode_mono ext hle h2)
      (fun s2 h2 => ih s2 s1 h2) h0

theorem Update_mono (ext : Externals AABB F Ray Hit) (env : ColliderEnv AABB F Ray Hit)
    {fuel fuel1 : Nat} (hle : fuel ≤ fuel1) {s s1 : BVTree AABB}
    (h : Update ext env fuel s = .ok s1) : Update ext env fuel1 s = .ok s1 := by
  unfold Update at h ⊢
  cases hr : s.root <;> simp only [hr] at h ⊢ <;> split at h
  · cases h
  · rename_i R hc
    rw [collect_mono ext env s.mem hle hc]
    exact Outcome.andThen_mono2 (fun s0 h0 => removeAll_mono ext hle R s s0 h0)
      (fun s0 h0 => reinsertAll_mono ext env hle R s0 s1 h0) h
  · cases h
  · rename_i R hc
    rw [collect_mono ext env s.mem hle hc]
    exact Outcome.andThen_mono2 (fun s0 h0 => removeAll_mono ext hle R s s0 h0)
      (fun s0 h0 => reinsertAll_mono ext env hle R s0 s1 h0) h

end Fuel

end Isetta


namespace Isetta

section Global

variable {AABB F Ray Hit : Type}

/-! ## Well-formed states -/

theorem WF_empty (ext : Externals AABB F Ray Hit) : WF ext (BVTree.empty AABB) := by
  refine ⟨none, ?_, ?_⟩
  · constructor
    · rfl
    · intro t0 h; cases h
    · intro t0 h; cases h
    · intro e he; cases he
    · simp [ptrsOf]
    · intro p n h; simp [BVTree.empty] at h
    · intro p _; rfl
  · constructor
    · simp [BVTree.empty]
    · intro e; simp [BVTree.empty, leavesOf]

/-- The tree has at most as many nodes as addresses were ever handed out. -/
theorem Inv.size_le_brk {ext : Externals AABB F Ray Hit} {s : BVTree AABB} {t : Option Shape}
    {D : List (Collider × NodePtr)} (h : Inv ext s t D) : (ptrsOf t).length ≤ s.brk := by
  have hnd := (List.nodup_append.1 h.nodup).1
  have hsub : ptrsOf t ⊆ List.range s.brk := by
    intro p hp
    rw [List.mem_range]
    by_contra hlt
    have hnone := h.brk p (by omega)
    cases t with
    | none => simp [ptrsOf] at hp
    | some t0 =>
      obtain ⟨n, hn⟩ := (h.rep t0 rfl).rep_live p hp
      rw [hn] at hnone; cases hnone
  have := (List.subperm_of_subset hnd hsub).length_le
  simpa using this

theorem WF.addCollider {ext : Externals AABB F Ray Hit} (env : ColliderEnv AABB F Ray Hit)
    {s s1 : BVTree AABB} {c : Collider} {fuel : Nat} (h : WF ext s)
    (habs : mapFind s.colNodeMap c = none) (hrun : AddCollider ext env fuel s c = .ok s1) :
    WF ext s1 ∧ ∀ k, (mapFind s1.colNodeMap k ≠ none ↔ k = c ∨ mapFind s.colNodeMap k ≠ none) := by
  obtain ⟨t, hinv, hidx⟩ := h
  obtain ⟨s2, t2, p, g1, g2, g3, _, _, g6, _⟩ := @AddCollider_spec _ _ _ _ ext env s t c (max fuel s.brk)
    hinv hidx habs (le_trans hinv.size_le_brk (le_max_right _ _))
  have := AddCollider_mono ext env (le_max_left fuel s.brk) hrun
  rw [g1] at this
  obtain rfl : s2 = s1 := by injection this
  refine ⟨⟨_, g2, g3⟩, fun k => ?_⟩
  rw [g6]
  simp only [ne_eq, mapFind_eq_none, not_forall, not_not, List.mem_append, List.mem_singleton,
    Prod.mk.injEq]
  constructor
  · rintro ⟨q, h1 | ⟨h1, _⟩⟩
    · exact Or.inr ⟨q, h1⟩
    · exact Or.inl h1
  · rintro (h1 | ⟨q, h1⟩)
    · exact ⟨p, Or.inr ⟨h1, rfl⟩⟩
    · exact ⟨q, Or.inl h1⟩

theorem WF.removeCollider {ext : Externals AABB F Ray Hit}
    {s s1 : BVTree AABB} {c : Collider} {fuel : Nat} (h : WF ext s)
    (hpre : mapFind s.colNodeMap c ≠ none) (hrun : RemoveCollider ext fuel s c = .ok s1) :
    WF ext s1 ∧ ∀ k, (mapFind s1.colNodeMap k ≠ none ↔ k ≠ c ∧ mapFind s.colNodeMap k ≠ none) := by
  obtain ⟨t, hinv, hidx⟩ := h
  cases hfind : mapFind s.colNodeMap c with
  | none => exact absurd hfind hpre
  | some node =>
    obtain ⟨s2, t2, g1, g2, g3, _, g5, _⟩ := @RemoveCollider_spec _ _ _ _ ext s t c node (max fuel s.brk)
      hinv hidx hfind (le_trans hinv.size_le_brk (le_max_right _ _))
    have := RemoveCollider_mono ext (le_max_left fuel s.brk) hrun
    rw [g1] at this
    obtain rfl : s2 = s1 := by injection this
    refine ⟨⟨_, g2, g3⟩, fun k => ?_⟩
    rw [g5]
    simp only [ne_eq, mapFind_eq_none, not_forall, not_not, mem_mapErase]
    constructor
    · rintro ⟨q, h1, h2⟩
      exact ⟨h2, q, h1⟩
    · rintro ⟨h2, q, h1⟩
      exact ⟨q, h1, h2⟩

theorem WF.update {ext : Externals AABB F Ray Hit} (env : ColliderEnv AABB F Ray Hit)
    {s s1 : BVTree AABB} {fuel : Nat} (h : WF ext s) (hrun : Update ext env fuel s = .ok s1) :
    WF ext s1 ∧ s1.colNodeMap = s.colNodeMap := by
  obtain ⟨t, hinv, hidx⟩ := h
  obtain ⟨s2, t2, g1, g2, g3, _, g5, _⟩ := @Update_spec _ _ _ _ ext env s t (max fuel s.brk)
    hinv hidx (le_trans hinv.size_le_brk (le_max_right _ _))
  have := Update_mono ext env (le_max_left fuel s.brk) hrun
  rw [g1] at this
  obtain rfl : s2 = s1 := by injection this
  exact ⟨⟨_, g2, g3⟩, g5⟩

/-- Every reachable state is well formed, and the keys of its index are the
colliders added and not removed. -/
theorem Reachable.wf {ext : Externals AABB F Ray Hit} {A : List Collider} {s : BVTree AABB}
    (h : Reachable ext A s) :
    WF ext s ∧ A.Nodup ∧ ∀ k, mapFind s.colNodeMap k ≠ none ↔ k ∈ A := by
  induction h with
  | empty => exact ⟨WF_empty ext, List.nodup_nil, fun k => by simp [BVTree.empty, mapFind]⟩
  | @add A s s1 env fuel c _ hc hrun ih =>
    obtain ⟨h1, h2, h3⟩ := ih
    have habs : mapFind s.colNodeMap c = none := by
      by_contra hne
      exact hc ((h3 c).1 hne)
    obtain ⟨g1, g2⟩ := h1.addCollider env habs hrun
    refine ⟨g1, List.nodup_cons.2 ⟨hc, h2⟩, fun k => ?_⟩
    rw [g2 k, h3 k, List.mem_cons]
  | remove fuel c _ hc hrun ih =>
    obtain ⟨h1, h2, h3⟩ := ih
    obtain ⟨g1, g2⟩ := h1.removeCollider ((h3 c).2 hc) hrun
    refine ⟨g1, h2.erase c, fun k => ?_⟩
    rw [g2 k, h3 k, h2.mem_erase_iff]
  | update env fuel _ hrun ih =>
    obtain ⟨h1, h2, h3⟩ := ih
    obtain ⟨g1, g2⟩ := h1.update env hrun
    exact ⟨g1, h2, fun k => by rw [g2]; exact h3 k⟩

end Global

end Isetta


namespace Isetta

section HeapView

variable {AABB F Ray Hit : Type}

/-! ## Reading the invariants off the heap -/

/-- What the heap holds at a node of a represented, boxed shape. -/
theorem Rep.node_cases {ext : Externals AABB F Ray Hit} {mem : NodePtr → Option (Node AABB)}
    {par : Option NodePtr} {t : Shape} (hr : Rep mem par t) (hb : Boxed ext mem t)
    {p : NodePtr} (hp : p ∈ t.ptrs) :
    ∃ n, mem p = some n ∧
      ((n.left = none ∧ n.right = none ∧ ∃ c, n.collider = some c ∧ (c, p) ∈ t.leaves) ∨
       (∃ l r ln rn, n.left = some l ∧ n.right = some r ∧ n.collider = none ∧
          l ∈ t.ptrs ∧ r ∈ t.ptrs ∧ mem l = some ln ∧ mem r = some rn ∧
          ln.parent = some p ∧ rn.parent = some p ∧
          n.aabb = ext.Encapsulate ln.aabb rn.aabb)) := by
  induction t generalizing par with
  | leaf q c =>
    obtain ⟨n, hn, _, hl, hr2, hc⟩ := hr
    simp only [Shape.ptrs, List.mem_singleton] at hp
    subst hp
    exact ⟨n, hn, Or.inl ⟨hl, hr2, c, hc, by simp [Shape.leaves]⟩⟩
  | branch q l r ihl ihr =>
    obtain ⟨⟨n, hn, _, hl, hr2, hc⟩, hrl, hrr⟩ := hr
    obtain ⟨⟨n1, ln, rn, e1, e2, e3, e4⟩, hbl, hbr⟩ := hb
    simp only [Shape.ptrs, List.mem_cons, List.mem_append] at hp
    rcases hp with rfl | hp | hp
    · rw [hn] at e1
      obtain rfl := Option.some.inj e1
      obtain ⟨ln1, f1, f2⟩ := hrl.top
      obtain ⟨rn1, f3, f4⟩ := hrr.top
      rw [e2] at f1; obtain rfl := Option.some.inj f1
      rw [e3] at f3; obtain rfl := Option.some.inj f3
      refine ⟨n, hn, Or.inr ⟨l.ptr, r.ptr, ln, rn, hl, hr2, hc, ?_, ?_, e2, e3, f2, f4, e4⟩⟩
      · simp [Shape.ptrs, l.ptr_mem_ptrs]
      · simp [Shape.ptrs, r.ptr_mem_ptrs]
    · obtain ⟨m, hm, h⟩ := ihl hrl hbl hp
      refine ⟨m, hm, ?_⟩
      rcases h with ⟨h1, h2, c, h3, h4⟩ | ⟨a, b, an, bn, h1, h2, h3, h4, h5, h6⟩
      · exact Or.inl ⟨h1, h2, c, h3, by simp [Shape.leaves, h4]⟩
      · exact Or.inr ⟨a, b, an, bn, h1, h2, h3, by simp [Shape.ptrs, h4],
          by simp [Shape.ptrs, h5], h6⟩
    · obtain ⟨m, hm, h⟩ := ihr hrr hbr hp
      refine ⟨m, hm, ?_⟩
      rcases h with ⟨h1, h2, c, h3, h4⟩ | ⟨a, b, an, bn, h1, h2, h3, h4, h5, h6⟩
      · exact Or.inl ⟨h1, h2, c, h3, by simp [Shape.leaves, h4]⟩
      · exact Or.inr ⟨a, b, an, bn, h1, h2, h3, by simp [Shape.ptrs, h4],
          by simp [Shape.ptrs, h5], h6⟩

theorem Rep.linked {s : BVTree AABB} {par : Option NodePtr} {t : Shape}
    (hr : Rep s.mem par t) (htop : Linked s t.ptr) : ∀ p ∈ t.ptrs, Linked s p := by
  induction t generalizing par with
  | leaf q c =>
    intro p hp
    simp only [Shape.ptrs, List.mem_singleton] at hp
    subst hp; exact htop
  | branch q l r ihl ihr =>
    obtain ⟨⟨n, hn, _, hl, hr2, _⟩, hrl, hrr⟩ := hr
    intro p hp
    simp only [Shape.ptrs, List.mem_cons, List.mem_append] at hp
    rcases hp with rfl | hp | hp
    · exact htop
    · exact ihl hrl (Linked.left htop hn hl) p hp
    · exact ihr hrr (Linked.right htop hn hr2) p hp

theorem Inv.linked_of_mem {ext : Externals AABB F Ray Hit} {s : BVTree AABB} {t : Option Shape}
    {D : List (Collider × NodePtr)} (h : Inv ext s t D) {p : NodePtr} (hp : p ∈ ptrsOf t) :
    Linked s p := by
  cases t with
  | none => simp [ptrsOf] at hp
  | some t0 =>
    exact (h.rep t0 rfl).linked (Linked.root (by simpa using h.root_eq)) p hp

theorem Inv.mem_of_linked {ext : Externals AABB F Ray Hit} {s : BVTree AABB} {t : Option Shape}
    {D : List (Collider × NodePtr)} (h : Inv ext s t D) {p : NodePtr} (hp : Linked s p) :
    p ∈ ptrsOf t := by
  induction hp with
  | root hr =>
    rw [h.root_eq] at hr
    cases t with
    | none => simp at hr
    | some t0 =>
      simp only [Option.map_some', Option.some.injEq] at hr
      rw [← hr]; exact t0.ptr_mem_ptrs
  | left _ hq hl ih =>
    cases t with
    | none => simp [ptrsOf] at ih
    | some t0 =>
      obtain ⟨m, hm, hc⟩ := (h.rep t0 rfl).node_cases (h.boxed t0 rfl) ih
      rw [hq] at hm
      obtain rfl := Option.some.inj hm
      rcases hc with ⟨h1, _⟩ | ⟨a, b, _, _, h1, _, _, h4, _⟩
      · rw [hl] at h1; cases h1
      · rw [hl] at h1; obtain rfl := Option.some.inj h1; exact h4
  | right _ hq hl ih =>
    cases t with
    | none => simp [ptrsOf] at ih
    | some t0 =>
      obtain ⟨m, hm, hc⟩ := (h.rep t0 rfl).node_cases (h.boxed t0 rfl) ih
      rw [hq] at hm
      obtain rfl := Option.some.inj hm
      rcases hc with ⟨_, h1, _⟩ | ⟨a, b, _, _, _, h1, _, _, h5, _⟩
      · rw [hl] at h1; cases h1
      · rw [hl] at h1; obtain rfl := Option.some.inj h1; exact h5

/-- The nodes the heap holds in a well-formed state are the nodes of the
tree, and each is a leaf with a collider or a boxed branch with two children
that point back to it. -/
theorem WF.node {ext : Externals AABB F Ray Hit} {s : BVTree AABB} (h : WF ext s)
    {p : NodePtr} {n : Node AABB} (hn : s.mem p = some n) :
    Linked s p ∧
      ((n.left = none ∧ n.right = none ∧ ∃ c, n.collider = some c ∧ (c, p) ∈ s.colNodeMap) ∨
       (∃ l r ln rn, n.left = some l ∧ n.right = some r ∧ n.collider = none ∧
          s.mem l = some ln ∧ s.mem r = some rn ∧
          ln.parent = some p ∧ rn.parent = some p ∧
          n.aabb = ext.Encapsulate ln.aabb rn.aabb)) := by
  obtain ⟨t, hinv, hidx⟩ := h
  have hp : p ∈ ptrsOf t := by simpa using hinv.live p n hn
  refine ⟨hinv.linked_of_mem hp, ?_⟩
  cases t with
  | none => simp [ptrsOf] at hp
  | some t0 =>
    obtain ⟨m, hm, hc⟩ := (hinv.rep t0 rfl).node_cases (hinv.boxed t0 rfl) hp
    rw [hn] at hm
    obtain rfl := Option.some.inj hm
    rcases hc with ⟨h1, h2, c, h3, h4⟩ | ⟨a, b, an, bn, h1, h2, h3, _, _, h6, h7, h8, h9, h10⟩
    · exact Or.inl ⟨h1, h2, c, h3, (hidx.entries _).2 (Or.inl h4)⟩
    · exact Or.inr ⟨a, b, an, bn, h1, h2, h3, h6, h7, h8, h9, h10⟩

theorem WF.linked_live {ext : Externals AABB F Ray Hit} {s : BVTree AABB} (h : WF ext s)
    {p : NodePtr} (hp : Linked s p) : ∃ n, s.mem p = some n := by
  obtain ⟨t, hinv, _⟩ := h
  have := hinv.mem_of_linked hp
  cases t with
  | none => simp [ptrsOf] at this
  | some t0 => exact (hinv.rep t0 rfl).rep_live p this

theorem WF.leafAt_iff {ext : Externals AABB F Ray Hit} {s : BVTree AABB} (h : WF ext s)
    (c : Collider) (p : NodePtr) : LeafAt s c p ↔ (c, p) ∈ s.colNodeMap := by
  constructor
  · rintro ⟨_, n, hn, hl, hc⟩
    rcases (h.node hn).2 with ⟨_, _, c1, h3, h4⟩ | ⟨_, _, _, _, _, _, h3, _⟩
    · rw [hc] at h3; obtain rfl := Option.some.inj h3; exact h4
    · rw [hc] at h3; cases h3
  · intro hmem
    obtain ⟨t, hinv, hidx⟩ := h
    have hleaf : (c, p) ∈ leavesOf t := by simpa using (hidx.entries _).1 hmem
    obtain ⟨n, hn, hl, hr, hc⟩ := hinv.leaf_node hleaf
    refine ⟨hinv.linked_of_mem ?_, n, hn, by simp [Node.IsLeaf, hl, hr], hc⟩
    cases t with
    | none => simp [leavesOf] at hleaf
    | some t0 => exact Shape.leaf_ptr_mem (show (c, p) ∈ t0.leaves from hleaf)

theorem WF.root_node {ext : Externals AABB F Ray Hit} {s : BVTree AABB} (h : WF ext s)
    {r : NodePtr} (hr : s.root = some r) : ∃ n, s.mem r = some n ∧ n.parent = none := by
  obtain ⟨t, hinv, _⟩ := h
  rw [hinv.root_eq] at hr
  cases t with
  | none => simp at hr
  | some t0 =>
    simp only [Option.map_some', Option.some.injEq] at hr
    rw [← hr]
    exact (hinv.rep t0 rfl).top

end HeapView

end Isetta


namespace Isetta

section Pairs

variable {AABB F Ray Hit : Type}

/-! ## The pair set -/

theorem mem_pairInsert {set : List (Collider × Option Collider)} {x y : Collider × Option Collider}
    (h : x ∈ pairInsert set y) : x ∈ set ∨ x = y := by
  unfold pairInsert at h
  split at h
  · exact Or.inl h
  · simpa using h

theorem subset_pairInsert {set : List (Collider × Option Collider)}
    {x : Collider × Option Collider} (y : Collider × Option Collider) (h : x ∈ set) :
    x ∈ pairInsert set y := by
  unfold pairInsert
  split
  · exact h
  · exact List.mem_append_left _ h

theorem pairInsert_has (set : List (Collider × Option Collider))
    (y : Collider × Option Collider) : ∃ z ∈ pairInsert set y, pairEq z y = true := by
  unfold pairInsert
  split
  · rename_i h
    obtain ⟨z, hz, hzy⟩ := List.any_eq_true.1 h
    exact ⟨z, hz, hzy⟩
  · exact ⟨y, by simp, by simp [pairEq]⟩

theorem forestHit_append (ext : Externals AABB F Ray Hit) (mem : NodePtr → Option (Node AABB))
    (box : AABB) (ts us : List Shape) :
    forestHit ext mem box (ts ++ us) = forestHit ext mem box ts ++ forestHit ext mem box us := by
  induction ts with
  | nil => rfl
  | cons t ts ih => simp [forestHit, ih]

/-- The inner loop of `GetCollisionPairs`: it completes, adds only pairs of
the queried collider with a different collider of a reached leaf, keeps what
the set held, and holds a pair for every such leaf. -/
theorem walk_spec (ext : Externals AABB F Ray Hit) (mem : NodePtr → Option (Node AABB))
    (cur : Collider) (box : AABB) (k : Nat) :
    ∀ (ts : List Shape) (set : List (Collider × Option Collider)) (fuel : Nat),
      forestSize ts ≤ k → k ≤ fuel → (∀ t ∈ ts, ∃ par, Rep mem par t) →
      ∃ set1, GetCollisionPairs.walk ext mem cur box fuel (ts.map Shape.ptr) set = .ok set1 ∧
        (∀ x ∈ set1, x ∈ set ∨ ∃ e ∈ forestHit ext mem box ts, e.1 ≠ cur ∧ x = (cur, some e.1)) ∧
        (∀ x ∈ set, x ∈ set1) ∧
        (∀ e ∈ forestHit ext mem box ts, e.1 ≠ cur →
          ∃ y ∈ set1, pairEq y (cur, some e.1) = true) := by
  induction k with
  | zero =>
    intro ts set fuel hk _ _
    cases ts with
    | nil =>
      exact ⟨set, by simp [GetCollisionPairs.walk], fun x hx => Or.inl hx, fun x hx => hx,
        fun e he => by simp [forestHit] at he⟩
    | cons t ts =>
      have := t.ptrs_length_pos
      simp only [forestSize] at hk
      omega
  | succ k ih =>
    intro ts set fuel hk hfuel hrep
    cases ts with
    | nil =>
      exact ⟨set, by simp [GetCollisionPairs.walk], fun x hx => Or.inl hx, fun x hx => hx,
        fun e he => by simp [forestHit] at he⟩
    | cons t ts =>
      cases fuel with
      | zero => omega
      | succ fuel =>
        obtain ⟨par, hr⟩ := hrep t (by simp)
        have hrest : ∀ u ∈ ts, ∃ par, Rep mem par u := fun u hu => hrep u (by simp [hu])
        cases t with
        | leaf p c =>
          obtain ⟨n, hn, _, hl, hr2, hc⟩ := hr
          simp only [forestSize, Shape.ptrs, List.length_singleton] at hk
          by_cases hcc : cur = c
          · obtain ⟨set1, h1, h2, h3, h4⟩ := ih ts set fuel (by omega) (by omega) hrest
            refine ⟨set1, ?_, ?_, h3, ?_⟩
            · rw [← h1]
              simp [GetCollisionPairs.walk, hn, hl, hr2, Node.IsLeaf, hc, hcc]
            · intro x hx
              rcases h2 x hx with h | ⟨e, he, h5, h6⟩
              · exact Or.inl h
              · exact Or.inr ⟨e, by simp [forestHit, he], h5, h6⟩
            · intro e he hne
              simp only [forestHit, hitLeaves, List.singleton_append, List.mem_cons] at he
              rcases he with rfl | he
              · exact absurd hcc.symm hne
              · exact h4 e he hne
          · obtain ⟨set1, h1, h2, h3, h4⟩ :=
              ih ts (pairInsert set (cur, some c)) fuel (by omega) (by omega) hrest
            refine ⟨set1, ?_, ?_, fun x hx => h3 x (subset_pairInsert _ hx), ?_⟩
            · simp [GetCollisionPairs.walk, hn, hl, hr2, Node.IsLeaf, hc, hcc, h1]
            · intro x hx
              rcases h2 x hx with h | ⟨e, he, h5, h6⟩
              · rcases mem_pairInsert h with h | h
                · exact Or.inl h
                · exact Or.inr ⟨(c, p), by simp [forestHit, hitLeaves], Ne.symm hcc, h⟩
              · exact Or.inr ⟨e, by simp [forestHit, he], h5, h6⟩
            · intro e he hne
              simp only [forestHit, hitLeaves, List.singleton_append, List.mem_cons] at he
              rcases he with rfl | he
              · obtain ⟨z, hz, hzy⟩ := pairInsert_has set (cur, some c)
                exact ⟨z, h3 z hz, hzy⟩
              · exact h4 e he hne
        | branch p l r =>
          obtain ⟨⟨n, hn, _, hl, hr2, hc⟩, hrl, hrr⟩ := hr
          simp only [forestSize, Shape.ptrs, List.length_cons, List.length_append] at hk
          obtain ⟨ln, hln, _⟩ := hrl.top
          obtain ⟨rn, hrn, _⟩ := hrr.top
          obtain ⟨set1, h1, h2, h3, h4⟩ := ih
            (ts ++ ((if boxHits ext mem box l.ptr then [l] else []) ++
              (if boxHits ext mem box r.ptr then [r] else []))) set fuel
            (by
              simp only [forestSize_append]
              have e1 : forestSize (if boxHits ext mem box l.ptr then [l] else []) ≤
                  l.ptrs.length := by split <;> simp [forestSize]
              have e2 : forestSize (if boxHits ext mem box r.ptr then [r] else []) ≤
                  r.ptrs.length := by split <;> simp [forestSize]
              omega) (by omega)
            (by
              intro u hu
              simp only [List.mem_append] at hu
              rcases hu with hu | hu | hu
              · exact hrest u hu
              · split at hu
                · simp only [List.mem_singleton] at hu; exact ⟨_, hu ▸ hrl⟩
                · simp at hu
              · split at hu
                · simp only [List.mem_singleton] at hu; exact ⟨_, hu ▸ hrr⟩
                · simp at hu)
          have hfh : ∀ e, e ∈ forestHit ext mem box (ts ++
              ((if boxHits ext mem box l.ptr then [l] else []) ++
              (if boxHits ext mem box r.ptr then [r] else []))) ↔
              e ∈ forestHit ext mem box (Shape.branch p l r :: ts) := by
            intro e
            simp only [forestHit_append, forestHit, hitLeaves, List.mem_append]
            by_cases e1 : boxHits ext mem box l.ptr = true <;>
              by_cases e2 : boxHits ext mem box r.ptr = true <;>
              simp [e1, e2, forestHit] <;> tauto
          refine ⟨set1, ?_, ?_, h3, ?_⟩
          · rw [← h1]
            simp only [List.map_cons, Shape.ptr_branch, GetCollisionPairs.walk, hn, Node.IsLeaf,
              hl, hr2, Option.isNone_some, Bool.and_self, Bool.false_eq_true, if_false, deref,
              hln, hrn, Option.toList_some, List.map_append]
            simp only [boxHits, hln, hrn]
            by_cases e1 : ext.Intersect ln.aabb box = true <;>
              by_cases e2 : ext.Intersect rn.aabb box = true <;>
              simp [e1, e2]
          · intro x hx
            rcases h2 x hx with h | ⟨e, he, h5, h6⟩
            · exact Or.inl h
            · exact Or.inr ⟨e, (hfh e).1 he, h5, h6⟩
          · intro e he hne
            exact h4 e ((hfh e).2 he) hne

/-- The outer loop of `GetCollisionPairs` over the entries of the index. -/
theorem each_spec (ext : Externals AABB F Ray Hit) (env : ColliderEnv AABB F Ray Hit)
    (mem : NodePtr → Option (Node AABB)) {t : Option Shape}
    (hrep : ∀ t0, t = some t0 → Rep mem none t0) {fuel : Nat}
    (hf : (ptrsOf t).length ≤ fuel) :
    ∀ (m : List (Collider × NodePtr)) (set : List (Collider × Option Collider)),
      ∃ set1, GetCollisionPairs.each ext env fuel mem (t.map Shape.ptr) m set = .ok set1 ∧
        (∀ x ∈ set1, x ∈ set ∨ ∃ a ∈ m, env.IsStatic a.1 = false ∧
          ∃ e ∈ forestHit ext mem (env.GetFatAABB a.1) t.toList,
            e.1 ≠ a.1 ∧ x = (a.1, some e.1)) ∧
        (∀ x ∈ set, x ∈ set1) ∧
        (∀ a ∈ m, env.IsStatic a.1 = false →
          ∀ e ∈ forestHit ext mem (env.GetFatAABB a.1) t.toList, e.1 ≠ a.1 →
            ∃ y ∈ set1, pairEq y (a.1, some e.1) = true) := by
  have hq : (t.map Shape.ptr).toList = t.toList.map Shape.ptr := by cases t <;> rfl
  have hfs : forestSize t.toList = (ptrsOf t).length := by
    cases t <;> simp [forestSize, ptrsOf]
  have hreps : ∀ u ∈ t.toList, ∃ par, Rep mem par u := by
    intro u hu
    simp only [Option.mem_toList, Option.mem_def] at hu
    exact ⟨none, hrep u hu⟩
  intro m
  induction m with
  | nil =>
    intro set
    exact ⟨set, rfl, fun x hx => Or.inl hx, fun x hx => hx, fun a ha => by simp at ha⟩
  | cons a m ih =>
    intro set
    by_cases hst : env.IsStatic a.1 = true
    · obtain ⟨set1, h1, h2, h3, h4⟩ := ih set
      refine ⟨set1, by simp [GetCollisionPairs.each, hst, h1], ?_, h3, ?_⟩
      · intro x hx
        rcases h2 x hx with h | ⟨b, hb, h5⟩
        · exact Or.inl h
        · exact Or.inr ⟨b, by simp [hb], h5⟩
      · intro b hb hbs
        rcases List.mem_cons.1 hb with rfl | hb
        · rw [hst] at hbs; cases hbs
        · exact h4 b hb hbs
    · obtain ⟨setw, w1, w2, w3, w4⟩ := walk_spec ext mem a.1 (env.GetFatAABB a.1)
        (forestSize t.toList) t.toList set fuel (le_refl _) (by rw [hfs]; exact hf) hreps
      obtain ⟨set1, h1, h2, h3, h4⟩ := ih setw
      refine ⟨set1, ?_, ?_, fun x hx => h3 x (w3 x hx), ?_⟩
      · simp only [GetCollisionPairs.each, hst, Bool.false_eq_true, if_false, hq, w1, h1]
      · intro x hx
        rcases h2 x hx with h | ⟨b, hb, h5⟩
        · rcases w2 x h with h | ⟨e, he, h6, h7⟩
          · exact Or.inl h
          · exact Or.inr ⟨a, by simp, by simpa using hst, e, he, h6, h7⟩
        · exact Or.inr ⟨b, by simp [hb], h5⟩
      · intro b hb hbs e he hne
        rcases List.mem_cons.1 hb with rfl | hb
        · obtain ⟨y, hy, hye⟩ := w4 e he hne
          exact ⟨y, h3 y hy, hye⟩
        · exact h4 b hb hbs e he hne

/-- A leaf the pruned walk reaches is the top of the walked shape or stores a
box that intersects the query box. -/
theorem hitLeaves_sound (ext : Externals AABB F Ray Hit) (mem : NodePtr → Option (Node AABB))
    (box : AABB) {t : Shape} {e : Collider × NodePtr} (h : e ∈ hitLeaves ext mem box t) :
    e ∈ t.leaves ∧ (t = .leaf e.2 e.1 ∨ boxHits ext mem box e.2 = true) := by
  induction t with
  | leaf p c =>
    simp only [hitLeaves, List.mem_singleton] at h
    subst h
    exact ⟨by simp [Shape.leaves], Or.inl rfl⟩
  | branch p l r ihl ihr =>
    simp only [hitLeaves, List.mem_append] at h
    rcases h with h | h
    · split at h
      · rename_i hb
        obtain ⟨h1, h2⟩ := ihl h
        refine ⟨by simp [Shape.leaves, h1], Or.inr ?_⟩
        rcases h2 with h2 | h2
        · rw [h2] at hb; exact hb
        · exact h2
      · simp at h
    · split at h
      · rename_i hb
        obtain ⟨h1, h2⟩ := ihr h
        refine ⟨by simp [Shape.leaves, h1], Or.inr ?_⟩
        rcases h2 with h2 | h2
        · rw [h2] at hb; exact hb
        · exact h2
      · simp at h

/-- When intersection is monotone under `Encapsulate`, a box that intersects
the box of a leaf intersects the box at the top of every boxed shape that
holds the leaf. -/
theorem top_hits (ext : Externals AABB F Ray Hit) {mem : NodePtr → Option (Node AABB)}
    (box : AABB)
    (hmonoL : ∀ a b, ext.Intersect a box = true → ext.Intersect (ext.Encapsulate a b) box = true)
    (hmonoR : ∀ a b, ext.Intersect b box = true → ext.Intersect (ext.Encapsulate a b) box = true)
    {t : Shape} (hb : Boxed ext mem t) {e : Collider × NodePtr} (he : e ∈ t.leaves)
    (hhit : boxHits ext mem box e.2 = true) : boxHits ext mem box t.ptr = true := by
  induction t with
  | leaf p c =>
    simp only [Shape.leaves, List.mem_singleton] at he
    subst he; exact hhit
  | branch p l r ihl ihr =>
    obtain ⟨⟨n, ln, rn, e1, e2, e3, e4⟩, hbl, hbr⟩ := hb
    simp only [Shape.leaves, List.mem_append] at he
    simp only [Shape.ptr_branch, boxHits, e1, e4]
    rcases he with he | he
    · have := ihl hbl he
      simp only [boxHits, e2] at this
      exact hmonoL _ _ this
    · have := ihr hbr he
      simp only [boxHits, e3] at this
      exact hmonoR _ _ this

theorem hitLeaves_complete (ext : Externals AABB F Ray Hit) {mem : NodePtr → Option (Node AABB)}
    (box : AABB)
    (hmonoL : ∀ a b, ext.Intersect a box = true → ext.Intersect (ext.Encapsulate a b) box = true)
    (hmonoR : ∀ a b, ext.Intersect b box = true → ext.Intersect (ext.Encapsulate a b) box = true)
    {t : Shape} (hb : Boxed ext mem t) {e : Collider × NodePtr} (he : e ∈ t.leaves)
    (hhit : boxHits ext mem box e.2 = true) : e ∈ hitLeaves ext mem box t := by
  induction t with
  | leaf p c =>
    simp only [Shape.leaves, List.mem_singleton] at he
    simp [hitLeaves, he]
  | branch p l r ihl ihr =>
    obtain ⟨_, hbl, hbr⟩ := hb
    simp only [Shape.leaves, List.mem_append] at he
    simp only [hitLeaves, List.mem_append]
    rcases he with he | he
    · left
      rw [if_pos (top_hits ext box hmonoL hmonoR hbl he hhit)]
      exact ihl hbl he
    · right
      rw [if_pos (top_hits ext box hmonoL hmonoR hbr he hhit)]
      exact ihr hbr he

/-- Call of `GetCollisionPairs` on a well-formed state, with fuel for every node. -/
theorem GetCollisionPairs_spec (ext : Externals AABB F Ray Hit)
    (env : ColliderEnv AABB F Ray Hit) {s : BVTree AABB} (hwf : WF ext s) {fuel : Nat}
    (hf : s.brk ≤ fuel) :
    ∃ set1, GetCollisionPairs ext env fuel s = .ok { s with colliderPairSet := set1 } ∧
      (∀ x ∈ set1, ∃ B pA pB nB, x.2 = some B ∧ (x.1, pA) ∈ s.colNodeMap ∧
        (B, pB) ∈ s.colNodeMap ∧ s.mem pB = some nB ∧
        ext.Intersect nB.aabb (env.GetFatAABB x.1) = true ∧ x.1 ≠ B ∧
        env.IsStatic x.1 = false) ∧
      ((∀ a b x, ext.Intersect a x = true → ext.Intersect (ext.Encapsulate a b) x = true) →
       (∀ a b x, ext.Intersect b x = true → ext.Intersect (ext.Encapsulate a b) x = true) →
       ∀ A pA B pB nB, (A, pA) ∈ s.colNodeMap → env.IsStatic A = false →
        (B, pB) ∈ s.colNodeMap → B ≠ A → s.mem pB = some nB →
        ext.Intersect nB.aabb (env.GetFatAABB A) = true →
        ∃ y ∈ set1, pairEq y (A, some B) = true) := by
  obtain ⟨t, hinv, hidx⟩ := hwf
  obtain ⟨set1, h1, h2, _, h4⟩ := each_spec ext env s.mem hinv.rep
    (le_trans hinv.size_le_brk hf) s.colNodeMap []
  have hfh : ∀ box, forestHit ext s.mem box t.toList =
      (match t with
        | some t0 => hitLeaves ext s.mem box t0
        | none => []) := by
    intro box; cases t <;> simp [forestHit]
  refine ⟨set1, ?_, ?_, ?_⟩
  · simp only [GetCollisionPairs, hinv.root_eq, h1]
  · intro x hx
    rcases h2 x hx with h | ⟨a, ha, hst, e, he, hne, hxe⟩
    · simp at h
    · rw [hfh] at he
      cases t with
      | none => simp at he
      | some t0 =>
        simp only at he
        obtain ⟨g1, g2⟩ := hitLeaves_sound ext s.mem _ he
        have hin : e ∈ s.colNodeMap := (hidx.entries e).2 (Or.inl g1)
        have hkey : x.1 = a.1 := by rw [hxe]
        rcases g2 with g2 | g2
        · -- the tree is the single leaf `e`, so the queried key is its collider
          exfalso
          have ha1 : a ∈ t0.leaves := by simpa [leavesOf] using (hidx.entries a).1 ha
          rw [g2] at ha1
          simp only [Shape.leaves, List.mem_singleton] at ha1
          exact hne (by rw [ha1])
        · simp only [boxHits] at g2
          cases hm : s.mem e.2 with
          | none => simp [hm] at g2
          | some nB =>
            simp only [hm] at g2
            refine ⟨e.1, a.2, e.2, nB, by rw [hxe], by rw [hkey]; exact ha, hin, hm,
              by rw [hkey]; exact g2, by rw [hkey]; exact Ne.symm hne, by rw [hkey]; exact hst⟩
  · intro hmL hmR A pA B pB nB hA hst hB hne hm hint
    have hleaf : (B, pB) ∈ leavesOf t := by simpa using (hidx.entries _).1 hB
    cases t with
    | none => simp [leavesOf] at hleaf
    | some t0 =>
      have hhit : (B, pB) ∈ hitLeaves ext s.mem (env.GetFatAABB A) t0 :=
        hitLeaves_complete ext _ (fun a b => hmL a b _) (fun a b => hmR a b _)
          (hinv.boxed t0 rfl) hleaf (by simp [boxHits, hm, hint])
      exact h4 (A, pA) hA hst (B, pB) (by rw [hfh]; exact hhit) hne

end Pairs

end Isetta


namespace Isetta

section Rays

variable {AABB F Ray Hit : Type}

/-! ## `Raycast` -/

/-- The first exact hit among the leaves the ray comes to. -/
theorem RaycastNode_spec (ext : Externals AABB F Ray Hit) (env : ColliderEnv AABB F Ray Hit)
    {mem : NodePtr → Option (Node AABB)} (ray : Ray) (maxD : F) (hitInfo : Hit)
    {t : Shape} {par : Option NodePtr} (hr : Rep mem par t)
    (hbig : ∀ e ∈ t.leaves, ∀ hit, env.Raycast e.1 ray maxD = some hit →
      ext.flt (ext.GetDistance hit) (ext.GetDistance hitInfo) = true)
    {fuel : Nat} (hf : t.ptrs.length ≤ fuel) :
    RaycastNode ext env mem ray maxD fuel (some t.ptr) hitInfo =
      .ok (match (survivors ext mem ray maxD t).findSome? (fun e => env.Raycast e.1 ray maxD) with
        | some h => (true, h)
        | none => (false, hitInfo)) := by
  induction t generalizing par fuel with
  | leaf p c =>
    obtain ⟨n, hn, _, hl, hr2, hc⟩ := hr
    cases fuel with
    | zero => simp [Shape.ptrs] at hf
    | succ k =>
      by_cases hh : ext.RaycastAABB n.aabb ray maxD = true
      · cases hx : env.Raycast c ray maxD with
        | none =>
          simp [RaycastNode, hn, hh, Node.IsLeaf, hl, hr2, hc, hx, survivors, rayHits]
        | some hit =>
          simp [RaycastNode, hn, hh, Node.IsLeaf, hl, hr2, hc, hx, survivors, rayHits,
            hbig (c, p) (by simp [Shape.leaves]) hit hx]
      · simp [RaycastNode, hn, hh, survivors, rayHits]
  | branch p l r ihl ihr =>
    obtain ⟨⟨n, hn, _, hl, hr2, hc⟩, hrl, hrr⟩ := hr
    cases fuel with
    | zero => simp [Shape.ptrs] at hf
    | succ k =>
      simp only [Shape.ptrs, List.length_cons, List.length_append] at hf
      by_cases hh : ext.RaycastAABB n.aabb ray maxD = true
      · have e1 := ihl hrl (fun e he => hbig e (by simp [Shape.leaves, he]))
          (show l.ptrs.length ≤ k by omega)
        have e2 := ihr hrr (fun e he => hbig e (by simp [Shape.leaves, he]))
          (show r.ptrs.length ≤ k by omega)
        simp only [Shape.ptr_branch, RaycastNode, hn, hh, Bool.not_true, Bool.false_eq_true,
          if_false, Node.IsLeaf, hl, hr2, Option.isNone_some, Bool.and_self, e1, survivors,
          rayHits, if_true, List.findSome?_append]
        cases hx : List.findSome? (fun e => env.Raycast e.1 ray maxD)
            (survivors ext mem ray maxD l) with
        | some h => simp
        | none => simp [e2]
      · simp [RaycastNode, hn, hh, survivors, rayHits]

theorem survivors_visited (ext : Externals AABB F Ray Hit) {s : BVTree AABB} (ray : Ray)
    (maxD : F) {t : Shape} {par : Option NodePtr} (hr : Rep s.mem par t)
    (htop : rayHits ext s.mem ray maxD t.ptr = true → RayVisits ext s ray maxD t.ptr)
    {e : Collider × NodePtr} (he : e ∈ survivors ext s.mem ray maxD t) :
    RayVisits ext s ray maxD e.2 ∧ e ∈ t.leaves := by
  induction t generalizing par with
  | leaf p c =>
    simp only [survivors] at he
    split at he
    · rename_i hh
      simp only [List.mem_singleton] at he
      subst he
      exact ⟨htop hh, by simp [Shape.leaves]⟩
    · simp at he
  | branch p l r ihl ihr =>
    obtain ⟨⟨n, hn, _, hl, hr2, hc⟩, hrl, hrr⟩ := hr
    simp only [survivors] at he
    split at he
    · rename_i hh
      have hv := htop hh
      simp only [List.mem_append] at he
      rcases he with he | he
      · obtain ⟨g1, g2⟩ := ihl hrl (fun h => by
          simp only [rayHits] at h
          cases hm : s.mem l.ptr with
          | none => simp [hm] at h
          | some ln => rw [hm] at h; exact RayVisits.left hv hn hl hm h) he
        exact ⟨g1, by simp [Shape.leaves, g2]⟩
      · obtain ⟨g1, g2⟩ := ihr hrr (fun h => by
          simp only [rayHits] at h
          cases hm : s.mem r.ptr with
          | none => simp [hm] at h
          | some rn => rw [hm] at h; exact RayVisits.right hv hn hr2 hm h) he
        exact ⟨g1, by simp [Shape.leaves, g2]⟩
    · simp at he

theorem visited_top (ext : Externals AABB F Ray Hit) (mem : NodePtr → Option (Node AABB))
    (ray : Ray) (maxD : F) (t : Shape) (h : rayHits ext mem ray maxD t.ptr = true) :
    t.ptr ∈ visited ext mem ray maxD t := by
  cases t with
  | leaf p c => simp only [Shape.ptr_leaf] at h; simp [visited, h]
  | branch p l r => simp only [Shape.ptr_branch] at h; simp [visited, h]

theorem visited_child (ext : Externals AABB F Ray Hit) {mem : NodePtr → Option (Node AABB)}
    (ray : Ray) (maxD : F) {t : Shape} {par : Option NodePtr} (hr : Rep mem par t)
    {q p : NodePtr} {qn : Node AABB} (hq : q ∈ visited ext mem ray maxD t)
    (hqn : mem q = some qn) (hchild : qn.left = some p ∨ qn.right = some p)
    (hp : rayHits ext mem ray maxD p = true) : p ∈ visited ext mem ray maxD t := by
  induction t generalizing par with
  | leaf a c =>
    obtain ⟨n, hn, _, hl, hr2, _⟩ := hr
    simp only [visited] at hq
    split at hq
    · simp only [List.mem_singleton] at hq
      subst hq
      rw [hn] at hqn
      obtain rfl := Option.some.inj hqn
      rcases hchild with h | h
      · rw [hl] at h; cases h
      · rw [hr2] at h; cases h
    · simp at hq
  | branch a l r ihl ihr =>
    obtain ⟨⟨n, hn, _, hl, hr2, _⟩, hrl, hrr⟩ := hr
    simp only [visited] at hq ⊢
    split at hq
    · rename_i hh
      rw [if_pos hh]
      simp only [List.mem_cons, List.mem_append] at hq ⊢
      rcases hq with rfl | hq | hq
      · rw [hn] at hqn
        obtain rfl := Option.some.inj hqn
        rcases hchild with h | h
        · rw [hl] at h
          obtain rfl := Option.some.inj h
          exact Or.inr (Or.inl (visited_top ext mem ray maxD l hp))
        · rw [hr2] at h
          obtain rfl := Option.some.inj h
          exact Or.inr (Or.inr (visited_top ext mem ray maxD r hp))
      · exact Or.inr (Or.inl (ihl hrl hq))
      · exact Or.inr (Or.inr (ihr hrr hq))
    · simp at hq

theorem visited_leaf (ext : Externals AABB F Ray Hit) {mem : NodePtr → Option (Node AABB)}
    (ray : Ray) (maxD : F) {t : Shape} {par : Option NodePtr} (hr : Rep mem par t)
    {p : NodePtr} {n : Node AABB} {c : Collider} (hp : p ∈ visited ext mem ray maxD t)
    (hn : mem p = some n) (hl : n.IsLeaf = true) (hc : n.collider = some c) :
    (c, p) ∈ survivors ext mem ray maxD t := by
  induction t generalizing par with
  | leaf a c1 =>
    obtain ⟨m, hm, _, _, _, hmc⟩ := hr
    simp only [visited] at hp
    simp only [survivors]
    split at hp
    · rename_i hh
      simp only [List.mem_singleton] at hp
      subst hp
      rw [hn] at hm
      obtain rfl := Option.some.inj hm
      rw [hc] at hmc
      obtain rfl := Option.some.inj hmc
      simp [hh]
    · simp at hp
  | branch a l r ihl ihr =>
    obtain ⟨⟨m, hm, _, hml, _, _⟩, hrl, hrr⟩ := hr
    simp only [visited] at hp
    simp only [survivors]
    split at hp
    · rename_i hh
      rw [if_pos hh]
      simp only [List.mem_cons, List.mem_append] at hp ⊢
      rcases hp with rfl | hp | hp
      · rw [hn] at hm
        obtain rfl := Option.some.inj hm
        simp [Node.IsLeaf, hml] at hl
      · exact Or.inl (ihl hrl hp)
      · exact Or.inr (ihr hrr hp)
    · simp at hp

theorem RayVisits.mem_visited {ext : Externals AABB F Ray Hit} {s : BVTree AABB} {ray : Ray}
    {maxD : F} {t0 : Shape} (hr : Rep s.mem none t0) (hroot : s.root = some t0.ptr)
    {p : NodePtr} (h : RayVisits ext s ray maxD p) : p ∈ visited ext s.mem ray maxD t0 := by
  induction h with
  | root h1 h2 h3 =>
    rw [hroot] at h1
    obtain rfl := Option.some.inj h1
    exact visited_top ext s.mem ray maxD t0 (by simp [rayHits, h2, h3])
  | left _ hqn hl hn hh ih =>
    exact visited_child ext ray maxD hr ih hqn (Or.inl hl) (by simp [rayHits, hn, hh])
  | right _ hqn hl hn hh ih =>
    exact visited_child ext ray maxD hr ih hqn (Or.inr hl) (by simp [rayHits, hn, hh])

/-- Call of `Raycast` on a well-formed state, with fuel for every node and an initial
`hitInfo` farther than every hit a collider of the tree reports. -/
theorem Raycast_spec (ext : Externals AABB F Ray Hit) (env : ColliderEnv AABB F Ray Hit)
    {s : BVTree AABB} (hwf : WF ext s) (ray : Ray) (hitInfo : Hit) (maxD : F)
    (hbig : ∀ c p hit, LeafAt s c p → env.Raycast c ray maxD = some hit →
      ext.flt (ext.GetDistance hit) (ext.GetDistance hitInfo) = true)
    {fuel : Nat} (hf : s.brk < fuel) :
    ∃ r, Raycast ext env fuel s ray hitInfo maxD = .ok r ∧
      (r.1 = true ↔ ∃ p n c hit, RayVisits ext s ray maxD p ∧ s.mem p = some n ∧
        n.IsLeaf = true ∧ n.collider = some c ∧ env.Raycast c ray maxD = some hit) ∧
      (r.1 = false → r.2 = hitInfo) := by
  obtain ⟨t, hinv, hidx⟩ := id hwf
  cases t with
  | none =>
    have hroot : s.root = none := by simpa using hinv.root_eq
    cases fuel with
    | zero => omega
    | succ k =>
      refine ⟨(false, hitInfo), by simp [Raycast, hroot, RaycastNode], ?_, fun _ => rfl⟩
      simp only [Bool.false_eq_true, false_iff, not_exists, not_and]
      intro p n c hit hv
      cases hv with
      | root h1 _ _ => rw [hroot] at h1; cases h1
      | left hq hqn _ _ _ =>
        have := hinv.live _ _ hqn
        simp [ptrsOf] at this
      | right hq hqn _ _ _ =>
        have := hinv.live _ _ hqn
        simp [ptrsOf] at this
  | some t0 =>
    have hroot : s.root = some t0.ptr := by simpa using hinv.root_eq
    have hrep := hinv.rep t0 rfl
    have hlen : t0.ptrs.length ≤ fuel := le_trans hinv.size_le_brk (le_of_lt hf)
    have hbig1 : ∀ e ∈ t0.leaves, ∀ hit, env.Raycast e.1 ray maxD = some hit →
        ext.flt (ext.GetDistance hit) (ext.GetDistance hitInfo) = true := by
      intro e he hit hh
      exact hbig e.1 e.2 hit
        ((hwf.leafAt_iff e.1 e.2).2 ((hidx.entries e).2 (Or.inl he))) hh
    have hrun := RaycastNode_spec ext env ray maxD hitInfo hrep hbig1 hlen
    refine ⟨_, by rw [Raycast, hroot]; exact hrun, ?_, ?_⟩
    · constructor
      · intro h
        cases hx : List.findSome? (fun e => env.Raycast e.1 ray maxD)
            (survivors ext s.mem ray maxD t0) with
        | none => simp [hx] at h
        | some hit =>
          obtain ⟨e, he, hhit⟩ := List.exists_of_findSome?_eq_some hx
          obtain ⟨g1, g2⟩ := survivors_visited ext ray maxD hrep (fun hh => by
            simp only [rayHits] at hh
            cases hm : s.mem t0.ptr with
            | none => simp [hm] at hh
            | some n => rw [hm] at hh; exact RayVisits.root hroot hm hh) he
          obtain ⟨n, hn, hl, hr2, hc⟩ := hinv.leaf_node (t := some t0) g2
          exact ⟨e.2, n, e.1, hit, g1, hn, by simp [Node.IsLeaf, hl, hr2], hc, hhit⟩
      · rintro ⟨p, n, c, hit, hv, hn, hl, hc, hhit⟩
        have hmem := visited_leaf ext ray maxD hrep (hv.mem_visited hrep hroot) hn hl hc
        cases hx : List.findSome? (fun e => env.Raycast e.1 ray maxD)
            (survivors ext s.mem ray maxD t0) with
        | none =>
          rw [List.findSome?_eq_none_iff] at hx
          have := hx (c, p) hmem
          simp [hhit] at this
        | some h => simp
    · intro h
      cases hx : List.findSome? (fun e => env.Raycast e.1 ray maxD)
          (survivors ext s.mem ray maxD t0) with
      | none => simp
      | some hit => simp [hx] at h

end Rays

end Isetta


namespace Isetta

section Claims

variable {AABB F Ray Hit : Type}

/-! ## Concrete runs -/

theorem line1_run : AddCollider lineExt lineEnv 0 (BVTree.empty Interval) 0 = .ok line1 := rfl

theorem line2_run : AddCollider lineExt lineEnv 1 line1 1 = .ok line2 := rfl

theorem line3_run : AddCollider lineExt lineEnv 3 line2 2 = .ok line3 := rfl

theorem line2_reachable : Reachable lineExt [1, 0] line2 :=
  Reachable.add lineEnv 1 1 (Reachable.add lineEnv 0 0 Reachable.empty (by decide) line1_run)
    (by decide) line2_run

theorem line3_reachable : Reachable lineExt [2, 1, 0] line3 :=
  Reachable.add lineEnv 3 2 line2_reachable (by decide) line3_run

theorem line3_wf : WF lineExt line3 := line3_reachable.wf.1

theorem near3_reachable : Reachable lineExt [2, 1, 0] near3 :=
  Reachable.add lineNear 3 2
    (Reachable.add lineNear 1 1 (Reachable.add lineNear 0 0 Reachable.empty (by decide) rfl)
      (by decide) rfl)
    (by decide) rfl

theorem near3_wf : WF lineExt near3 := near3_reachable.wf.1

theorem near3_leafAt {c p : Nat} (h : (c, p) ∈ [((0 : Nat), (0 : Nat)), (1, 1), (2, 3)]) :
    LeafAt near3 c p :=
  (near3_wf.leafAt_iff c p).2 h

theorem lineExt_monoL (a b x : Interval) (h : lineExt.Intersect a x = true) :
    lineExt.Intersect (lineExt.Encapsulate a b) x = true := by
  simp only [lineExt, Bool.and_eq_true, decide_eq_true_eq] at h ⊢
  omega

theorem lineExt_monoR (a b x : Interval) (h : lineExt.Intersect b x = true) :
    lineExt.Intersect (lineExt.Encapsulate a b) x = true := by
  simp only [lineExt, Bool.and_eq_true, decide_eq_true_eq] at h ⊢
  omega

theorem lineEnv_hits_near (c : Nat) (hit : Nat) (h : lineEnv.Raycast c 0 100 = some hit) :
    lineExt.flt (lineExt.GetDistance hit) (lineExt.GetDistance 1000) = true := by
  simp only [lineEnv] at h
  split at h
  · rename_i hc
    simp only [Option.some.injEq] at h
    simp only [lineExt, decide_eq_true_eq]
    omega
  · cases h

/-! ## The claims -/

/-- C1 (containment invariant): in every state reached from the empty tree by
completed `AddCollider`, `RemoveCollider` and `Update` calls that respect
their preconditions, every node the heap holds that is not a leaf has two
children, and its stored box is `AABB::Encapsulate` of the boxes stored at its
left and right child. -/
theorem containment_invariant (ext : Externals AABB F Ray Hit) {A : List Collider}
    {s : BVTree AABB} (h : Reachable ext A s) :
    ∀ p n, s.mem p = some n → n.IsLeaf = false →
      ∃ l r ln rn, n.left = some l ∧ n.right = some r ∧ s.mem l = some ln ∧
        s.mem r = some rn ∧ n.aabb = ext.Encapsulate ln.aabb rn.aabb := by
  intro p n hn hl
  rcases (h.wf.1.node hn).2 with ⟨h1, h2, _⟩ | ⟨l, r, ln, rn, h1, h2, _, h4, h5, _, _, h8⟩
  · simp [Node.IsLeaf, h1, h2] at hl
  · exact ⟨l, r, ln, rn, h1, h2, h4, h5, h8⟩

/-- Witness for C1: the tree built by adding colliders 0, 1 and 2 on a line;
its root, at address 2, stores the union of the boxes of its children. -/
theorem containment_invariant_witness :
    Reachable lineExt [2, 1, 0] line3 ∧
      ∃ l r ln rn, line3.mem 2 = some ⟨none, some l, some r, none, (4, 27)⟩ ∧
        line3.mem l = some ln ∧ line3.mem r = some rn ∧
        ((4, 27) : Interval) = lineExt.Encapsulate ln.aabb rn.aabb := by
  refine ⟨line3_reachable, ?_⟩
  obtain ⟨l, r, ln, rn, h1, h2, h3, h4, h5⟩ :=
    containment_invariant lineExt line3_reachable 2 ⟨none, some 0, some 4, none, (4, 27)⟩ rfl rfl
  simp only [Option.some.injEq] at h1 h2
  subst h1 h2
  exact ⟨0, 4, ln, rn, rfl, h3, h4, h5⟩

/-- C2 (index consistency): in every reachable state the collider index has
one entry per key, its keys are exactly the colliders added and not removed,
and the node of each entry is a leaf reachable from `root` that holds the
key. -/
theorem index_consistency (ext : Externals AABB F Ray Hit) {A : List Collider}
    {s : BVTree AABB} (h : Reachable ext A s) :
    (s.colNodeMap.map Prod.fst).Nodup ∧ (∀ c, c ∈ A ↔ c ∈ s.colNodeMap.map Prod.fst) ∧
      ∀ c p, (c, p) ∈ s.colNodeMap → LeafAt s c p := by
  obtain ⟨hwf, _, hkeys⟩ := h.wf
  obtain ⟨t, hinv, hidx⟩ := id hwf
  refine ⟨hidx.keys, fun c => ?_, fun c p hm => (hwf.leafAt_iff c p).2 hm⟩
  rw [← hkeys c]
  simp only [ne_eq, mapFind_eq_none, not_forall, not_not, List.mem_map, Prod.exists,
    exists_and_right, exists_eq_right]

/-- Witness for C2: the index of the three-collider tree on a line. -/
theorem index_consistency_witness :
    Reachable lineExt [2, 1, 0] line3 ∧ line3.colNodeMap = [(0, 0), (1, 1), (2, 3)] ∧
      LeafAt line3 2 3 :=
  ⟨line3_reachable, rfl,
    (index_consistency lineExt line3_reachable).2.2 2 3 (by decide)⟩

/-- C3 (leaf/branch exclusivity): in every reachable state, every node
reachable from `root` holds a collider exactly when both its children are
null, and no such node has exactly one null child. -/
theorem leaf_branch_exclusivity (ext : Externals AABB F Ray Hit) {A : List Collider}
    {s : BVTree AABB} (h : Reachable ext A s) :
    ∀ p, Linked s p → ∃ n, s.mem p = some n ∧
      (n.collider ≠ none ↔ (n.left = none ∧ n.right = none)) ∧
      ¬ (n.left = none ∧ n.right ≠ none) ∧ ¬ (n.left ≠ none ∧ n.right = none) := by
  intro p hp
  obtain ⟨n, hn⟩ := h.wf.1.linked_live hp
  refine ⟨n, hn, ?_⟩
  rcases (h.wf.1.node hn).2 with ⟨h1, h2, c, h3, _⟩ | ⟨l, r, ln, rn, h1, h2, h3, _⟩
  · simp [h1, h2, h3]
  · simp [h1, h2, h3]

/-- Witness for C3: the right child of the root of the three-collider tree is
reachable and is a branch. -/
theorem leaf_branch_exclusivity_witness :
    Reachable lineExt [2, 1, 0] line3 ∧ Linked line3 4 ∧
      ∃ n, line3.mem 4 = some n ∧ (n.collider ≠ none ↔ (n.left = none ∧ n.right = none)) ∧
        ¬ (n.left = none ∧ n.right ≠ none) ∧ ¬ (n.left ≠ none ∧ n.right = none) :=
  have hl : Linked line3 4 :=
    Linked.right (q := 2) (n := ⟨none, some 0, some 4, none, (4, 27)⟩) (Linked.root rfl) rfl rfl
  ⟨line3_reachable, hl, leaf_branch_exclusivity lineExt line3_reachable 4 hl⟩

/-- C10 (parent/child consistency): in every reachable state the root, if
there is one, has a null `parent`; both children of every branch reachable
from `root` have that branch as `parent`; and a reachable node with a null
`parent` is the root. -/
theorem parent_child_consistency (ext : Externals AABB F Ray Hit) {A : List Collider}
    {s : BVTree AABB} (h : Reachable ext A s) :
    (∀ r, s.root = some r → ∃ n, s.mem r = some n ∧ n.parent = none) ∧
    (∀ b n, Linked s b → s.mem b = some n → n.IsLeaf = false →
      ∃ l r ln rn, n.left = some l ∧ n.right = some r ∧ s.mem l = some ln ∧
        s.mem r = some rn ∧ ln.parent = some b ∧ rn.parent = some b) ∧
    (∀ p n, Linked s p → s.mem p = some n → n.parent = none → s.root = some p) := by
  have hwf := h.wf.1
  refine ⟨fun r hr => hwf.root_node hr, ?_, ?_⟩
  · intro b n _ hn hl
    rcases (hwf.node hn).2 with ⟨h1, h2, _⟩ | ⟨l, r, ln, rn, h1, h2, _, h4, h5, h6, h7, _⟩
    · simp [Node.IsLeaf, h1, h2] at hl
    · exact ⟨l, r, ln, rn, h1, h2, h4, h5, h6, h7⟩
  · intro p n hp hn hpar
    cases hp with
    | root hr => exact hr
    | left hq hqn hl =>
      rename_i q qn
      rcases (hwf.node hqn).2 with ⟨h1, _⟩ | ⟨l, r, ln, rn, h1, _, _, h4, _, h6, _⟩
      · rw [hl] at h1; cases h1
      · rw [hl] at h1
        obtain rfl := Option.some.inj h1
        rw [hn] at h4
        obtain rfl := Option.some.inj h4
        rw [hpar] at h6; cases h6
    | right hq hqn hl =>
      rename_i q qn
      rcases (hwf.node hqn).2 with ⟨_, h1, _⟩ | ⟨l, r, ln, rn, _, h1, _, _, h5, _, h7, _⟩
      · rw [hl] at h1; cases h1
      · rw [hl] at h1
        obtain rfl := Option.some.inj h1
        rw [hn] at h5
        obtain rfl := Option.some.inj h5
        rw [hpar] at h7; cases h7

/-- Witness for C10: in the three-collider tree the root is at address 2 and
has a null `parent`. -/
theorem parent_child_consistency_witness :
    Reachable lineExt [2, 1, 0] line3 ∧ line3.root = some 2 ∧
      ∃ n, line3.mem 2 = some n ∧ n.parent = none :=
  ⟨line3_reachable, rfl, (parent_child_consistency lineExt line3_reachable).1 2 rfl⟩

/-- C4 (pair soundness): on a well-formed state `GetCollisionPairs` completes,
and every pair `(A, B)` of the returned set consists of two different
colliders of the tree, `A` being indexed and not static (so at least one of
the two is not static), such that the box stored in the leaf of `B` intersects
the fat box of `A`. -/
theorem pair_soundness (ext : Externals AABB F Ray Hit) (env : ColliderEnv AABB F Ray Hit)
    {s : BVTree AABB} (hwf : WF ext s) {fuel : Nat} (hf : s.brk ≤ fuel) :
    ∃ s1, GetCollisionPairs ext env fuel s = .ok s1 ∧
      ∀ x ∈ s1.colliderPairSet, ∃ B pA pB nB, x.2 = some B ∧ LeafAt s x.1 pA ∧
        LeafAt s B pB ∧ s.mem pB = some nB ∧
        ext.Intersect nB.aabb (env.GetFatAABB x.1) = true ∧ x.1 ≠ B ∧
        (env.IsStatic x.1 = false ∨ env.IsStatic B = false) := by
  obtain ⟨set1, h1, h2, _⟩ := GetCollisionPairs_spec ext env hwf hf
  refine ⟨_, h1, fun x hx => ?_⟩
  obtain ⟨B, pA, pB, nB, g1, g2, g3, g4, g5, g6, g7⟩ := h2 x hx
  exact ⟨B, pA, pB, nB, g1, (hwf.leafAt_iff _ _).2 g2, (hwf.leafAt_iff _ _).2 g3, g4, g5, g6,
    Or.inl g7⟩

/-- Witness for C4: the tree of colliders 0 (static), 1 and 2 on a line with
fat boxes `[0, 5]`, `[2, 7]` and `[4, 9]`; the returned set holds the three
pairs `(1, 0)`, `(1, 2)` and `(2, 0)`, and each of them is sound. -/
theorem pair_soundness_witness :
    WF lineExt near3 ∧ near3.brk ≤ 5 ∧
      GetCollisionPairs lineExt lineNear 5 near3 = .ok near3Pairs ∧
      near3Pairs.colliderPairSet = [(1, some 0), (1, some 2), (2, some 0)] ∧
      ∀ x ∈ [((1 : Collider), some (0 : Collider)), (1, some 2), (2, some 0)],
        ∃ B pA pB nB, x.2 = some B ∧ LeafAt near3 x.1 pA ∧
          LeafAt near3 B pB ∧ near3.mem pB = some nB ∧
          lineExt.Intersect nB.aabb (lineNear.GetFatAABB x.1) = true ∧ x.1 ≠ B ∧
          (lineNear.IsStatic x.1 = false ∨ lineNear.IsStatic B = false) := by
  obtain ⟨s1, h1, h2⟩ := pair_soundness lineExt lineNear near3_wf
    (show near3.brk ≤ 5 by decide)
  have e : GetCollisionPairs lineExt lineNear 5 near3 = .ok near3Pairs := rfl
  rw [e] at h1
  obtain rfl : near3Pairs = s1 := by injection h1
  exact ⟨near3_wf, by decide, rfl, rfl, h2⟩

/-- C5 (pair completeness): when intersection is monotone under `Encapsulate`
(a box that intersects one operand intersects the union), on a well-formed
state `GetCollisionPairs` completes and, for every indexed collider `A` that
is not static and every other indexed collider `B` whose leaf stores a box
that intersects the fat box of `A`, the returned set holds the unordered pair
of `A` and `B`. -/
theorem pair_completeness (ext : Externals AABB F Ray Hit) (env : ColliderEnv AABB F Ray Hit)
    {s : BVTree AABB} (hwf : WF ext s)
    (hmonoL : ∀ a b x, ext.Intersect a x = true → ext.Intersect (ext.Encapsulate a b) x = true)
    (hmonoR : ∀ a b x, ext.Intersect b x = true → ext.Intersect (ext.Encapsulate a b) x = true)
    {fuel : Nat} (hf : s.brk ≤ fuel) :
    ∃ s1, GetCollisionPairs ext env fuel s = .ok s1 ∧
      ∀ A pA B pB nB, LeafAt s A pA → env.IsStatic A = false → LeafAt s B pB → B ≠ A →
        s.mem pB = some nB → ext.Intersect nB.aabb (env.GetFatAABB A) = true →
        ∃ y ∈ s1.colliderPairSet, pairEq y (A, some B) = true := by
  obtain ⟨set1, h1, _, h3⟩ := GetCollisionPairs_spec ext env hwf hf
  refine ⟨_, h1, fun A pA B pB nB hA hst hB hne hm hint => ?_⟩
  exact h3 hmonoL hmonoR A pA B pB nB ((hwf.leafAt_iff _ _).1 hA) hst
    ((hwf.leafAt_iff _ _).1 hB) hne hm hint

/-- Witness for C5: the tree of colliders 0 (static), 1 and 2 on a line with
fat boxes `[0, 5]`, `[2, 7]` and `[4, 9]`, where intersection of intervals is
monotone under union.  The leaf of collider 0 intersects the fat box of the
moving collider 1, and the leaf of collider 1 that of the moving collider 2:
the returned set holds the pair of 1 and 0, and the unordered pair of 2 and
1 (stored as `(1, 2)`). -/
theorem pair_completeness_witness :
    WF lineExt near3 ∧ near3.brk ≤ 5 ∧
      GetCollisionPairs lineExt lineNear 5 near3 = .ok near3Pairs ∧
      near3Pairs.colliderPairSet = [(1, some 0), (1, some 2), (2, some 0)] ∧
      LeafAt near3 1 1 ∧ lineNear.IsStatic 1 = false ∧ LeafAt near3 0 0 ∧
      near3.mem 0 = some ⟨some 2, none, none, some 0, (0, 5)⟩ ∧
      lineExt.Intersect (0, 5) (lineNear.GetFatAABB 1) = true ∧
      (∃ y ∈ near3Pairs.colliderPairSet, pairEq y (1, some 0) = true) ∧
      LeafAt near3 2 3 ∧ lineNear.IsStatic 2 = false ∧
      near3.mem 1 = some ⟨some 4, none, none, some 1, (2, 7)⟩ ∧
      lineExt.Intersect (2, 7) (lineNear.GetFatAABB 2) = true ∧
      (∃ y ∈ near3Pairs.colliderPairSet, pairEq y (2, some 1) = true) := by
  obtain ⟨s1, h1, h2⟩ := pair_completeness lineExt lineNear near3_wf lineExt_monoL
    lineExt_monoR (show near3.brk ≤ 5 by decide)
  have e : GetCollisionPairs lineExt lineNear 5 near3 = .ok near3Pairs := rfl
  rw [e] at h1
  obtain rfl : near3Pairs = s1 := by injection h1
  have l0 : LeafAt near3 0 0 := near3_leafAt (by decide)
  have l1 : LeafAt near3 1 1 := near3_leafAt (by decide)
  have l2 : LeafAt near3 2 3 := near3_leafAt (by decide)
  have m0 : near3.mem 0 = some ⟨some 2, none, none, some 0, (0, 5)⟩ := rfl
  have m1 : near3.mem 1 = some ⟨some 4, none, none, some 1, (2, 7)⟩ := rfl
  have i0 : lineExt.Intersect (0, 5) (lineNear.GetFatAABB 1) = true := by decide
  have i1 : lineExt.Intersect (2, 7) (lineNear.GetFatAABB 2) = true := by decide
  exact ⟨near3_wf, by decide, rfl, rfl, l1, rfl, l0, m0, i0,
    h2 1 1 0 0 _ l1 rfl l0 (by decide) m0 i0, l2, rfl, m1, i1,
    h2 2 3 1 1 _ l2 rfl l1 (by decide) m1 i1⟩

/-- C6 (raycast nearest hit), evaluated where it fails: in the tree built by
adding collider 1 and then collider 0 on a line, a ray from 0 comes to both
leaves; the leaf of collider 0, the right child of the root, is hit at
distance 5, yet `Raycast` returns the hit of the left leaf at distance 15,
because the right operand of `||` is not evaluated once the left one is
true. -/
theorem raycast_keeps_first_hit :
    Raycast lineExt lineEnv 3 lineRev2 0 1000 100 = .ok (true, 15) ∧
      RayVisits lineExt lineRev2 0 100 1 ∧
      lineRev2.mem 1 = some ⟨some 2, none, none, some 0, (4, 7)⟩ ∧
      lineEnv.Raycast 0 0 100 = some 5 ∧
      lineExt.flt (lineExt.GetDistance 5) (lineExt.GetDistance 15) = true := by
  refine ⟨rfl, ?_, rfl, by decide, by decide⟩
  exact @RayVisits.right _ _ _ _ lineExt lineRev2 0 100 2 1
    ⟨none, some 0, some 1, none, (4, 17)⟩ ⟨some 2, none, none, some 0, (4, 7)⟩
    (RayVisits.root (n := ⟨none, some 0, some 1, none, (4, 17)⟩) rfl rfl (by decide))
    rfl rfl rfl (by decide)

/-- C7 (raycast return value): on a well-formed state, with `hitInfo`
initialised farther than every hit a collider of the tree reports for the ray, `Raycast`
completes; it returns true exactly when some leaf whose own box and whose
ancestors' boxes the ray hits within `maxDistance` holds a collider whose
exact `Raycast` succeeds, and when it returns false `hitInfo` is unchanged. -/
theorem raycast_return_value (ext : Externals AABB F Ray Hit) (env : ColliderEnv AABB F Ray Hit)
    {s : BVTree AABB} (hwf : WF ext s) (ray : Ray) (hitInfo : Hit) (maxDistance : F)
    (hbig : ∀ c p hit, LeafAt s c p → env.Raycast c ray maxDistance = some hit →
      ext.flt (ext.GetDistance hit) (ext.GetDistance hitInfo) = true)
    {fuel : Nat} (hf : s.brk < fuel) :
    ∃ r, Raycast ext env fuel s ray hitInfo maxDistance = .ok r ∧
      (r.1 = true ↔ ∃ p n c hit, RayVisits ext s ray maxDistance p ∧ s.mem p = some n ∧
        n.IsLeaf = true ∧ n.collider = some c ∧ env.Raycast c ray maxDistance = some hit) ∧
      (r.1 = false → r.2 = hitInfo) :=
  Raycast_spec ext env hwf ray hitInfo maxDistance hbig hf

/-- Witness for C7: a ray from 0 of length 100 against the three-collider
tree on a line, `hitInfo` starting at distance 1000. -/
theorem raycast_return_value_witness :
    WF lineExt line3 ∧ line3.brk < 6 ∧
      (∀ c p hit, LeafAt line3 c p → lineEnv.Raycast c 0 100 = some hit →
        lineExt.flt (lineExt.GetDistance hit) (lineExt.GetDistance 1000) = true) ∧
      ∃ r, Raycast lineExt lineEnv 6 line3 0 1000 100 = .ok r ∧
        (r.1 = true ↔ ∃ p n c hit, RayVisits lineExt line3 0 100 p ∧ line3.mem p = some n ∧
          n.IsLeaf = true ∧ n.collider = some c ∧ lineEnv.Raycast c 0 100 = some hit) ∧
        (r.1 = false → r.2 = 1000) :=
  ⟨line3_wf, by decide, fun c _ hit _ h => lineEnv_hits_near c hit h,
    raycast_return_value lineExt lineEnv line3_wf 0 1000 100
      (fun c _ hit _ h => lineEnv_hits_near c hit h) (by decide)⟩

/-- C8 (`RemoveCollider` precondition): `RemoveCollider` of a collider that
the index does not hold stops at the assertion in the state it was called in,
so root, nodes and index are as before the call; on a well-formed state
`RemoveCollider` of an indexed collider completes. -/
theorem removeCollider_precondition (ext : Externals AABB F Ray Hit) :
    (∀ (s : BVTree AABB) (fuel : Nat) (c : Collider), mapFind s.colNodeMap c = none →
      RemoveCollider ext fuel s c = .abort .assertion s) ∧
    (∀ (s : BVTree AABB) (fuel : Nat) (c : Collider), WF ext s →
      mapFind s.colNodeMap c ≠ none → s.brk ≤ fuel →
      ∃ s1, RemoveCollider ext fuel s c = .ok s1) := by
  refine ⟨fun s fuel c h => by simp [RemoveCollider, h], fun s fuel c hwf hpre hf => ?_⟩
  obtain ⟨t, hinv, hidx⟩ := hwf
  cases hfind : mapFind s.colNodeMap c with
  | none => exact absurd hfind hpre
  | some node =>
    obtain ⟨s1, _, g1, _⟩ := RemoveCollider_spec ext hinv hidx hfind
      (le_trans hinv.size_le_brk hf)
    exact ⟨s1, g1⟩

/-- Witness for C8: in the three-collider tree, collider 7 is not indexed and
collider 1 is. -/
theorem removeCollider_precondition_witness :
    RemoveCollider lineExt 5 line3 7 = .abort .assertion line3 ∧
      WF lineExt line3 ∧ ∃ s1, RemoveCollider lineExt 5 line3 1 = .ok s1 :=
  ⟨(removeCollider_precondition lineExt).1 line3 5 7 (by decide), line3_wf,
    (removeCollider_precondition lineExt).2 line3 5 1 line3_wf (by decide) (by decide)⟩

/-- C9 (`Update` postcondition): on a well-formed state `Update` completes;
afterwards the index is unchanged, the tree holds the same colliders in the
same leaf nodes, every leaf whose stored box did not contain its collider's
tight box stores the collider's current fat box, and every other leaf stores
the box it stored before. -/
theorem update_postcondition (ext : Externals AABB F Ray Hit) (env : ColliderEnv AABB F Ray Hit)
    {s : BVTree AABB} (hwf : WF ext s) :
    (∀ fuel, s.brk ≤ fuel → ∃ s1, Update ext env fuel s = .ok s1) ∧
    ∀ fuel s1, Update ext env fuel s = .ok s1 →
      s1.colNodeMap = s.colNodeMap ∧ (∀ c p, LeafAt s1 c p ↔ LeafAt s c p) ∧
      ∀ c p n, LeafAt s c p → s.mem p = some n →
        ∃ n1, s1.mem p = some n1 ∧
          n1.aabb = if ext.Contains n.aabb (env.GetAABB c) then n.aabb
            else env.GetFatAABB c := by
  obtain ⟨t, hinv, hidx⟩ := id hwf
  constructor
  · intro fuel hf
    obtain ⟨s1, _, g1, _⟩ := Update_spec ext env hinv hidx (le_trans hinv.size_le_brk hf)
    exact ⟨s1, g1⟩
  · intro fuel s1 hrun
    obtain ⟨s2, t2, g1, g2, g3, g4, g5, _, g7⟩ := @Update_spec _ _ _ _ ext env s t (max fuel s.brk)
      hinv hidx (le_trans hinv.size_le_brk (le_max_right _ _))
    have := Update_mono ext env (le_max_left fuel s.brk) hrun
    rw [g1] at this
    obtain rfl : s2 = s1 := by injection this
    have hwf2 : WF ext s2 := ⟨_, g2, g3⟩
    refine ⟨g5, fun c p => ?_, fun c p n hl hn => ?_⟩
    · rw [hwf2.leafAt_iff, hwf.leafAt_iff, g5]
    · have hmem := (hwf.leafAt_iff c p).1 hl
      have hleaf : (c, p) ∈ leavesOf t := by simpa using (hidx.entries _).1 hmem
      obtain ⟨n1, e1, _, e3⟩ := g7 (c, p) hleaf n hn
      exact ⟨n1, e1, e3⟩

/-- Witness for C9: `Update` of the three-collider tree after collider 1 has
moved; the leaf of collider 1, at address 1, now stores the new fat box. -/
theorem update_postcondition_witness :
    WF lineExt line3 ∧ Update lineExt lineMoved 5 line3 = .ok line3Updated ∧
      line3Updated.colNodeMap = line3.colNodeMap ∧
      (line3Updated.mem 1).map Node.aabb = some (54, 57) :=
  ⟨line3_wf, rfl, ((update_postcondition lineExt lineMoved line3_wf).2 5 line3Updated rfl).1,
    by decide⟩

end Claims

end Isetta


namespace Isetta

section Reference

variable {AABB F Ray Hit : Type}

/-! ## The reference descent -/

theorem refGoesRight_eq (ext : Externals AABB F Ray Hit) {mem : NodePtr → Option (Node AABB)}
    (box : AABB) {l r : Shape} {ln rn : Node AABB} (hl : mem l.ptr = some ln)
    (hr : mem r.ptr = some rn) :
    refGoesRight ext mem box l r =
      ext.flt (ext.fsub (ext.SurfaceArea (ext.Encapsulate rn.aabb box)) (ext.SurfaceArea rn.aabb))
        (ext.fsub (ext.SurfaceArea (ext.Encapsulate ln.aabb box)) (ext.SurfaceArea ln.aabb)) := by
  simp [refGoesRight, hl, hr]

/-- The descent loop of `AddNode` follows the reference path and ends in the
reference leaf. -/
theorem descend_ref (ext : Externals AABB F Ray Hit) {mem : NodePtr → Option (Node AABB)}
    (box : AABB) {t : Shape} {par : Option NodePtr} (hr : Rep mem par t) {fuel : Nat}
    (hf : t.ptrs.length ≤ fuel) :
    AddNode.descend ext mem box fuel t.ptr = .ok (refLeaf ext mem box t).2 ∧
      t = plug (.leaf (refLeaf ext mem box t).2 (refLeaf ext mem box t).1)
        (refPath ext mem box t) := by
  induction t generalizing par fuel with
  | leaf p c =>
    obtain ⟨n, hn, _, h2, h3, _⟩ := hr
    cases fuel with
    | zero => simp [Shape.ptrs] at hf
    | succ k =>
      refine ⟨?_, rfl⟩
      simp [AddNode.descend, hn, Node.IsLeaf, h2, h3, refLeaf]
  | branch p l r ihl ihr =>
    obtain ⟨⟨n, hn, _, h2, h3, _⟩, hl, hrr⟩ := hr
    cases fuel with
    | zero => simp [Shape.ptrs] at hf
    | succ k =>
      simp only [Shape.ptrs, List.length_cons, List.length_append] at hf
      obtain ⟨ln, hln, _⟩ := hl.top
      obtain ⟨rn, hrn, _⟩ := hrr.top
      obtain ⟨hd1, he1⟩ := ihl hl (show l.ptrs.length ≤ k by omega)
      obtain ⟨hd2, he2⟩ := ihr hrr (show r.ptrs.length ≤ k by omega)
      have hgr := refGoesRight_eq ext box hln hrn
      cases hgo : refGoesRight ext mem box l r with
      | true =>
        have hgo1 := hgr ▸ hgo
        simp only [refLeaf, refPath, hgo, if_true]
        refine ⟨?_, ?_⟩
        · simp [AddNode.descend, hn, Node.IsLeaf, h2, h3, deref, hln, hrn, hgo1, hd2]
        · rw [plug_append, ← he2]; simp [Frame.fill]
      | false =>
        have hgo1 := hgr ▸ hgo
        simp only [refLeaf, refPath, hgo, Bool.false_eq_true, if_false]
        refine ⟨?_, ?_⟩
        · simp [AddNode.descend, hn, Node.IsLeaf, h2, h3, deref, hln, hrn, hgo1, hd1]
        · rw [plug_append, ← he1]; simp [Frame.fill]

/-- Putting the new branch in the slot at the end of the reference path gives
the reference insertion. -/
theorem plug_refPath (ext : Externals AABB F Ray Hit) (mem : NodePtr → Option (Node AABB))
    (box : AABB) (b n : NodePtr) (c : Collider) (t : Shape) :
    plug (.branch b (.leaf (refLeaf ext mem box t).2 (refLeaf ext mem box t).1) (.leaf n c))
      (refPath ext mem box t) = refInsert ext mem box b n c t := by
  induction t with
  | leaf p c0 => rfl
  | branch p l r ihl ihr =>
    cases hgo : refGoesRight ext mem box l r with
    | true =>
      simp only [refLeaf, refPath, refInsert, hgo, if_true]
      rw [plug_append, ihr]; simp [Frame.fill]
    | false =>
      simp only [refLeaf, refPath, refInsert, hgo, Bool.false_eq_true, if_false]
      rw [plug_append, ihl]; simp [Frame.fill]

theorem refRemove_eq_unplug (ctx : List Frame) : refRemove ctx = unplug ctx := by
  match ctx with
  | [] => rfl
  | [f] => rfl
  | f :: g :: rest => rfl

/-! ## The pair loop over static colliders -/

theorem each_static (ext : Externals AABB F Ray Hit) (env : ColliderEnv AABB F Ray Hit)
    (fuel : Nat) (mem : NodePtr → Option (Node AABB)) (root : Option NodePtr)
    (m : List (Collider × NodePtr)) (set : List (Collider × Option Collider))
    (h : ∀ e ∈ m, env.IsStatic e.1 = true) :
    GetCollisionPairs.each ext env fuel mem root m set = .ok set := by
  induction m with
  | nil => rfl
  | cons e rest ih =>
    have h1 := h e (List.mem_cons_self _ _)
    simp only [GetCollisionPairs.each, h1, if_true]
    exact ih (fun x hx => h x (List.mem_cons_of_mem _ hx))

/-! ## `Update` of a settled tree -/

/-- When no leaf is stale, `Update` finds nothing to reinsert and returns the
state it was given. -/
theorem Update_settled (ext : Externals AABB F Ray Hit) (env : ColliderEnv AABB F Ray Hit)
    {s : BVTree AABB} {t : Option Shape} {fuel : Nat}
    (hinv : Inv ext s t []) (hf : (ptrsOf t).length ≤ fuel)
    (hset : ∀ e ∈ leavesOf t, ∀ m, s.mem e.2 = some m →
      ext.Contains m.aabb (env.GetAABB e.1) = true) :
    Update ext env fuel s = .ok s := by
  have hrun : Update ext env fuel s =
      (match Update.collect ext env s.mem fuel (t.toList.map Shape.ptr) [] with
      | .error e => Outcome.abort e s
      | .ok l => (Update.removeAll ext fuel s l).andThen fun s1 =>
          Update.reinsertAll ext env fuel s1 l) := by
    unfold Update
    rw [hinv.root_eq]
    cases t <;> rfl
  have hfl : forestLeaves t.toList = leavesOf t := by
    cases t <;> simp [forestLeaves, leavesOf]
  have hfs : forestSize t.toList = (ptrsOf t).length := by
    cases t <;> simp [forestSize, ptrsOf]
  obtain ⟨R, hR, hperm⟩ := collect_spec ext env s.mem (forestSize t.toList) t.toList []
    fuel (le_refl _) (by rw [hfs]; exact hf) (by
      intro u hu
      simp only [Option.mem_toList, Option.mem_def] at hu
      exact ⟨none, hinv.rep u hu⟩)
  rw [hfl] at hperm
  have hnil : (leavesOf t).filter (isStale ext env s.mem) = [] := by
    rw [List.filter_eq_nil_iff]
    intro e he
    obtain ⟨n, hn, _⟩ := hinv.leaf_node he
    simp [isStale, hn, hset e he n hn]
  rw [hnil] at hperm
  obtain rfl : R = [] := List.Perm.eq_nil hperm
  simp only [List.nil_append, List.map_nil] at hR
  rw [hrun, hR]
  simp [Update.removeAll, Update.reinsertAll, Outcome.andThen]

/-- The leaves after a completed `Update`: the same colliders in the same
nodes, each with its old box when that contained the tight box and with the
fresh fat box otherwise. -/
theorem Update_leaves (ext : Externals AABB F Ray Hit) (env : ColliderEnv AABB F Ray Hit)
    {s s1 : BVTree AABB} {fuel : Nat} (hwf : WF ext s) (hrun : Update ext env fuel s = .ok s1) :
    WF ext s1 ∧ (∀ c p, LeafAt s1 c p ↔ LeafAt s c p) ∧
      ∀ c p n, LeafAt s c p → s.mem p = some n →
        ∃ n1, s1.mem p = some n1 ∧
          n1.aabb = if ext.Contains n.aabb (env.GetAABB c) then n.aabb
            else env.GetFatAABB c := by
  obtain ⟨t, hinv, hidx⟩ := id hwf
  obtain ⟨s2, t2, g1, g2, g3, g4, g5, _, g7⟩ := @Update_spec _ _ _ _ ext env s t (max fuel s.brk)
    hinv hidx (le_trans hinv.size_le_brk (le_max_right _ _))
  have := Update_mono ext env (le_max_left fuel s.brk) hrun
  rw [g1] at this
  obtain rfl : s2 = s1 := by injection this
  have hwf2 : WF ext s2 := ⟨_, g2, g3⟩
  refine ⟨hwf2, fun c p => ?_, fun c p n hl hn => ?_⟩
  · rw [hwf2.leafAt_iff, hwf.leafAt_iff, g5]
  · have hmem := (hwf.leafAt_iff c p).1 hl
    have hleaf : (c, p) ∈ leavesOf t := by simpa using (hidx.entries _).1 hmem
    obtain ⟨n1, e1, _, e3⟩ := g7 (c, p) hleaf n hn
    exact ⟨n1, e1, e3⟩

end Reference

end Isetta


namespace Isetta

section RoundTrip

variable {AABB F Ray Hit : Type}

theorem Inv_empty (ext : Externals AABB F Ray Hit) : Inv ext (BVTree.empty AABB) none [] := by
  constructor
  · rfl
  · intro t0 h; cases h
  · intro t0 h; cases h
  · intro e he; cases he
  · simp [ptrsOf]
  · intro p n h; simp [BVTree.empty] at h
  · intro p _; rfl

/-! ## The two-collider tree -/

theorem AddCollider_first (ext : Externals AABB F Ray Hit) (env : ColliderEnv AABB F Ray Hit)
    (fuel : Nat) (a : Collider) :
    AddCollider ext env fuel (BVTree.empty AABB) a =
      .ok { root := some 0, colNodeMap := [(a, 0)], colliderPairSet := [],
            mem := Function.update (Function.update (fun _ => none) 0
              (some (Node.ofCollider env a))) 0 (some (Node.ofCollider env a)),
            brk := 1 } := rfl

/-- The tree built by two `AddCollider` calls from the empty tree: a root
branch at address 2 over the leaves at addresses 0 and 1. -/
theorem AddCollider_second (ext : Externals AABB F Ray Hit) (env : ColliderEnv AABB F Ray Hit)
    {f1 f2 : Nat} {a b : Collider} {s1 s2 : BVTree AABB} (hab : a ≠ b)
    (h1 : AddCollider ext env f1 (BVTree.empty AABB) a = .ok s1)
    (h2 : AddCollider ext env f2 s1 b = .ok s2) :
    s2.root = some 2 ∧ s2.colNodeMap = [(a, 0), (b, 1)] ∧
      s2.mem 0 = some ⟨some 2, none, none, some a, env.GetFatAABB a⟩ ∧
      s2.mem 1 = some ⟨some 2, none, none, some b, env.GetFatAABB b⟩ ∧
      s2.mem 2 = some ⟨none, some 0, some 1, none,
        ext.Encapsulate (env.GetFatAABB a) (env.GetFatAABB b)⟩ := by
  rw [AddCollider_first] at h1
  injection h1 with h1
  subst h1
  cases f2 with
  | zero =>
    simp [AddCollider, NewOnFreeList, firstFree, List.range_succ, mapInsert, hab, AddNode,
      AddNode.descend] at h2
  | succ k =>
    simp [AddCollider, NewOnFreeList, firstFree, List.range_succ, mapInsert, hab, AddNode,
      AddNode.descend, Node.ofCollider, Node.IsLeaf, BVTree.modify, Outcome.andThen,
      Node.ofAABB, Function.update_apply] at h2
    subst h2
    simp [Function.update_apply]

/-- Two `AddCollider` calls from the empty tree complete, the second with one
unit of fuel, and build a root branch at address 2 over two leaves. -/
theorem AddCollider_pair (ext : Externals AABB F Ray Hit) (env : ColliderEnv AABB F Ray Hit)
    (f1 : Nat) {f2 : Nat} {a b : Collider} (hab : a ≠ b) (hf2 : 1 ≤ f2) :
    ∃ s1 s2, AddCollider ext env f1 (BVTree.empty AABB) a = .ok s1 ∧
      AddCollider ext env f2 s1 b = .ok s2 ∧
      s2.root = some 2 ∧ s2.colNodeMap = [(a, 0), (b, 1)] ∧ s2.brk = 3 ∧
      s2.mem 0 = some ⟨some 2, none, none, some a, env.GetFatAABB a⟩ ∧
      s2.mem 1 = some ⟨some 2, none, none, some b, env.GetFatAABB b⟩ ∧
      s2.mem 2 = some ⟨none, some 0, some 1, none,
        ext.Encapsulate (env.GetFatAABB a) (env.GetFatAABB b)⟩ ∧
      ∀ p : Nat, 3 ≤ p → s2.mem p = none := by
  obtain ⟨k, rfl⟩ : ∃ k, f2 = k + 1 := ⟨f2 - 1, by omega⟩
  have h1 := AddCollider_first ext env f1 a
  cases h2 : AddCollider ext env (k + 1)
      { root := some 0, colNodeMap := [(a, 0)], colliderPairSet := [],
        mem := Function.update (Function.update (fun _ => none) 0
          (some (Node.ofCollider env a))) 0 (some (Node.ofCollider env a)),
        brk := 1 } b with
  | abort e s =>
    simp [AddCollider, NewOnFreeList, firstFree, List.range_succ, mapInsert, hab, AddNode,
      AddNode.descend, Node.ofCollider, Node.IsLeaf, BVTree.modify, Outcome.andThen,
      Node.ofAABB, Function.update_apply] at h2
  | ok s2 =>
    refine ⟨_, s2, h1, h2, ?_⟩
    simp [AddCollider, NewOnFreeList, firstFree, List.range_succ, mapInsert, hab, AddNode,
      AddNode.descend, Node.ofCollider, Node.IsLeaf, BVTree.modify, Outcome.andThen,
      Node.ofAABB, Function.update_apply] at h2
    subst h2
    refine ⟨?_, ?_, ?_, ?_, ?_, ?_, ?_⟩
    · simp
    · simp
    · simp
    · simp [Function.update_apply]
    · simp [Function.update_apply]
    · simp [Function.update_apply]
    · intro p hp
      have h1 : p ≠ 2 := by omega
      have h2 : p ≠ 0 := by omega
      have h3 : p ≠ 1 := by omega
      simp [Function.update_apply, h1, h2, h3]

/-- A third `AddCollider` into the two-leaf tree, when the increase of surface
area is greater on the left than on the right, puts the new leaf beside the
right leaf, below a new branch at address 4. -/
theorem AddCollider_third (ext : Externals AABB F Ray Hit) (env : ColliderEnv AABB F Ray Hit)
    {a b c : Collider} {s2 : BVTree AABB} {f3 : Nat} (hac : a ≠ c) (hbc : b ≠ c)
    (hroot : s2.root = some 2) (hmap : s2.colNodeMap = [(a, 0), (b, 1)]) (hbrk : s2.brk = 3)
    (e0 : s2.mem 0 = some ⟨some 2, none, none, some a, env.GetFatAABB a⟩)
    (e1 : s2.mem 1 = some ⟨some 2, none, none, some b, env.GetFatAABB b⟩)
    (e2 : s2.mem 2 = some ⟨none, some 0, some 1, none,
        ext.Encapsulate (env.GetFatAABB a) (env.GetFatAABB b)⟩)
    (hnone : ∀ p : Nat, 3 ≤ p → s2.mem p = none)
    (hnear : ext.flt
      (ext.fsub (ext.SurfaceArea (ext.Encapsulate (env.GetFatAABB b) (env.GetFatAABB c)))
        (ext.SurfaceArea (env.GetFatAABB b)))
      (ext.fsub (ext.SurfaceArea (ext.Encapsulate (env.GetFatAABB a) (env.GetFatAABB c)))
        (ext.SurfaceArea (env.GetFatAABB a))) = true)
    (hf3 : 2 ≤ f3) :
    ∃ s3, AddCollider ext env f3 s2 c = .ok s3 ∧
      s3.root = some 2 ∧ s3.colNodeMap = [(a, 0), (b, 1), (c, 3)] ∧
      s3.mem 0 = some ⟨some 2, none, none, some a, env.GetFatAABB a⟩ ∧
      s3.mem 1 = some ⟨some 4, none, none, some b, env.GetFatAABB b⟩ ∧
      s3.mem 2 = some ⟨none, some 0, some 4, none,
        ext.Encapsulate (env.GetFatAABB a)
          (ext.Encapsulate (env.GetFatAABB b) (env.GetFatAABB c))⟩ ∧
      s3.mem 3 = some ⟨some 4, none, none, some c, env.GetFatAABB c⟩ ∧
      s3.mem 4 = some ⟨some 2, some 1, some 3, none,
        ext.Encapsulate (env.GetFatAABB b) (env.GetFatAABB c)⟩ ∧
      ∀ p : Nat, 5 ≤ p → s3.mem p = none := by
  obtain ⟨k, rfl⟩ : ∃ k, f3 = k + 2 := ⟨f3 - 2, by omega⟩
  have e3 : s2.mem 3 = none := hnone 3 (le_refl _)
  have e4 : s2.mem 4 = none := hnone 4 (by decide)
  cases h3 : AddCollider ext env (k + 2) s2 c with
  | abort e s =>
    simp [AddCollider, NewOnFreeList, firstFree, hbrk, List.range_succ, e0, e1, e2, e3, e4,
      mapInsert, hmap, hac, hbc, AddNode, hroot,
      AddNode.descend, Node.ofCollider, Node.IsLeaf, BVTree.modify, Outcome.andThen,
      Node.ofAABB, Function.update_apply, deref, hnear, SwapOutChild, refit,
      UpdateBranchAABB] at h3
  | ok s3 =>
    refine ⟨s3, rfl, ?_⟩
    simp [AddCollider, NewOnFreeList, firstFree, hbrk, List.range_succ, e0, e1, e2, e3, e4,
      mapInsert, hmap, hac, hbc, AddNode, hroot,
      AddNode.descend, Node.ofCollider, Node.IsLeaf, BVTree.modify, Outcome.andThen,
      Node.ofAABB, Function.update_apply, deref, hnear, SwapOutChild, refit,
      UpdateBranchAABB] at h3
    subst h3
    refine ⟨?_, ?_, ?_, ?_, ?_, ?_, ?_, ?_⟩
    · simp [hroot]
    · simp [hmap]
    · simp [Function.update_apply, e0]
    · simp [Function.update_apply]
    · simp [Function.update_apply]
    · simp [Function.update_apply]
    · simp [Function.update_apply]
    · intro p hp
      have := hnone p (by omega)
      have h1 : p ≠ 2 := by omega
      have h2 : p ≠ 4 := by omega
      have h3 : p ≠ 3 := by omega
      have h4 : p ≠ 1 := by omega
      simp [Function.update_apply, h1, h2, h3, h4, this]


/-- `RemoveCollider` of the collider whose leaf is the left child of the
branch at address 4 moves the sibling leaf up below the root, releases the
branch and the leaf, and refits the root. -/
theorem RemoveCollider_middle (ext : Externals AABB F Ray Hit)
    {a b c : Collider} {boxA boxB boxC boxR boxI : AABB} {s3 : BVTree AABB} {f4 : Nat}
    (hab : a ≠ b) (hbc : b ≠ c)
    (hroot : s3.root = some 2) (hmap : s3.colNodeMap = [(a, 0), (b, 1), (c, 3)])
    (e0 : s3.mem 0 = some ⟨some 2, none, none, some a, boxA⟩)
    (e1 : s3.mem 1 = some ⟨some 4, none, none, some b, boxB⟩)
    (e2 : s3.mem 2 = some ⟨none, some 0, some 4, none, boxR⟩)
    (e3 : s3.mem 3 = some ⟨some 4, none, none, some c, boxC⟩)
    (e4 : s3.mem 4 = some ⟨some 2, some 1, some 3, none, boxI⟩)
    (hnone : ∀ p : Nat, 5 ≤ p → s3.mem p = none)
    (hf4 : 1 ≤ f4) :
    ∃ s4, RemoveCollider ext f4 s3 b = .ok s4 ∧
      s4.root = some 2 ∧ s4.colNodeMap = [(a, 0), (c, 3)] ∧
      s4.mem 0 = some ⟨some 2, none, none, some a, boxA⟩ ∧
      s4.mem 2 = some ⟨none, some 0, some 3, none, ext.Encapsulate boxA boxC⟩ ∧
      s4.mem 3 = some ⟨some 2, none, none, some c, boxC⟩ ∧
      ∀ p : Nat, p ≠ 0 → p ≠ 2 → p ≠ 3 → s4.mem p = none := by
  obtain ⟨k, rfl⟩ : ∃ k, f4 = k + 1 := ⟨f4 - 1, by omega⟩
  cases h4 : RemoveCollider ext (k + 1) s3 b with
  | abort e s =>
    simp [RemoveCollider, mapFind, hmap, hab, hbc, Ne.symm hab, RemoveNode, e0, e1, e2, e3, e4,
      Node.IsLeaf, hroot, deref, SwapOutChild, BVTree.modify, Outcome.andThen,
      Function.update_apply, DeleteOnFreeList, refit, UpdateBranchAABB, mapErase] at h4
  | ok s4 =>
    refine ⟨s4, rfl, ?_⟩
    simp [RemoveCollider, mapFind, hmap, hab, hbc, Ne.symm hab, RemoveNode, e0, e1, e2, e3, e4,
      Node.IsLeaf, hroot, deref, SwapOutChild, BVTree.modify, Outcome.andThen,
      Function.update_apply, DeleteOnFreeList, refit, UpdateBranchAABB, mapErase] at h4
    subst h4
    refine ⟨?_, ?_, ?_, ?_, ?_, ?_⟩
    · simp [hroot]
    · simp [hmap, hab, hbc, Ne.symm hab, Ne.symm hbc]
    · simp [Function.update_apply, e0]
    · simp [Function.update_apply]
    · simp [Function.update_apply]
    · intro p h0 h2 h3
      by_cases h1 : p = 1
      · simp [Function.update_apply, h1]
      by_cases h4 : p = 4
      · simp [Function.update_apply, h4]
      have := hnone p (by omega)
      simp [Function.update_apply, h0, h1, h2, h3, h4, this]

/-! ## Two heaps that hold the same tree -/

theorem Node.eq_of_fields {n m : Node AABB} (h1 : n.parent = m.parent) (h2 : n.left = m.left)
    (h3 : n.right = m.right) (h4 : n.collider = m.collider) (h5 : n.aabb = m.aabb) : n = m := by
  cases n; cases m; simp_all

/-- Two heaps that hold the same shape below the same parent, both with boxed
branches, and that agree on the boxes of the leaves, agree on all its nodes. -/
theorem Rep.rep_agree {ext : Externals AABB F Ray Hit} {mem mem1 : NodePtr → Option (Node AABB)}
    {par : Option NodePtr} {t : Shape} (h : Rep mem par t) (h1 : Rep mem1 par t)
    (hb : Boxed ext mem t) (hb1 : Boxed ext mem1 t)
    (hleaf : ∀ e ∈ t.leaves, ∀ m m1, mem e.2 = some m → mem1 e.2 = some m1 → m1.aabb = m.aabb) :
    ∀ q ∈ t.ptrs, mem1 q = mem q := by
  induction t generalizing par with
  | leaf p c =>
    obtain ⟨n, hn, a1, a2, a3, a4⟩ := h
    obtain ⟨n1, hn1, b1, b2, b3, b4⟩ := h1
    intro q hq
    simp only [Shape.ptrs, List.mem_singleton] at hq
    subst hq
    rw [hn, hn1]
    have := hleaf (c, q) (by simp [Shape.leaves]) n n1 hn hn1
    exact congrArg some (Node.eq_of_fields (by rw [a1, b1]) (by rw [a2, b2]) (by rw [a3, b3])
      (by rw [a4, b4]) this)
  | branch p l r ihl ihr =>
    obtain ⟨⟨n, hn, a1, a2, a3, a4⟩, hl, hr⟩ := h
    obtain ⟨⟨n1, hn1, b1, b2, b3, b4⟩, hl1, hr1⟩ := h1
    obtain ⟨⟨x, xl, xr, hx, hxl, hxr, hbox⟩, hbl, hbr⟩ := hb
    obtain ⟨⟨y, yl, yr, hy, hyl, hyr, hbox1⟩, hbl1, hbr1⟩ := hb1
    have el := ihl hl hl1 hbl hbl1 (fun e he => hleaf e (by simp [Shape.leaves, he]))
    have er := ihr hr hr1 hbr hbr1 (fun e he => hleaf e (by simp [Shape.leaves, he]))
    intro q hq
    simp only [Shape.ptrs, List.mem_cons, List.mem_append] at hq
    rcases hq with rfl | hq | hq
    · rw [hn, hn1]
      have e1 := el l.ptr l.ptr_mem_ptrs
      have e2 := er r.ptr r.ptr_mem_ptrs
      rw [hxl, hyl] at e1
      rw [hxr, hyr] at e2
      obtain rfl := Option.some.inj e1
      obtain rfl := Option.some.inj e2
      rw [hn] at hx
      rw [hn1] at hy
      obtain rfl := Option.some.inj hx
      obtain rfl := Option.some.inj hy
      exact congrArg some (Node.eq_of_fields (by rw [a1, b1]) (by rw [a2, b2]) (by rw [a3, b3])
        (by rw [a4, b4]) (by rw [hbox, hbox1]))
    · exact el q hq
    · exact er q hq

/-- Two states that hold the same tree and nothing else, and agree on the
boxes of its leaves, have the same heap. -/
theorem Inv.inv_agree {ext : Externals AABB F Ray Hit} {s s1 : BVTree AABB} {t : Option Shape}
    (h : Inv ext s t []) (h1 : Inv ext s1 t [])
    (hleaf : ∀ e ∈ leavesOf t, ∀ m m1, s.mem e.2 = some m → s1.mem e.2 = some m1 →
      m1.aabb = m.aabb) :
    s1.root = s.root ∧ s1.mem = s.mem := by
  refine ⟨by rw [h.root_eq, h1.root_eq], funext fun q => ?_⟩
  by_cases hq : q ∈ ptrsOf t
  · cases t with
    | none => simp [ptrsOf] at hq
    | some t0 =>
      exact (h.rep t0 rfl).rep_agree (h1.rep t0 rfl) (h.boxed t0 rfl) (h1.boxed t0 rfl) hleaf q hq
  · have e1 : s.mem q = none := by
      cases hm : s.mem q with
      | none => rfl
      | some m => exact absurd (by simpa using h.live q m hm) hq
    have e2 : s1.mem q = none := by
      cases hm : s1.mem q with
      | none => rfl
      | some m => exact absurd (by simpa using h1.live q m hm) hq
    rw [e1, e2]

theorem mapErase_append_absent {m : List (Collider × NodePtr)} {c : Collider} (p : NodePtr)
    (h : mapFind m c = none) : mapErase (m ++ [(c, p)]) c = m := by
  unfold mapErase
  rw [List.filter_append]
  have h1 : m.filter (fun e => !(e.1 == c)) = m := by
    rw [List.filter_eq_self]
    intro e he
    have : e.1 ≠ c := by
      rintro rfl
      exact mapFind_eq_none.1 h e.2 he
    simpa using this
  rw [h1]
  simp

theorem mapFind_append_absent {m : List (Collider × NodePtr)} {c : Collider} (p : NodePtr)
    (h : mapFind m c = none) : mapFind (m ++ [(c, p)]) c = some p := by
  unfold mapFind at h ⊢
  rw [Option.map_eq_none'] at h
  simp [List.find?_append, h]

/-- With enough fuel, `AddCollider` of an absent collider followed by
`RemoveCollider` of the same collider restores root, heap, index and pair
set. -/
theorem AddRemove_restores (ext : Externals AABB F Ray Hit) (env : ColliderEnv AABB F Ray Hit)
    {s s1 s2 : BVTree AABB} {t : Option Shape} {c : Collider} {fuel : Nat}
    (hinv : Inv ext s t []) (habs : mapFind s.colNodeMap c = none)
    (hf : (ptrsOf t).length ≤ fuel) (hf1 : s1.brk ≤ fuel)
    (h1 : AddCollider ext env fuel s c = .ok s1) (h2 : RemoveCollider ext fuel s1 c = .ok s2) :
    s2.root = s.root ∧ s2.mem = s.mem ∧ s2.colNodeMap = s.colNodeMap ∧
      s2.colliderPairSet = s.colliderPairSet := by
  obtain ⟨p, hp⟩ : ∃ p, p = firstFree s.mem s.brk := ⟨_, rfl⟩
  have hfree : s.mem p = none := hp ▸ firstFree_free hinv.brk
  obtain ⟨sA, hsA⟩ : ∃ sA : BVTree AABB, sA =
      { s with mem := Function.update s.mem p (some (Node.ofCollider env c))
               brk := max s.brk (p + 1)
               colNodeMap := s.colNodeMap ++ [(c, p)] } := ⟨_, rfl⟩
  have hA : Inv ext sA t [(c, p)] := by
    rw [hp]
    exact Inv.alloc_leaf env c hinv (by rw [hsA]) (by rw [hsA, hp]) (by rw [hsA, hp])
  have hrun : AddCollider ext env fuel s c = AddNode ext fuel sA p := by
    simp only [AddCollider, NewOnFreeList, ← hp, mapInsert_absent p habs, hsA]
  rw [hrun] at h1
  have key : ∃ ctx, Inv ext s1 (some (plug (.leaf p c) ctx)) [] ∧ unplug ctx = t ∧
      s1.colNodeMap = sA.colNodeMap ∧ s1.colliderPairSet = sA.colliderPairSet ∧
      (∀ q m, sA.mem q = some m → m.collider ≠ none →
        ∃ m1, s1.mem q = some m1 ∧ m1.aabb = m.aabb ∧ m1.collider = m.collider) := by
    cases t with
    | none =>
      obtain ⟨s1a, g1, g2, g3, g4, _, g6⟩ := AddNode_none ext fuel hA
      rw [h1] at g1
      obtain rfl : s1 = s1a := by injection g1
      exact ⟨[], g2, rfl, g3, g4, fun q m hm _ => g6 q m hm⟩
    | some t0 =>
      obtain ⟨s1a, ctx, L, c0, b, ht0, _, g1, g2, g3, g4, g5⟩ := AddNode_some ext hA hf
      rw [h1] at g1
      obtain rfl : s1 = s1a := by injection g1
      refine ⟨⟨b, false, .leaf L c0⟩ :: ctx, ?_, ?_, g3, g4, g5⟩
      · exact g2
      · rw [ht0]; rfl
  obtain ⟨ctx, hinv1, hun, hidx1, hps1, hfr1⟩ := key
  have hfind : mapFind s1.colNodeMap c = some p := by
    rw [hidx1, hsA]
    exact mapFind_append_absent p habs
  have hsize : (plug (Shape.leaf p c) ctx).ptrs.length ≤ fuel :=
    le_trans hinv1.size_le_brk hf1
  obtain ⟨s2a, hrm, hinv2a, hidx2a, hps2a, _, hfr2⟩ := RemoveNode_unlink ext hinv1 hsize
  obtain ⟨s2b, hfin, hinv2b, _, hidx2b, hps2b, _, hmem2b, _⟩ :=
    RemoveNode.finish_spec true hinv2a
  simp only [if_true] at hinv2b
  rw [hun] at hinv2b
  have hres : RemoveCollider ext fuel s1 c =
      .ok { s2b with colNodeMap := mapErase s2b.colNodeMap c } := by
    simp [RemoveCollider, hfind, hrm true, hfin]
  rw [h2] at hres
  obtain rfl : s2 = { s2b with colNodeMap := mapErase s2b.colNodeMap c } := by injection hres
  have hag := Inv.inv_agree hinv hinv2b (by
    intro e he m m2 hm hm2
    obtain ⟨n, hn, _, _, hc⟩ := hinv.leaf_node he
    rw [hm] at hn
    obtain rfl := Option.some.inj hn
    have hmc : m.collider ≠ none := by rw [hc]; simp
    have hep : e.2 ≠ p := by intro h; rw [h, hfree] at hm; cases hm
    have hmA : sA.mem e.2 = some m := by rw [hsA]; simp [Function.update_noteq hep, hm]
    obtain ⟨m1, e1, e2, e3⟩ := hfr1 e.2 m hmA hmc
    obtain ⟨m3, k1, k2, _⟩ := hfr2 e.2 m1 e1 (by rw [e3]; exact hmc)
    rw [hmem2b e.2 hep, k1] at hm2
    obtain rfl := Option.some.inj hm2
    rw [k2, e2])
  refine ⟨hag.1, hag.2, ?_, ?_⟩
  · show mapErase s2b.colNodeMap c = s.colNodeMap
    rw [hidx2b, hidx2a, hidx1, hsA]
    exact mapErase_append_absent p habs
  · show s2b.colliderPairSet = s.colliderPairSet
    rw [hps2b, hps2a, hps1, hsA]

end RoundTrip

end Isetta


namespace Isetta

section Scenarios

variable {AABB F Ray Hit : Type}

/-- C11 (three-collider scenario): colliders `a`, `b`, `c` are added in this
order to the empty tree, and the fat box of `c` increases the surface area of
the box of `a` by more than that of the box of `b`, as is the case for boxes
spanning `[0, 1]`, `[10, 11]` and `[20, 21]` on one axis.  With enough fuel
all calls complete; after the three insertions the root (at address 2) is a
branch with the leaf of `a` as left child and, as right child, a branch (at
address 4) over the leaves of `b` and `c`; after `RemoveCollider` of `b` the
root is a branch whose children are the leaves of `a` and `c` and whose box
is the union of their boxes, and the heap holds no other node. -/
theorem three_collider_scenario (ext : Externals AABB F Ray Hit)
    (env : ColliderEnv AABB F Ray Hit) (a b c : Collider) (f1 f2 f3 f4 : Nat)
    (hab : a ≠ b) (hac : a ≠ c) (hbc : b ≠ c)
    (hnear : ext.flt
      (ext.fsub (ext.SurfaceArea (ext.Encapsulate (env.GetFatAABB b) (env.GetFatAABB c)))
        (ext.SurfaceArea (env.GetFatAABB b)))
      (ext.fsub (ext.SurfaceArea (ext.Encapsulate (env.GetFatAABB a) (env.GetFatAABB c)))
        (ext.SurfaceArea (env.GetFatAABB a))) = true)
    (hf2 : 1 ≤ f2) (hf3 : 2 ≤ f3) (hf4 : 1 ≤ f4) :
    ∃ s1 s2 s3 s4, AddCollider ext env f1 (BVTree.empty AABB) a = .ok s1 ∧
      AddCollider ext env f2 s1 b = .ok s2 ∧ AddCollider ext env f3 s2 c = .ok s3 ∧
      RemoveCollider ext f4 s3 b = .ok s4 ∧
      s3.root = some 2 ∧
      s3.mem 2 = some ⟨none, some 0, some 4, none, ext.Encapsulate (env.GetFatAABB a)
        (ext.Encapsulate (env.GetFatAABB b) (env.GetFatAABB c))⟩ ∧
      s3.mem 0 = some ⟨some 2, none, none, some a, env.GetFatAABB a⟩ ∧
      s3.mem 4 = some ⟨some 2, some 1, some 3, none,
        ext.Encapsulate (env.GetFatAABB b) (env.GetFatAABB c)⟩ ∧
      s3.mem 1 = some ⟨some 4, none, none, some b, env.GetFatAABB b⟩ ∧
      s3.mem 3 = some ⟨some 4, none, none, some c, env.GetFatAABB c⟩ ∧
      s4.root = some 2 ∧
      s4.mem 2 = some ⟨none, some 0, some 3, none,
        ext.Encapsulate (env.GetFatAABB a) (env.GetFatAABB c)⟩ ∧
      s4.mem 0 = some ⟨some 2, none, none, some a, env.GetFatAABB a⟩ ∧
      s4.mem 3 = some ⟨some 2, none, none, some c, env.GetFatAABB c⟩ ∧
      s4.colNodeMap = [(a, 0), (c, 3)] ∧
      ∀ p : Nat, p ≠ 0 → p ≠ 2 → p ≠ 3 → s4.mem p = none := by
  obtain ⟨s1, s2, r1, r2, a1, a2, a3, a4, a5, a6, a7⟩ := AddCollider_pair ext env f1 hab hf2
  obtain ⟨s3, r3, b1, b2, b3, b4, b5, b6, b7, b8⟩ :=
    AddCollider_third ext env hac hbc a1 a2 a3 a4 a5 a6 a7 hnear hf3
  obtain ⟨s4, r4, c1, c2, c3, c4, c5, c6⟩ :=
    RemoveCollider_middle ext hab hbc b1 b2 b3 b4 b5 b6 b7 b8 hf4
  exact ⟨s1, s2, s3, s4, r1, r2, r3, r4, b1, b5, b3, b7, b4, b6, c1, c4, c3, c5, c2, c6⟩

/-- Witness for C11: the colliders A, B and C with fat boxes spanning
`[0, 1]`, `[10, 11]` and `[20, 21]` on the first axis and `[0, 1]` on the
other two; the root box after the removal of B spans `[0, 21]`. -/
theorem three_collider_scenario_witness :
    boxEnv.GetFatAABB 0 = ⟨(0, 0, 0), (1, 1, 1)⟩ ∧
    boxEnv.GetFatAABB 1 = ⟨(10, 0, 0), (11, 1, 1)⟩ ∧
    boxEnv.GetFatAABB 2 = ⟨(20, 0, 0), (21, 1, 1)⟩ ∧
    boxExt.flt
      (boxExt.fsub
        (boxExt.SurfaceArea (boxExt.Encapsulate (boxEnv.GetFatAABB 1) (boxEnv.GetFatAABB 2)))
        (boxExt.SurfaceArea (boxEnv.GetFatAABB 1)))
      (boxExt.fsub
        (boxExt.SurfaceArea (boxExt.Encapsulate (boxEnv.GetFatAABB 0) (boxEnv.GetFatAABB 2)))
        (boxExt.SurfaceArea (boxEnv.GetFatAABB 0))) = true ∧
    AddCollider boxExt boxEnv 3 boxAB 2 = .ok boxABC ∧
    RemoveCollider boxExt 3 boxABC 1 = .ok boxAC ∧
    boxABC.mem 2 = some ⟨none, some 0, some 4, none, ⟨(0, 0, 0), (21, 1, 1)⟩⟩ ∧
    boxABC.mem 4 = some ⟨some 2, some 1, some 3, none, ⟨(10, 0, 0), (21, 1, 1)⟩⟩ ∧
    boxAC.mem 2 = some ⟨none, some 0, some 3, none, ⟨(0, 0, 0), (21, 1, 1)⟩⟩ ∧
    ∀ p : Nat, p ≠ 0 → p ≠ 2 → p ≠ 3 → boxAC.mem p = none := by
  have hnear : boxExt.flt
      (boxExt.fsub
        (boxExt.SurfaceArea (boxExt.Encapsulate (boxEnv.GetFatAABB 1) (boxEnv.GetFatAABB 2)))
        (boxExt.SurfaceArea (boxEnv.GetFatAABB 1)))
      (boxExt.fsub
        (boxExt.SurfaceArea (boxExt.Encapsulate (boxEnv.GetFatAABB 0) (boxEnv.GetFatAABB 2)))
        (boxExt.SurfaceArea (boxEnv.GetFatAABB 0))) = true := by decide
  obtain ⟨s1, s2, s3, s4, r1, r2, r3, r4, h⟩ :=
    three_collider_scenario boxExt boxEnv 0 1 2 0 1 3 3 (by decide) (by decide) (by decide)
      hnear (by decide) (by decide) (by decide)
  have q1 : AddCollider boxExt boxEnv 0 (BVTree.empty Box3) 0 = .ok boxA := rfl
  rw [q1] at r1
  obtain rfl : boxA = s1 := by injection r1
  have q2 : AddCollider boxExt boxEnv 1 boxA 1 = .ok boxAB := rfl
  rw [q2] at r2
  obtain rfl : boxAB = s2 := by injection r2
  have q3 : AddCollider boxExt boxEnv 3 boxAB 2 = .ok boxABC := rfl
  rw [q3] at r3
  obtain rfl : boxABC = s3 := by injection r3
  have q4 : RemoveCollider boxExt 3 boxABC 1 = .ok boxAC := rfl
  rw [q4] at r4
  obtain rfl : boxAC = s4 := by injection r4
  exact ⟨rfl, rfl, rfl, hnear, rfl, rfl, rfl, rfl, rfl, h.2.2.2.2.2.2.2.2.2.2.2⟩

/-- C13 (static colliders give no pairs): on every state whose index holds
static colliders only, the empty tree included, `GetCollisionPairs` completes
with any fuel and returns the empty set, whatever boxes the nodes store and
whatever set the previous call left. -/
theorem all_static_no_pairs (ext : Externals AABB F Ray Hit) (env : ColliderEnv AABB F Ray Hit)
    (fuel : Nat) (s : BVTree AABB) (h : ∀ e ∈ s.colNodeMap, env.IsStatic e.1 = true) :
    GetCollisionPairs ext env fuel s = .ok { s with colliderPairSet := [] } := by
  simp only [GetCollisionPairs, each_static ext env fuel s.mem s.root s.colNodeMap [] h]

/-- Witness for C13: the three-collider tree on a line with all colliders
static and a pair left by an earlier call. -/
theorem all_static_no_pairs_witness :
    (∀ e ∈ ({ line3 with colliderPairSet := [(1, some 2)] } : BVTree Interval).colNodeMap,
      lineStatic.IsStatic e.1 = true) ∧
    GetCollisionPairs lineExt lineStatic 0 { line3 with colliderPairSet := [(1, some 2)] } =
      .ok { line3 with colliderPairSet := [] } :=
  ⟨fun _ _ => rfl, all_static_no_pairs lineExt lineStatic 0
    { line3 with colliderPairSet := [(1, some 2)] } (fun _ _ => rfl)⟩

/-- C14 (raycast pruning): when the tree is empty, or the ray misses the box
of the root within `maxDistance`, `Raycast` returns false and leaves `hitInfo`
as it was, and it does so for every behaviour of the colliders, so the exact
`Raycast` of no collider enters the result. -/
theorem raycast_pruning (ext : Externals AABB F Ray Hit) (s : BVTree AABB) (ray : Ray)
    (hitInfo : Hit) (maxD : F) (fuel : Nat) (hfuel : 0 < fuel)
    (h : s.root = none ∨
      ∃ r n, s.root = some r ∧ s.mem r = some n ∧ ext.RaycastAABB n.aabb ray maxD = false) :
    ∀ env : ColliderEnv AABB F Ray Hit,
      Raycast ext env fuel s ray hitInfo maxD = .ok (false, hitInfo) := by
  intro env
  obtain ⟨k, rfl⟩ : ∃ k, fuel = k + 1 := ⟨fuel - 1, by omega⟩
  rcases h with h | ⟨r, n, h1, h2, h3⟩
  · simp [Raycast, h, RaycastNode]
  · simp [Raycast, h1, RaycastNode, h2, h3]

/-- Witness for C14: a ray from 100 upwards misses the root box `[4, 27]` of
the three-collider tree on a line. -/
theorem raycast_pruning_witness :
    (line3.root = none ∨ ∃ r n, line3.root = some r ∧ line3.mem r = some n ∧
      lineExt.RaycastAABB n.aabb 100 50 = false) ∧
    ∀ env : ColliderEnv Interval Nat Nat Nat,
      Raycast lineExt env 1 line3 100 7 50 = .ok (false, 7) :=
  ⟨Or.inr ⟨2, _, rfl, rfl, by decide⟩,
    raycast_pruning lineExt line3 100 7 50 1 (by decide) (Or.inr ⟨2, _, rfl, rfl, by decide⟩)⟩

/-- C15 (no orphaned nodes): in every state reached from the empty tree by
calls that respect their preconditions, a node is live (allocated and not
released) exactly when it is linked to the root; and each further call with
enough fuel completes, so that no release of a node that is not live, which
`DeleteOnFreeList` reports, takes place. -/
theorem no_orphaned_nodes (ext : Externals AABB F Ray Hit) {A : List Collider} {s : BVTree AABB}
    (h : Reachable ext A s) :
    (∀ p, (∃ n, s.mem p = some n) ↔ Linked s p) ∧
    (∀ (env : ColliderEnv AABB F Ray Hit) fuel c, c ∉ A → s.brk ≤ fuel →
      ∃ s1, AddCollider ext env fuel s c = .ok s1) ∧
    (∀ fuel c, c ∈ A → s.brk ≤ fuel → ∃ s1, RemoveCollider ext fuel s c = .ok s1) ∧
    (∀ (env : ColliderEnv AABB F Ray Hit) fuel, s.brk ≤ fuel →
      ∃ s1, Update ext env fuel s = .ok s1) := by
  obtain ⟨hwf, _, hkeys⟩ := h.wf
  obtain ⟨t, hinv, hidx⟩ := id hwf
  refine ⟨fun p => ⟨fun ⟨n, hn⟩ => (hwf.node hn).1, fun hp => hwf.linked_live hp⟩, ?_, ?_, ?_⟩
  · intro env fuel c hc hf
    have habs : mapFind s.colNodeMap c = none := by
      by_contra hne
      exact hc ((hkeys c).1 hne)
    obtain ⟨s1, _, _, g1, _⟩ := AddCollider_spec ext env hinv hidx habs
      (le_trans hinv.size_le_brk hf)
    exact ⟨s1, g1⟩
  · intro fuel c hc hf
    cases hfind : mapFind s.colNodeMap c with
    | none => exact absurd hfind ((hkeys c).2 hc)
    | some node =>
      obtain ⟨s1, _, g1, _⟩ := RemoveCollider_spec ext hinv hidx hfind
        (le_trans hinv.size_le_brk hf)
      exact ⟨s1, g1⟩
  · intro env fuel hf
    obtain ⟨s1, _, g1, _⟩ := Update_spec ext env hinv hidx (le_trans hinv.size_le_brk hf)
    exact ⟨s1, g1⟩

/-- Witness for C15: the three-collider tree on a line; address 4 holds a
node and address 5 holds none. -/
theorem no_orphaned_nodes_witness :
    Reachable lineExt [2, 1, 0] line3 ∧ Linked line3 4 ∧ ¬ Linked line3 5 :=
  ⟨line3_reachable, ((no_orphaned_nodes lineExt line3_reachable).1 4).1 ⟨_, rfl⟩,
    fun h => by
      obtain ⟨n, hn⟩ := ((no_orphaned_nodes lineExt line3_reachable).1 5).2 h
      have h5 : line3.mem 5 = none := rfl
      rw [h5] at hn; cases hn⟩

/-- C16 (pool exhaustion is reported): `PoolAllocator::Get` raises the
out-of-range error exactly when `head` is null, and then leaves the pool as it
was; otherwise it returns the chunk at `head` and makes the successor of that
chunk the new `head`. -/
theorem pool_get_exhaustion (p : PoolAllocator) :
    (p.Get.1 = .error .outOfRange ↔ p.head = none) ∧
    (p.head = none → p.Get = (.error .outOfRange, p)) ∧
    (∀ h, p.head = some h → p.Get = (.ok h, { p with head := p.next h })) := by
  unfold PoolAllocator.Get
  cases hh : p.head with
  | none => simp
  | some h => simp

/-- Witness for C16: a pool of two chunks serves the chunk at 64 and then has
the chunk at 72 as head; an exhausted pool raises the error and stays as it
is. -/
theorem pool_get_exhaustion_witness :
    poolTwo.Get = (.ok 64, { poolTwo with head := some 72 }) ∧
      poolDone.Get = (.error .outOfRange, poolDone) :=
  ⟨(pool_get_exhaustion poolTwo).2.2 64 rfl, (pool_get_exhaustion poolDone).2.1 rfl⟩

/-- C20 (`Update` of a settled tree): on a well-formed state in which the
box stored in every leaf contains the tight box of its collider, `Update`
completes and returns the state unchanged (root, nodes with links and boxes,
index); and when every fresh fat box contains the tight box of its collider
and the colliders do not move between the calls, a second `Update` returns
what the first one returned. -/
theorem update_settled_noop (ext : Externals AABB F Ray Hit) (env : ColliderEnv AABB F Ray Hit)
    {s : BVTree AABB} (hwf : WF ext s) :
    ((∀ c p n, LeafAt s c p → s.mem p = some n →
        ext.Contains n.aabb (env.GetAABB c) = true) →
      (∀ fuel, s.brk ≤ fuel → Update ext env fuel s = .ok s) ∧
      ∀ fuel s1, Update ext env fuel s = .ok s1 → s1 = s) ∧
    ((∀ c, ext.Contains (env.GetFatAABB c) (env.GetAABB c) = true) →
      ∀ f1 s1, Update ext env f1 s = .ok s1 →
        (∀ f2, s1.brk ≤ f2 → Update ext env f2 s1 = .ok s1) ∧
        ∀ f2 s2, Update ext env f2 s1 = .ok s2 → s2 = s1) := by
  have key : ∀ {s0 : BVTree AABB}, WF ext s0 →
      (∀ c p n, LeafAt s0 c p → s0.mem p = some n →
        ext.Contains n.aabb (env.GetAABB c) = true) →
      (∀ fuel, s0.brk ≤ fuel → Update ext env fuel s0 = .ok s0) ∧
      ∀ fuel s1, Update ext env fuel s0 = .ok s1 → s1 = s0 := by
    intro s0 hwf0 hset
    obtain ⟨t, hinv, hidx⟩ := id hwf0
    have h1 : ∀ fuel, s0.brk ≤ fuel → Update ext env fuel s0 = .ok s0 := by
      intro fuel hf
      refine Update_settled ext env hinv (le_trans hinv.size_le_brk hf) ?_
      intro e he m hm
      have hmem : e ∈ s0.colNodeMap := (hidx.entries e).2 (Or.inl he)
      exact hset e.1 e.2 m ((hwf0.leafAt_iff e.1 e.2).2 hmem) hm
    refine ⟨h1, fun fuel s1 hrun => ?_⟩
    have h2 := Update_mono ext env (le_max_left fuel s0.brk) hrun
    rw [h1 _ (le_max_right _ _)] at h2
    injection h2 with h2
    exact h2.symm
  refine ⟨key hwf, fun hfat f1 s1 hrun => ?_⟩
  obtain ⟨g1, g2, g3⟩ := Update_leaves ext env hwf hrun
  refine key g1 ?_
  intro c p n1 hl hn1
  have hl0 := (g2 c p).1 hl
  obtain ⟨n, hn⟩ := hwf.linked_live hl0.1
  obtain ⟨n2, e1, e2⟩ := g3 c p n hl0 hn
  rw [hn1] at e1
  obtain rfl := Option.some.inj e1
  rw [e2]
  by_cases hc : ext.Contains n.aabb (env.GetAABB c) = true
  · rw [if_pos hc]; exact hc
  · rw [if_neg hc]; exact hfat c

/-- Witness for C20: the three-collider tree on a line, whose leaves store
boxes with a margin of one around the tight boxes. -/
theorem update_settled_noop_witness :
    WF lineExt line3 ∧
    (∀ c p n, LeafAt line3 c p → line3.mem p = some n →
      lineExt.Contains n.aabb (lineEnv.GetAABB c) = true) ∧
    Update lineExt lineEnv 5 line3 = .ok line3 :=
  have hset : ∀ c p n, LeafAt line3 c p → line3.mem p = some n →
      lineExt.Contains n.aabb (lineEnv.GetAABB c) = true := by
    intro c p n hl hn
    have hmem := (line3_wf.leafAt_iff c p).1 hl
    have hin : (c, p) ∈ [((0 : Nat), (0 : Nat)), (1, 1), (2, 3)] := hmem
    simp only [List.mem_cons, Prod.mk.injEq, List.mem_singleton, List.not_mem_nil,
      or_false] at hin
    rcases hin with ⟨rfl, rfl⟩ | ⟨rfl, rfl⟩ | ⟨rfl, rfl⟩ <;>
    · obtain rfl := Option.some.inj hn
      decide
  ⟨line3_wf, hset, ((update_settled_noop lineExt lineEnv line3_wf).1 hset).1 5 (by decide)⟩

/-- C12 (two-collider scenario): in the tree built from the empty tree by
`AddCollider` of two different colliders `a` and `b`, one static and the other
not, where the fat box of the static one passes the `Intersect` test against
the fat box of the other, `GetCollisionPairs` with three units of fuel or
more returns a set with exactly one pair, that of the two colliders. -/
theorem two_collider_scenario (ext : Externals AABB F Ray Hit) (env : ColliderEnv AABB F Ray Hit)
    {f1 f2 fuel : Nat} {a b : Collider} {s1 s2 : BVTree AABB} (hab : a ≠ b)
    (h1 : AddCollider ext env f1 (BVTree.empty AABB) a = .ok s1)
    (h2 : AddCollider ext env f2 s1 b = .ok s2) (hfuel : 3 ≤ fuel) :
    (env.IsStatic a = true → env.IsStatic b = false →
      ext.Intersect (env.GetFatAABB a) (env.GetFatAABB b) = true →
      GetCollisionPairs ext env fuel s2 = .ok { s2 with colliderPairSet := [(b, some a)] }) ∧
    (env.IsStatic a = false → env.IsStatic b = true →
      ext.Intersect (env.GetFatAABB b) (env.GetFatAABB a) = true →
      GetCollisionPairs ext env fuel s2 = .ok { s2 with colliderPairSet := [(a, some b)] }) := by
  obtain ⟨hroot, hmap, e0, e1, e2⟩ := AddCollider_second ext env hab h1 h2
  obtain ⟨k, rfl⟩ : ∃ k, fuel = k + 3 := ⟨fuel - 3, by omega⟩
  constructor
  · intro hsa hsb hint
    cases hself : ext.Intersect (env.GetFatAABB b) (env.GetFatAABB b) <;>
      simp [GetCollisionPairs, hroot, hmap, GetCollisionPairs.each, hsa, hsb,
        GetCollisionPairs.walk, e0, e1, e2, Node.IsLeaf, deref, hint, hself, pairInsert, hab,
        Ne.symm hab]
  · intro hsa hsb hint
    cases hself : ext.Intersect (env.GetFatAABB a) (env.GetFatAABB a) <;>
      simp [GetCollisionPairs, hroot, hmap, GetCollisionPairs.each, hsa, hsb,
        GetCollisionPairs.walk, e0, e1, e2, Node.IsLeaf, deref, hint, hself, pairInsert, hab,
        Ne.symm hab]

/-- Witness for C12: the static collider 0 with fat box `[0, 5]` and the
moving collider 1 with fat box `[2, 7]` on a line. -/
theorem two_collider_scenario_witness :
    AddCollider lineExt lineNear 0 (BVTree.empty Interval) 0 = .ok near1 ∧
    AddCollider lineExt lineNear 1 near1 1 = .ok near2 ∧
    lineNear.IsStatic 0 = true ∧ lineNear.IsStatic 1 = false ∧
    lineExt.Intersect (lineNear.GetFatAABB 0) (lineNear.GetFatAABB 1) = true ∧
    GetCollisionPairs lineExt lineNear 3 near2 =
      .ok { near2 with colliderPairSet := [(1, some 0)] } :=
  ⟨rfl, rfl, rfl, rfl, by decide,
    (two_collider_scenario lineExt lineNear (show (0 : Collider) ≠ 1 by decide)
      (show AddCollider lineExt lineNear 0 (BVTree.empty Interval) 0 = .ok near1 from rfl)
      (show AddCollider lineExt lineNear 1 near1 1 = .ok near2 from rfl) (le_refl 3)).1 rfl rfl
      (by decide)⟩

/-- C19 (add/remove round trip): on a well-formed state, `AddCollider` of a
collider that is not indexed completes, the `RemoveCollider` of the same
collider that follows completes, and afterwards the root, every node of the
heap with its links, collider and box, the index and the pair set are what
they were before the two calls. -/
theorem add_remove_round_trip (ext : Externals AABB F Ray Hit) (env : ColliderEnv AABB F Ray Hit)
    {s : BVTree AABB} {c : Collider} (hwf : WF ext s) (habs : mapFind s.colNodeMap c = none) :
    (∀ f1, s.brk ≤ f1 → ∃ s1, AddCollider ext env f1 s c = .ok s1) ∧
    ∀ f1 s1, AddCollider ext env f1 s c = .ok s1 →
      (∀ f2, s1.brk ≤ f2 → ∃ s2, RemoveCollider ext f2 s1 c = .ok s2) ∧
      ∀ f2 s2, RemoveCollider ext f2 s1 c = .ok s2 →
        s2.root = s.root ∧ s2.mem = s.mem ∧ s2.colNodeMap = s.colNodeMap ∧
          s2.colliderPairSet = s.colliderPairSet := by
  obtain ⟨t, hinv, hidx⟩ := id hwf
  constructor
  · intro f1 hf
    obtain ⟨s1, _, _, g1, _⟩ := AddCollider_spec ext env hinv hidx habs
      (le_trans hinv.size_le_brk hf)
    exact ⟨s1, g1⟩
  · intro f1 s1 hrun
    obtain ⟨hwf1, hkeys⟩ := hwf.addCollider env habs hrun
    constructor
    · intro f2 hf
      obtain ⟨t1, hinv1, hidx1⟩ := id hwf1
      cases hfind : mapFind s1.colNodeMap c with
      | none => exact absurd hfind ((hkeys c).2 (Or.inl rfl))
      | some node =>
        obtain ⟨s2, _, g1, _⟩ := RemoveCollider_spec ext hinv1 hidx1 hfind
          (le_trans hinv1.size_le_brk hf)
        exact ⟨s2, g1⟩
    · intro f2 s2 hrun2
      have hle1 : f1 ≤ max (max f1 f2) (max s.brk s1.brk) :=
        le_trans (le_max_left _ _) (le_max_left _ _)
      have hle2 : f2 ≤ max (max f1 f2) (max s.brk s1.brk) :=
        le_trans (le_max_right _ _) (le_max_left _ _)
      have hle3 : s.brk ≤ max (max f1 f2) (max s.brk s1.brk) :=
        le_trans (le_max_left _ _) (le_max_right _ _)
      have hle4 : s1.brk ≤ max (max f1 f2) (max s.brk s1.brk) :=
        le_trans (le_max_right _ _) (le_max_right _ _)
      exact AddRemove_restores ext env hinv habs (le_trans hinv.size_le_brk hle3) hle4
        (AddCollider_mono ext env hle1 hrun) (RemoveCollider_mono ext hle2 hrun2)

/-- Witness for C19: adding collider 2 to the two-collider tree on a line and
removing it again gives back the two-collider tree. -/
theorem add_remove_round_trip_witness :
    WF lineExt line2 ∧ mapFind line2.colNodeMap 2 = none ∧
    AddCollider lineExt lineEnv 3 line2 2 = .ok line3 ∧
    RemoveCollider lineExt 5 line3 2 = .ok line3Back ∧
    line3Back.root = line2.root ∧ line3Back.mem = line2.mem ∧
    line3Back.colNodeMap = line2.colNodeMap ∧
    line3Back.colliderPairSet = line2.colliderPairSet :=
  ⟨line2_reachable.wf.1, rfl, rfl, rfl,
    ((add_remove_round_trip lineExt lineEnv line2_reachable.wf.1
      (show mapFind line2.colNodeMap 2 = none from rfl)).2 3 line3 rfl).2 5 line3Back rfl⟩

end Scenarios

end Isetta


namespace Isetta

section Refinement

variable {AABB F Ray Hit : Type}

theorem line1_inv : Inv lineExt line1 (some (.leaf 0 0)) [] := by
  have h0 : Inv lineExt ({ (BVTree.empty Interval) with
      colNodeMap := [(0, 0)]
      mem := Function.update (BVTree.empty Interval).mem 0 (some (Node.ofCollider lineEnv 0))
      brk := 1 } : BVTree Interval) none [(0, 0)] :=
    Inv.alloc_leaf lineEnv 0 (Inv_empty lineExt) rfl rfl rfl
  obtain ⟨s1, g1, g2, _⟩ := AddNode_none lineExt 0 h0
  have e : AddNode lineExt 0 ({ (BVTree.empty Interval) with
      colNodeMap := [(0, 0)]
      mem := Function.update (BVTree.empty Interval).mem 0 (some (Node.ofCollider lineEnv 0))
      brk := 1 } : BVTree Interval) 0 = .ok line1 := rfl
  rw [e] at g1
  obtain rfl : line1 = s1 := by injection g1
  exact g2

theorem line1Pending_inv : Inv lineExt line1Pending (some (.leaf 0 0)) [(1, 1)] :=
  Inv.alloc_leaf lineEnv 1 line1_inv rfl rfl rfl

theorem line2_inv : Inv lineExt line2 (some (.branch 2 (.leaf 0 0) (.leaf 1 1))) [] := by
  have hd : AddNode.descend lineExt line1Pending.mem (Node.ofCollider lineEnv 1).aabb 1
      (plug (.leaf 0 0) []).ptr = .ok 0 := rfl
  obtain ⟨s1, b, _, g1, g2, _⟩ := @AddNode_at _ _ _ _ lineExt line1Pending [] 0 0 [] 1 1
    (Node.ofCollider lineEnv 1) 1 line1Pending_inv rfl hd (by decide)
  have e : AddNode lineExt 1 line1Pending 1 = .ok line2 := rfl
  rw [e] at g1
  obtain rfl : line2 = s1 := by injection g1
  have hb : b = 2 := by
    have := g2.root_eq
    have hr : line2.root = some 2 := rfl
    rw [hr] at this
    simpa [plug] using this.symm
  subst hb
  exact g2

theorem line2Pending_inv :
    Inv lineExt line2Pending (some (.branch 2 (.leaf 0 0) (.leaf 1 1))) [(2, 3)] :=
  Inv.alloc_leaf lineEnv 2 line2_inv rfl rfl rfl

/-- C17 (insertion equals the reference algorithm): for a state that holds
the tree `t` and the allocated leaf `n` of collider `c` outside it, `AddNode`
with enough fuel completes.  If the tree is empty, `n` becomes the root, with
no parent.  Otherwise the state afterwards holds the tree of the reference
insertion, whose descent goes right exactly when the increase of surface area
on the left is greater than that on the right and ends in a leaf `L`: a new
branch `b` stands in the slot of `L` (its parent is the parent `L` had, and it
is the root if `L` was), its left child is `L`, its right child `n`, its box
the union of the boxes of `L` and `n`; and every node but the parent of `L`
keeps its children. -/
theorem addNode_reference (ext : Externals AABB F Ray Hit) {s : BVTree AABB} {t : Option Shape}
    {D : List (Collider × NodePtr)} {c : Collider} {n : NodePtr} {nn : Node AABB} {fuel : Nat}
    (hinv : Inv ext s t ((c, n) :: D)) (hnn : s.mem n = some nn)
    (hf : (ptrsOf t).length ≤ fuel) :
    ∃ s1, AddNode ext fuel s n = .ok s1 ∧
      (t = none → s1.root = some n ∧ Inv ext s1 (some (.leaf n c)) D ∧
        ∃ m, s1.mem n = some m ∧ m.parent = none) ∧
      (∀ t0, t = some t0 → ∃ b Ln bn,
        s.mem b = none ∧ s.mem (refLeaf ext s.mem nn.aabb t0).2 = some Ln ∧
        Inv ext s1 (some (refInsert ext s.mem nn.aabb b n c t0)) D ∧
        s1.root = some (refInsert ext s.mem nn.aabb b n c t0).ptr ∧
        s1.mem b = some bn ∧ bn.parent = Ln.parent ∧
        bn.left = some (refLeaf ext s.mem nn.aabb t0).2 ∧ bn.right = some n ∧
        bn.collider = none ∧ bn.aabb = ext.Encapsulate Ln.aabb nn.aabb ∧
        (∀ q m, s.mem q = some m → some q ≠ Ln.parent →
          ∃ m1, s1.mem q = some m1 ∧ m1.left = m.left ∧ m1.right = m.right)) := by
  cases t with
  | none =>
    obtain ⟨s1, g1, g2, _⟩ := AddNode_none ext fuel hinv
    refine ⟨s1, g1, fun _ => ⟨by simpa using g2.root_eq, g2, ?_⟩, fun t0 h => by cases h⟩
    obtain ⟨m, hm, hp, _⟩ := g2.rep _ rfl
    exact ⟨m, hm, hp⟩
  | some t0 =>
    have hf0 : t0.ptrs.length ≤ fuel := hf
    obtain ⟨hd, ht⟩ := descend_ref ext nn.aabb (hinv.rep t0 rfl) hf0
    obtain ⟨L, hL⟩ : ∃ L, L = (refLeaf ext s.mem nn.aabb t0).2 := ⟨_, rfl⟩
    obtain ⟨c0, hc0⟩ : ∃ c0, c0 = (refLeaf ext s.mem nn.aabb t0).1 := ⟨_, rfl⟩
    obtain ⟨ctx, hctx⟩ : ∃ ctx, ctx = refPath ext s.mem nn.aabb t0 := ⟨_, rfl⟩
    have hpl : ∀ b, plug (.branch b (.leaf L c0) (.leaf n c)) ctx =
        refInsert ext s.mem nn.aabb b n c t0 := by
      intro b
      rw [hL, hc0, hctx]
      exact plug_refPath ext s.mem nn.aabb b n c t0
    rw [← hL, ← hc0, ← hctx] at ht
    rw [← hL] at hd
    have hinv2 : Inv ext s (some (plug (.leaf L c0) ctx)) ((c, n) :: D) := ht ▸ hinv
    have hd2 : AddNode.descend ext s.mem nn.aabb fuel (plug (.leaf L c0) ctx).ptr = .ok L :=
      ht ▸ hd
    have hf2 : (plug (.leaf L c0) ctx).ptrs.length ≤ fuel := ht ▸ hf0
    obtain ⟨s1, b, hbfree, g1, g2, _, _, g5, g6⟩ := AddNode_at ext hinv2 hnn hd2 hf2
    obtain ⟨⟨Ln, hLn, hLp, _, _, hLc⟩, _⟩ := Rep_plug.1 (hinv2.rep _ rfl)
    obtain ⟨⟨⟨bn, hbn, hbp, hbl, hbr, hbc⟩, _, _⟩, _⟩ := Rep_plug.1 (g2.rep _ rfl)
    obtain ⟨⟨x, xl, xr, hx, hxl, hxr, hbox⟩, _⟩ := (Boxed_plug.1 (g2.boxed _ rfl)).1
    obtain ⟨_, hnn1, _, _, hnc⟩ := hinv.det_head
    rw [hnn] at hnn1
    obtain rfl := Option.some.inj hnn1
    obtain ⟨m1, e1, e2, _⟩ := g5 L Ln hLn (by rw [hLc]; simp)
    obtain ⟨m2, k1, k2, _⟩ := g5 n _ hnn (by rw [hnc]; simp)
    simp only [Shape.ptr_leaf] at hxl hxr hbl hbr
    rw [hbn] at hx
    rw [e1] at hxl
    rw [k1] at hxr
    obtain rfl := Option.some.inj hx
    obtain rfl := Option.some.inj hxl
    obtain rfl := Option.some.inj hxr
    refine ⟨s1, g1, fun h => (by cases h), fun t1 ht1 => ?_⟩
    obtain rfl := Option.some.inj ht1
    rw [hpl b] at g2
    rw [← hL]
    refine ⟨b, Ln, _, hbfree, hLn, g2, by simpa using g2.root_eq, hbn, by rw [hbp, hLp], hbl,
      hbr, hbc, by rw [hbox, e2, k2], ?_⟩
    intro q m hm hq
    exact g6 q m hm (by rw [← hLp]; exact fun h => hq h.symm)

/-- Witness for C17: `AddNode` of the pending leaf of collider 2, with box
`[24, 27]`, into the two-collider tree on a line; the reference descent ends
in the leaf of collider 1 at address 1, the right child of the root. -/
theorem addNode_reference_witness :
    Inv lineExt line2Pending (some (.branch 2 (.leaf 0 0) (.leaf 1 1))) [(2, 3)] ∧
    line2Pending.mem 3 = some (Node.ofCollider lineEnv 2) ∧
    refLeaf lineExt line2Pending.mem (24, 27) (.branch 2 (.leaf 0 0) (.leaf 1 1)) = (1, 1) ∧
    ∃ s1, AddNode lineExt 3 line2Pending 3 = .ok s1 :=
  ⟨line2Pending_inv, rfl, by decide,
    (addNode_reference lineExt line2Pending_inv
      (show line2Pending.mem 3 = some (Node.ofCollider lineEnv 2) from rfl)
      (show (ptrsOf (some (Shape.branch 2 (.leaf 0 0) (.leaf 1 1)))).length ≤ 3 by
        decide)).imp fun _ h => h.1⟩

/-- C18 (removal equals the reference algorithm): for a state that holds a
tree with the leaf `node` below the path `ctx` (innermost frame first: the
parent of `node`, then the grandparent, up to the root), `RemoveNode` with
enough fuel completes and the state afterwards holds the tree of the
reference removal: the empty tree when `node` was the root, the sibling
subtree as root, with no parent, when the parent of `node` was the root, and
otherwise the tree with the sibling subtree in the slot the parent had below
the grandparent.  The parent branch is released, and every node that is
neither `node` nor on the path keeps its children and its box. -/
theorem removeNode_reference (ext : Externals AABB F Ray Hit) {s : BVTree AABB}
    {ctx : List Frame} {D : List (Collider × NodePtr)} {c : Collider} {node : NodePtr}
    {fuel : Nat} (del : Bool)
    (hinv : Inv ext s (some (plug (.leaf node c) ctx)) D)
    (hf : (plug (.leaf node c) ctx).ptrs.length ≤ fuel) :
    ∃ s1 nn, RemoveNode ext fuel s node del = .ok s1 ∧
      s.mem node = some nn ∧ nn.parent = ctxParent none ctx ∧
      Inv ext s1 (refRemove ctx) (if del then D else (c, node) :: D) ∧
      s1.root = (refRemove ctx).map Shape.ptr ∧
      (∀ t1, refRemove ctx = some t1 → ∃ m, s1.mem t1.ptr = some m ∧ m.parent = none) ∧
      (∀ q, nn.parent = some q → s1.mem q = none) ∧
      (∀ q m, s.mem q = some m → q ≠ node → q ∉ ctx.map Frame.p →
        ∃ m1, s1.mem q = some m1 ∧ m1.left = m.left ∧ m1.right = m.right ∧
          m1.aabb = m.aabb) := by
  obtain ⟨⟨nn, hnn, hnp, _⟩, _⟩ := Rep_plug.1 (hinv.rep _ rfl)
  obtain ⟨sa, h1, h2, _, _, _, _, h7, h8⟩ := RemoveNode_unlink_frame ext hinv hf
  obtain ⟨s1, k1, k2, _, _, _, _, k7, _⟩ := RemoveNode.finish_spec del h2
  rw [← refRemove_eq_unplug] at k2 h2
  refine ⟨s1, nn, by rw [h1 del, k1], hnn, hnp, k2, k2.root_eq, fun t1 ht1 => ?_,
    fun q hq => ?_, fun q m hm hq1 hq2 => ?_⟩
  · rw [ht1] at k2
    exact (k2.rep t1 rfl).top
  · have e1 : sa.mem q = none := h7 q (by rw [← hnp, hq])
    have hq1 : q ≠ node := by
      rintro rfl
      obtain ⟨_, e2, _⟩ := h2.det_head
      rw [e1] at e2; cases e2
    rw [k7 q hq1, e1]
  · obtain ⟨m1, e1, e2, e3, e4, _⟩ := h8 q m hm hq2
    exact ⟨m1, by rw [k7 q hq1, e1], e2, e3, e4⟩

/-- Witness for C18: `RemoveNode` of the leaf of collider 1, the right child
of the root at address 2, in the two-collider tree on a line. -/
theorem removeNode_reference_witness :
    Inv lineExt line2 (some (plug (.leaf 1 1) [⟨2, false, .leaf 0 0⟩])) [] ∧
    ∃ s1 nn, RemoveNode lineExt 3 line2 1 true = .ok s1 ∧ line2.mem 1 = some nn ∧
      nn.parent = some 2 ∧ s1.root = some 0 ∧ s1.mem 2 = none :=
  have h : Inv lineExt line2 (some (plug (.leaf 1 1) [⟨2, false, .leaf 0 0⟩])) [] := line2_inv
  ⟨h, by
    obtain ⟨s1, nn, g1, g2, g3, _, g5, _, g7, _⟩ :=
      removeNode_reference lineExt true h (show _ ≤ 3 by decide)
    exact ⟨s1, nn, g1, g2, g3, g5, g7 2 g3⟩⟩

end Refinement

end Isetta


namespace Isetta

section Counting

variable {AABB F Ray Hit : Type}

/-! ## Leaves and branches of the tree in the heap -/

theorem Shape.branches_succ (t : Shape) : t.branches + 1 = t.leaves.length := by
  induction t with
  | leaf p c => simp [Shape.branches, Shape.leaves]
  | branch p l r ihl ihr =>
    simp only [Shape.branches, Shape.leaves, List.length_append]
    omega

/-- Among the addresses of a shape held by the heap, those that hold a leaf
node are as many as the leaves of the shape, and those that hold a branch
node as many as its branches. -/
theorem Rep.count {s : BVTree AABB} {par : Option NodePtr} {t : Shape} (h : Rep s.mem par t) :
    (t.ptrs.filter (holdsLeaf s)).length = t.leaves.length ∧
      (t.ptrs.filter (holdsBranch s)).length = t.branches := by
  induction t generalizing par with
  | leaf p c =>
    obtain ⟨n, hn, _, hl, hr, _⟩ := h
    simp [Shape.ptrs, Shape.leaves, Shape.branches, holdsLeaf, holdsBranch, hn, Node.IsLeaf, hl,
      hr]
  | branch p l r ihl ihr =>
    obtain ⟨⟨n, hn, _, hl, hr, _⟩, h1, h2⟩ := h
    obtain ⟨a1, a2⟩ := ihl h1
    obtain ⟨b1, b2⟩ := ihr h2
    simp only [Shape.ptrs, Shape.leaves, Shape.branches, List.filter_cons, List.filter_append,
      List.length_append]
    simp [holdsLeaf, holdsBranch, hn, Node.IsLeaf, hl, hr, a1, a2, b1, b2]

/-- The index has as many entries as the tree has leaves. -/
theorem Indexed.length_eq {ext : Externals AABB F Ray Hit} {s : BVTree AABB} {t : Option Shape}
    (hinv : Inv ext s t []) (hidx : Indexed s t []) :
    s.colNodeMap.length = (leavesOf t).length := by
  have h1 : s.colNodeMap.Nodup := List.Nodup.of_map _ hidx.keys
  have h2 : (leavesOf t).Nodup := List.Nodup.of_map _ hinv.leaves_nodup
  refine ((List.perm_ext_iff_of_nodup h1 h2).2 fun e => ?_).length_eq
  rw [hidx.entries e]
  simp

end Counting

/-! ## The free list built by the constructor of the pool -/

/-- With chunks of at least one address, the loop of the constructor links
the `k + 1` chunks from `cur` on, each to the next, ends the list with a null
pointer and leaves memory below `cur` as it was. -/
theorem PoolAllocator.link_spec {es : Nat} (hes : 1 ≤ es) (k : Nat) :
    ∀ (cur : Nat) (next : Nat → Option Nat), next cur = none →
      (∀ x, x < cur → PoolAllocator.link es k cur cur next x = next x) ∧
      (∀ i, i < k →
        PoolAllocator.link es k cur cur next (cur + i * es) = some (cur + (i + 1) * es)) ∧
      PoolAllocator.link es k cur cur next (cur + k * es) = none := by
  induction k with
  | zero =>
    intro cur next hcur
    refine ⟨fun x _ => rfl, fun i hi => absurd hi (Nat.not_lt_zero i), ?_⟩
    simpa [PoolAllocator.link] using hcur
  | succ k ih =>
    intro cur next hcur
    have hne : cur + es ≠ cur := by omega
    have hstep : PoolAllocator.link es (k + 1) cur cur next =
        PoolAllocator.link es k (cur + es) (cur + es)
          (Function.update (Function.update next (cur + es) none) cur (some (cur + es))) := by
      simp [PoolAllocator.link]
    have hnew : Function.update (Function.update next (cur + es) none) cur (some (cur + es))
        (cur + es) = none := by
      simp [Function.update_apply, hne]
    obtain ⟨h1, h2, h3⟩ := ih (cur + es) _ hnew
    rw [hstep]
    refine ⟨fun x hx => ?_, fun i hi => ?_, ?_⟩
    · rw [h1 x (by omega)]
      have e1 : x ≠ cur := by omega
      have e2 : x ≠ cur + es := by omega
      simp [Function.update_apply, e1, e2]
    · cases i with
      | zero =>
        have := h1 cur (by omega)
        simp only [Nat.zero_mul, Nat.add_zero, Nat.zero_add, Nat.one_mul]
        rw [this]
        simp
      | succ j =>
        have := h2 j (by omega)
        have e1 : cur + (j + 1) * es = cur + es + j * es := by ring
        have e2 : cur + (j + 1 + 1) * es = cur + es + (j + 1) * es := by ring
        rw [e1, e2]
        exact this
    · have e1 : cur + (k + 1) * es = cur + es + k * es := by ring
      rw [e1]
      exact h3

/-- A pool whose `head` starts a list of `k + 1` chunks spaced `es` apart
serves them in order and then raises the out-of-range error. -/
theorem PoolAllocator.GetMany_chain (es : Nat) (k : Nat) :
    ∀ (p : PoolAllocator) (h : Nat), p.head = some h →
      (∀ i, i < k → p.next (h + i * es) = some (h + (i + 1) * es)) →
      p.next (h + k * es) = none →
      (PoolAllocator.GetMany (k + 2) p).1 =
        (List.range (k + 1)).map (fun i => Except.ok (h + i * es)) ++
          [Except.error PoolErr.outOfRange] := by
  induction k with
  | zero =>
    intro p h hh _ hend
    simp only [Nat.zero_mul, Nat.add_zero] at hend
    simp [PoolAllocator.GetMany, PoolAllocator.Get, hh, hend, List.range_succ]
  | succ k ih =>
    intro p h hh hchain hend
    have h0 := hchain 0 (Nat.succ_pos k)
    simp only [Nat.zero_mul, Nat.add_zero, Nat.zero_add, Nat.one_mul] at h0
    have hrec := ih { p with head := p.next h } (h + es) h0
      (fun i hi => by
        have := hchain (i + 1) (by omega)
        have e1 : h + (i + 1) * es = h + es + i * es := by ring
        have e2 : h + (i + 1 + 1) * es = h + es + (i + 1) * es := by ring
        rw [e1, e2] at this
        exact this)
      (by
        have e1 : h + (k + 1) * es = h + es + k * es := by ring
        rw [e1] at hend
        exact hend)
    have hget : p.Get = (Except.ok h, { p with head := p.next h }) := by
      simp [PoolAllocator.Get, hh]
    have hunf : (PoolAllocator.GetMany (k + 1 + 2) p).1 =
        p.Get.1 :: (PoolAllocator.GetMany (k + 2) p.Get.2).1 := rfl
    rw [hunf, hget, hrec]
    conv_rhs => rw [List.range_succ_eq_map, List.map_cons, List.map_map]
    simp only [List.cons_append, Nat.zero_mul, Nat.add_zero, List.cons.injEq, true_and]
    congr 1
    apply List.map_congr_left
    intro i _
    simp only [Function.comp_apply, Nat.succ_eq_add_one]
    congr 1
    ring

/-- The constructor called with a chunk size equal to the size of a pointer
(at least one) and a count of at least one builds a pool that serves `count`
chunks, at `memHead + i * chunkSize` in order, and then raises the
out-of-range error. -/
theorem PoolAllocator.create_serves {ptrSize count : Nat} (memHead : Nat)
    (raw : Nat → Option Nat) (hp : 1 ≤ ptrSize) (hc : 1 ≤ count) :
    ∃ p, PoolAllocator.create ptrSize ptrSize count memHead raw = .ok p ∧
      (PoolAllocator.GetMany (count + 1) p).1 =
        (List.range count).map (fun i => Except.ok (memHead + i * ptrSize)) ++
          [Except.error PoolErr.outOfRange] := by
  obtain ⟨k, rfl⟩ : ∃ k, count = k + 1 := ⟨count - 1, by omega⟩
  have hcr : PoolAllocator.create ptrSize ptrSize (k + 1) memHead raw =
      .ok { capacity := k + 1
            elementSize := ptrSize
            head := some memHead
            memHead := memHead
            next := PoolAllocator.link ptrSize k memHead memHead
              (Function.update raw memHead none) } := by
    simp [PoolAllocator.create]
  obtain ⟨_, h2, h3⟩ := PoolAllocator.link_spec hp k memHead
    (Function.update raw memHead none) (by simp)
  exact ⟨_, hcr, PoolAllocator.GetMany_chain ptrSize k _ memHead rfl h2 h3⟩

end Isetta


namespace Isetta

section Counts

variable {AABB F Ray Hit : Type}

/-- C21 (node count): in every state reached from the empty tree by calls
that respect their preconditions, the index has one entry for each collider
added and not removed since; and with `n` the number of its entries, the
nodes linked to the root are exactly `n` leaves and `n - 1` branches (none
when `n = 0`), and the root is null exactly when `n = 0`. -/
theorem node_count (ext : Externals AABB F Ray Hit) {A : List Collider} {s : BVTree AABB}
    (h : Reachable ext A s) :
    s.colNodeMap.length = A.length ∧
    ∃ ps : List NodePtr, ps.Nodup ∧ (∀ p, p ∈ ps ↔ Linked s p) ∧
      (ps.filter (holdsLeaf s)).length = s.colNodeMap.length ∧
      (ps.filter (holdsBranch s)).length = s.colNodeMap.length - 1 ∧
      (s.root = none ↔ s.colNodeMap.length = 0) := by
  obtain ⟨hwf, hA, hkeys⟩ := h.wf
  obtain ⟨t, hinv, hidx⟩ := hwf
  have hlen := hidx.length_eq hinv
  constructor
  · rw [← List.length_map s.colNodeMap Prod.fst]
    refine ((List.perm_ext_iff_of_nodup hidx.keys hA).2 fun k => ?_).length_eq
    rw [← hkeys k, Ne, mapFind_eq_none]
    simp
  · refine ⟨ptrsOf t, (List.nodup_append.1 hinv.nodup).1,
      fun p => ⟨fun hp => hinv.linked_of_mem hp, fun hp => hinv.mem_of_linked hp⟩, ?_⟩
    cases t with
    | none =>
      have h0 : s.colNodeMap.length = 0 := by simpa [leavesOf] using hlen
      have hr : s.root = none := by simpa using hinv.root_eq
      simp [ptrsOf, h0, hr]
    | some t0 =>
      obtain ⟨c1, c2⟩ := (hinv.rep t0 rfl).count
      have hl : s.colNodeMap.length = t0.leaves.length := hlen
      have hb := t0.branches_succ
      have hpos := t0.leaves_length_pos
      have hr : s.root = some t0.ptr := by simpa using hinv.root_eq
      refine ⟨by rw [hl]; exact c1, ?_, ?_⟩
      · show (t0.ptrs.filter (holdsBranch s)).length = s.colNodeMap.length - 1
        rw [c2, hl]; omega
      · rw [hr, hl]
        constructor
        · intro h; cases h
        · intro h; omega

/-- Witness for C21: the three-collider tree on a line has three index
entries, and its five nodes are three leaves and two branches. -/
theorem node_count_witness :
    Reachable lineExt [2, 1, 0] line3 ∧
    line3.colNodeMap.length = 3 ∧
    ∃ ps : List NodePtr, ps.Nodup ∧ (∀ p, p ∈ ps ↔ Linked line3 p) ∧
      (ps.filter (holdsLeaf line3)).length = line3.colNodeMap.length ∧
      (ps.filter (holdsBranch line3)).length = line3.colNodeMap.length - 1 ∧
      (line3.root = none ↔ line3.colNodeMap.length = 0) :=
  ⟨line3_reachable, (node_count lineExt line3_reachable).1,
    (node_count lineExt line3_reachable).2⟩

end Counts

/-- C22 (guard of the constructor), evaluated on the code: the constructor of
`PoolAllocator` throws exactly when the chunk size is greater than the size of
a pointer and accepts every chunk size up to it.  With pointers of eight
bytes it throws for chunks of sixteen bytes and accepts chunks of four, the
opposite of what its message describes. -/
theorem pool_constructor_guard :
    (∀ ptrSize chunkSize count memHead raw,
      PoolAllocator.create ptrSize chunkSize count memHead raw =
        .error (.overhead chunkSize) ↔ ptrSize < chunkSize) ∧
    (∀ ptrSize chunkSize count memHead raw,
      (∃ p, PoolAllocator.create ptrSize chunkSize count memHead raw = .ok p) ↔
        chunkSize ≤ ptrSize) ∧
    PoolAllocator.create 8 16 1 64 rawZero = .error (.overhead 16) ∧
    ∃ p, PoolAllocator.create 8 4 1 64 rawZero = .ok p := by
  refine ⟨fun ptrSize chunkSize count memHead raw => ?_,
    fun ptrSize chunkSize count memHead raw => ?_, rfl, ⟨_, rfl⟩⟩
  · unfold PoolAllocator.create
    by_cases h : chunkSize > ptrSize
    · simp [h]
    · simp [h]
  · unfold PoolAllocator.create
    by_cases h : chunkSize > ptrSize
    · simp [h]
    · simp [h]; omega

/-- C23 (pool capacity), evaluated where it fails: a pool constructed with
chunks of the size of a pointer and a count of zero has capacity zero, yet its
first `Get` returns `memHead` and only the second raises the out-of-range
error.  And a pool constructed with chunk size zero, which the constructor
accepts, and count three returns `memHead` at every `Get`. -/
theorem pool_count_zero_serves_one :
    (∀ ptrSize memHead raw, ∃ p,
      PoolAllocator.create ptrSize ptrSize 0 memHead raw = .ok p ∧ p.capacity = 0 ∧
        (PoolAllocator.GetMany 2 p).1 = [.ok memHead, .error .outOfRange]) ∧
    (∃ p, PoolAllocator.create 8 8 0 64 rawZero = .ok p ∧
      (PoolAllocator.GetMany 2 p).1 = [.ok 64, .error .outOfRange]) ∧
    ∃ p, PoolAllocator.create 8 0 3 64 rawZero = .ok p ∧
      (PoolAllocator.GetMany 5 p).1 = [.ok 64, .ok 64, .ok 64, .ok 64, .ok 64] := by
  refine ⟨fun ptrSize memHead raw => ?_, ⟨_, rfl, rfl⟩, ⟨_, rfl, rfl⟩⟩
  refine ⟨{ capacity := 0, elementSize := ptrSize, head := some memHead, memHead := memHead,
            next := Function.update raw memHead none }, ?_, rfl, ?_⟩
  · simp [PoolAllocator.create, PoolAllocator.link]
  · simp [PoolAllocator.GetMany, PoolAllocator.Get]

end Isetta
